import Mathlib

/-!
# MazePathFinder: maze generation (randomized Kruskal) and BFS / DFS search

A shallow embedding of `unionfind.cpp`, `maze.cpp` and `pathfinder.cpp`.

Conventions of the embedding.

* C++ `int` values are unbounded integers (`Int`) or, for array indices and
  ranks that are never negative, natural numbers (`Nat`); no arithmetic of
  the program wraps for grids with fewer than `2^31` cells.
* `std::vector` is `List`; `grid[y][x]` is a read of row `y`, column `x`.
* `std::shuffle` draws fresh entropy; the two shuffles of `generateMaze`
  are parameters `shuffle1 shuffle2 : List Wall → List Wall`, and theorems
  assume of them only that the output is a permutation of the input.
* `solveBFS` and `solveDFS` are the same loop in the source up to the
  container and the order of the neighbours; they share `searchLoop`, whose
  flag `lifo` selects the stack and the reversed neighbour list.
* Recursion and loops whose termination rests on an invariant (`find`, the
  search loops, the path reconstruction, the cycle loop) take a fuel
  argument and return `none` when it runs out; the theorems prove that the
  fuel supplied is always enough.
-/

namespace MazePathFinder

/-! ## unionfind.h / unionfind.cpp -/

/-- The class `UnionFind`: the two vectors `parent` and `rank`. -/
structure UnionFind where
  parent : List Nat
  rank : List Nat
deriving DecidableEq

/-- The constructor `UnionFind::UnionFind(int n)`: `parent[i] = i`, `rank[i] = 0`. -/
def UnionFind.new (n : Int) : UnionFind :=
  ⟨List.range n.toNat, List.replicate n.toNat 0⟩

/-- The recursive `UnionFind::find(int x)` with path compression; the first
argument bounds the recursion depth. -/
def UnionFind.findAux : Nat → UnionFind → Nat → Option (Nat × UnionFind)
  | 0, _, _ => none
  | k + 1, uf, x =>
    if uf.parent.getD x 0 ≠ x then
      match UnionFind.findAux k uf (uf.parent.getD x 0) with
      | none => none
      | some (r, uf1) =>
        let uf2 : UnionFind := ⟨uf1.parent.set x r, uf1.rank⟩
        some (uf2.parent.getD x 0, uf2)
    else
      some (uf.parent.getD x 0, uf)

/-- The method `UnionFind::find(int x)`; a parent chain has at most
`parent.size()` nodes. -/
def UnionFind.find (uf : UnionFind) (x : Nat) : Option (Nat × UnionFind) :=
  UnionFind.findAux uf.parent.length uf x

/-- The method `UnionFind::unite(int x, int y)`. -/
def UnionFind.unite (uf : UnionFind) (x y : Nat) : Option (Bool × UnionFind) :=
  match uf.find x with
  | none => none
  | some (rootX, uf1) =>
    match uf1.find y with
    | none => none
    | some (rootY, uf2) =>
      if rootX = rootY then
        some (false, uf2)
      else if uf2.rank.getD rootX 0 < uf2.rank.getD rootY 0 then
        some (true, ⟨uf2.parent.set rootX rootY, uf2.rank⟩)
      else if uf2.rank.getD rootX 0 > uf2.rank.getD rootY 0 then
        some (true, ⟨uf2.parent.set rootY rootX, uf2.rank⟩)
      else
        some (true, ⟨uf2.parent.set rootY rootX,
                     uf2.rank.set rootX (uf2.rank.getD rootX 0 + 1)⟩)

/-- The method `UnionFind::connected(int x, int y)`: `find(x) == find(y)`. -/
def UnionFind.connected (uf : UnionFind) (x y : Nat) : Option (Bool × UnionFind) :=
  match uf.find x with
  | none => none
  | some (rootX, uf1) =>
    match uf1.find y with
    | none => none
    | some (rootY, uf2) => some (decide (rootX = rootY), uf2)

/-! ## maze.h / maze.cpp -/

/-- The struct `Cell`: four wall flags. -/
structure Cell where
  top : Bool
  bottom : Bool
  left : Bool
  right : Bool
deriving DecidableEq

/-- The default-constructed `Cell()`: all four walls present. -/
def Cell.default : Cell := ⟨true, true, true, true⟩

/-- The struct `Wall`: the edge between cells `(x1,y1)` and `(x2,y2)`. -/
structure Wall where
  x1 : Int
  y1 : Int
  x2 : Int
  y2 : Int
deriving DecidableEq

/-- The class `Maze`. -/
structure Maze where
  width : Int
  height : Int
  grid : List (List Cell)
  wallRemovalOrder : List Wall
deriving DecidableEq

/-- The read `grid[y][x]`. -/
def cellAt (grid : List (List Cell)) (x y : Int) : Cell :=
  (grid.getD y.toNat []).getD x.toNat Cell.default

/-- The write `grid[y][x] = f(grid[y][x])` of one cell. -/
def modifyCell (grid : List (List Cell)) (x y : Int) (f : Cell → Cell) : List (List Cell) :=
  grid.set y.toNat ((grid.getD y.toNat []).set x.toNat (f (cellAt grid x y)))

/-- The constructor `Maze::Maze(int w, int h)`: `grid.resize(h, std::vector<Cell>(w))`.
A negative size converts to a `size_t` beyond `max_size()` and the vector
constructor throws, which is `none`. -/
def Maze.new (w h : Int) : Option Maze :=
  if w < 0 ∨ h < 0 then none
  else some ⟨w, h, List.replicate h.toNat (List.replicate w.toNat Cell.default), []⟩

/-- The two nested loops `grid[y][x] = Cell()` over `y < height`, `x < width`. -/
def clearGrid (width height : Int) (grid : List (List Cell)) : List (List Cell) :=
  (List.range height.toNat).foldl
    (fun g (y : Nat) => (List.range width.toNat).foldl
      (fun g1 (x : Nat) => modifyCell g1 x y (fun _ => Cell.default)) g)
    grid

/-- The method `Maze::reset()`. -/
def Maze.reset (m : Maze) : Maze :=
  ⟨m.width, m.height, clearGrid m.width m.height m.grid, []⟩

/-- The candidate list `walls` built by `generateMaze` before shuffling: the
walls between rows first, then the walls between columns. -/
def allWalls (width height : Int) : List Wall :=
  ((List.range (height - 1).toNat).flatMap fun (y : Nat) =>
      (List.range width.toNat).map fun (x : Nat) => Wall.mk x y x (y + 1))
  ++
  ((List.range height.toNat).flatMap fun (y : Nat) =>
      (List.range (width - 1).toNat).map fun (x : Nat) => Wall.mk x y (x + 1) y)

/-- The wall-removal block of `generateMaze` (written out twice in the
source, once in each loop): clears the two facing flags of the wall. -/
def removeWallFromGrid (grid : List (List Cell)) (wall : Wall) : List (List Cell) :=
  if wall.x1 = wall.x2 then
    if wall.y1 < wall.y2 then
      modifyCell (modifyCell grid wall.x1 wall.y1 (fun c => { c with bottom := false }))
        wall.x2 wall.y2 (fun c => { c with top := false })
    else
      modifyCell (modifyCell grid wall.x2 wall.y2 (fun c => { c with bottom := false }))
        wall.x1 wall.y1 (fun c => { c with top := false })
  else
    if wall.x1 < wall.x2 then
      modifyCell (modifyCell grid wall.x1 wall.y1 (fun c => { c with right := false }))
        wall.x2 wall.y2 (fun c => { c with left := false })
    else
      modifyCell (modifyCell grid wall.x2 wall.y2 (fun c => { c with right := false }))
        wall.x1 wall.y1 (fun c => { c with left := false })

/-- The local state of the spanning-tree loop of `generateMaze`. -/
structure TreeState where
  uf : UnionFind
  grid : List (List Cell)
  wallRemovalOrder : List Wall
  skippedWalls : List Wall
deriving DecidableEq

/-- One iteration of `for (const Wall& wall : walls)`. -/
def treeStep (width : Int) (st : TreeState) (wall : Wall) : Option TreeState :=
  let cell1 := (wall.y1 * width + wall.x1).toNat
  let cell2 := (wall.y2 * width + wall.x2).toNat
  match st.uf.connected cell1 cell2 with
  | none => none
  | some (c, uf1) =>
    if !c then
      match uf1.unite cell1 cell2 with
      | none => none
      | some (_, uf2) =>
        some ⟨uf2, removeWallFromGrid st.grid wall, st.wallRemovalOrder ++ [wall],
              st.skippedWalls⟩
    else
      some ⟨uf1, st.grid, st.wallRemovalOrder, st.skippedWalls ++ [wall]⟩

/-- The spanning-tree loop `for (const Wall& wall : walls)`. -/
def treeLoop (width : Int) : TreeState → List Wall → Option TreeState
  | st, [] => some st
  | st, wall :: rest =>
    match treeStep width st wall with
    | none => none
    | some st1 => treeLoop width st1 rest

/-- The cycle loop `for (int i = 0; i < extraCycles && i < skippedWalls.size(); i++)`
on the state (grid, removal log). The first argument bounds the number of
iterations; reading `skippedWalls[i]` past the end is `none`. -/
def cycleLoop (extraCycles : Int) (skippedWalls : List Wall) :
    Nat → Nat → List (List Cell) × List Wall → Option (List (List Cell) × List Wall)
  | fuel, i, (grid, log) =>
    if (i : Int) < extraCycles ∧ i < skippedWalls.length then
      match fuel with
      | 0 => none
      | fuel1 + 1 =>
        match skippedWalls[i]? with
        | none => none
        | some wall =>
          cycleLoop extraCycles skippedWalls fuel1 (i + 1)
            (removeWallFromGrid grid wall, log ++ [wall])
    else
      some (grid, log)

/-- The first half of `Maze::generateMaze`: clear the log and the grid, build
and shuffle the wall list, run the spanning-tree loop. -/
def generateTree (shuffle1 : List Wall → List Wall) (m : Maze) : Option TreeState :=
  let m0 := m.reset
  let walls := shuffle1 (allWalls m.width m.height)
  treeLoop m.width ⟨UnionFind.new (m.width * m.height), m0.grid, m0.wallRemovalOrder, []⟩ walls

/-- The method `Maze::generateMaze(int extraCycles)`. -/
def Maze.generateMaze (shuffle1 shuffle2 : List Wall → List Wall) (m : Maze)
    (extraCycles : Int) : Option Maze :=
  match generateTree shuffle1 m with
  | none => none
  | some st =>
    let skippedWalls := shuffle2 st.skippedWalls
    match cycleLoop extraCycles skippedWalls skippedWalls.length 0
        (st.grid, st.wallRemovalOrder) with
    | none => none
    | some (grid, log) => some ⟨m.width, m.height, grid, log⟩

/-- The method `Maze::getCell(int x, int y)`. -/
def Maze.getCell (m : Maze) (x y : Int) : Cell :=
  if x ≥ 0 ∧ x < m.width ∧ y ≥ 0 ∧ y < m.height then cellAt m.grid x y
  else Cell.default

/-- The method `Maze::hasWall(int x, int y, int direction)`;
0 = top, 1 = right, 2 = bottom, 3 = left. -/
def Maze.hasWall (m : Maze) (x y direction : Int) : Bool :=
  if x < 0 ∨ x ≥ m.width ∨ y < 0 ∨ y ≥ m.height then true
  else if direction = 0 then (cellAt m.grid x y).top
  else if direction = 1 then (cellAt m.grid x y).right
  else if direction = 2 then (cellAt m.grid x y).bottom
  else if direction = 3 then (cellAt m.grid x y).left
  else true


/-! ## pathfinder.h / pathfinder.cpp -/

/-- The struct `PathResult`. -/
structure PathResult where
  path : List (Int × Int)
  explored : List (Int × Int)
  stepsCount : Nat
  found : Bool
deriving DecidableEq

/-- The class `PathFinder`: the maze and the fixed start and end coordinates. -/
structure PathFinder where
  maze : Maze
  startX : Int
  startY : Int
  endX : Int
  endY : Int

/-- The method `PathFinder::isValid(int x, int y)`. -/
def PathFinder.isValid (pf : PathFinder) (x y : Int) : Bool :=
  decide (x ≥ 0) && decide (x < pf.maze.width) && decide (y ≥ 0) && decide (y < pf.maze.height)

/-- The method `PathFinder::getNeighbors(int x, int y)`: top, right, bottom, left. -/
def PathFinder.getNeighbors (pf : PathFinder) (x y : Int) : List (Int × Int) :=
  (if !pf.maze.hasWall x y 0 && pf.isValid x (y - 1) then [(x, y - 1)] else []) ++
  (if !pf.maze.hasWall x y 1 && pf.isValid (x + 1) y then [(x + 1, y)] else []) ++
  (if !pf.maze.hasWall x y 2 && pf.isValid x (y + 1) then [(x, y + 1)] else []) ++
  (if !pf.maze.hasWall x y 3 && pf.isValid (x - 1) y then [(x - 1, y)] else [])

/-- The read `v[y][x]` of a vector of vectors (`visited`, `parent`). -/
def readAt {α : Type} (v : List (List α)) (x y : Int) (d : α) : α :=
  (v.getD y.toNat []).getD x.toNat d

/-- The write `v[y][x] = a` of a vector of vectors. -/
def writeAt {α : Type} (v : List (List α)) (x y : Int) (a : α) : List (List α) :=
  v.set y.toNat ((v.getD y.toNat []).set x.toNat a)

/-- The local variables of a search: the `visited` and `parent` tables, the
frontier (the queue of `solveBFS`, front first; the stack of `solveDFS`, top
first) and the result under construction. -/
structure SearchState where
  visited : List (List Bool)
  parent : List (List (Int × Int))
  frontier : List (Int × Int)
  result : PathResult

/-- The push onto the frontier: `q.push` appends at the back of the queue,
`st.push` puts on top of the stack. -/
def pushFrontier (lifo : Bool) (frontier : List (Int × Int)) (c : Int × Int) :
    List (Int × Int) :=
  if lifo then c :: frontier else frontier ++ [c]

/-- The body of `for (auto [nx, ny] : neighbors)`: an unvisited neighbour is
marked, gets `(x, y)` as parent, is pushed and appended to `explored`. -/
def visitNeighbor (lifo : Bool) (x y : Int) (st : SearchState) (n : Int × Int) : SearchState :=
  if !readAt st.visited n.1 n.2 false then
    { visited := writeAt st.visited n.1 n.2 true
      parent := writeAt st.parent n.1 n.2 (x, y)
      frontier := pushFrontier lifo st.frontier n
      result := { st.result with explored := st.result.explored ++ [n] } }
  else st

/-- The path reconstruction loop `while (cx != -1 && cy != -1)`: pushes the
current cell and steps to its parent. The first argument bounds the number
of iterations. -/
def reconstructPath (parent : List (List (Int × Int))) :
    Nat → Int × Int → List (Int × Int) → Option (List (Int × Int))
  | fuel, (cx, cy), path =>
    if cx ≠ -1 ∧ cy ≠ -1 then
      match fuel with
      | 0 => none
      | fuel1 + 1 =>
        reconstructPath parent fuel1 (readAt parent cx cy (-1, -1)) (path ++ [(cx, cy)])
    else some path

/-- The main loop `while (!q.empty())` of `solveBFS` (`lifo = false`) and
`while (!st.empty())` of `solveDFS` (`lifo = true`, neighbours reversed). The
two loops are the same text up to the container; the first argument bounds
the number of iterations. -/
def searchLoop (pf : PathFinder) (lifo : Bool) : Nat → SearchState → Option PathResult
  | fuel, st =>
    match st.frontier with
    | [] => some st.result
    | (x, y) :: rest =>
      match fuel with
      | 0 => none
      | fuel1 + 1 =>
        let result1 : PathResult := { st.result with stepsCount := st.result.stepsCount + 1 }
        if x = pf.endX ∧ y = pf.endY then
          match reconstructPath st.parent (pf.maze.width * pf.maze.height).toNat
              (pf.endX, pf.endY) [] with
          | none => none
          | some path => some { result1 with found := true, path := path.reverse }
        else
          let neighbors :=
            if lifo then (pf.getNeighbors x y).reverse else pf.getNeighbors x y
          searchLoop pf lifo fuel1
            (neighbors.foldl (visitNeighbor lifo x y)
              { visited := st.visited, parent := st.parent, frontier := rest,
                result := result1 })

/-- The state before the main loop: nothing visited but the start, every
parent `{-1, -1}`, the start on the frontier and in `explored`. -/
def initialState (pf : PathFinder) : SearchState :=
  { visited := writeAt (List.replicate pf.maze.height.toNat
        (List.replicate pf.maze.width.toNat false)) pf.startX pf.startY true
    parent := List.replicate pf.maze.height.toNat
        (List.replicate pf.maze.width.toNat (-1, -1))
    frontier := [(pf.startX, pf.startY)]
    result := { path := [], explored := [(pf.startX, pf.startY)], stepsCount := 0,
                found := false } }

/-- The method `PathFinder::solveBFS()`; a search pops each cell at most
once, so `width * height` iterations are enough. -/
def PathFinder.solveBFS (pf : PathFinder) : Option PathResult :=
  searchLoop pf false (pf.maze.width * pf.maze.height).toNat (initialState pf)

/-- The method `PathFinder::solveDFS()`. -/
def PathFinder.solveDFS (pf : PathFinder) : Option PathResult :=
  searchLoop pf true (pf.maze.width * pf.maze.height).toNat (initialState pf)


/-! ## Specification vocabulary: disjoint sets -/

/-- `RootOf p x r`: following the `parent` links `p` from the valid index `x`
ends at the self-parented element `r`. -/
inductive RootOf (p : List Nat) : Nat → Nat → Prop
  | root {r : Nat} : r < p.length → p.getD r 0 = r → RootOf p r r
  | step {x r : Nat} : x < p.length → p.getD x 0 ≠ x → RootOf p (p.getD x 0) r → RootOf p x r

/-- Two elements are in the same set when their parent chains end at the same root. -/
def UnionFind.Same (uf : UnionFind) (a b : Nat) : Prop :=
  ∃ r, RootOf uf.parent a r ∧ RootOf uf.parent b r

/-- The number of sets: the number of self-parented indices. -/
def UnionFind.numRoots (uf : UnionFind) : Nat :=
  ((Finset.range uf.parent.length).filter (fun i => uf.parent.getD i 0 = i)).card

/-- The representation invariant of a union-find over `n` elements: both
vectors have `n` entries, parents are valid indices, ranks strictly increase
along parent links, and ranks are bounded by the number of merges made. -/
structure UnionFind.Inv (n : Nat) (uf : UnionFind) : Prop where
  parent_length : uf.parent.length = n
  rank_length : uf.rank.length = n
  parent_lt : ∀ x, x < n → uf.parent.getD x 0 < n
  rank_lt_parent : ∀ x, x < n → uf.parent.getD x 0 ≠ x →
    uf.rank.getD x 0 < uf.rank.getD (uf.parent.getD x 0) 0
  rank_lt : ∀ x, x < n → uf.rank.getD x 0 < n
  rank_roots : ∀ x, x < n → uf.rank.getD x 0 + uf.numRoots ≤ n

/-- The union-find states reachable from `UnionFind(n)` by calls of `find`,
`unite` and `connected` with valid indices. -/
inductive UnionFind.Reachable (n : Nat) : UnionFind → Prop
  | new : UnionFind.Reachable n (UnionFind.new n)
  | find {uf uf1 : UnionFind} {x r : Nat} : UnionFind.Reachable n uf → x < n →
      uf.find x = some (r, uf1) → UnionFind.Reachable n uf1
  | unite {uf uf1 : UnionFind} {x y : Nat} {b : Bool} : UnionFind.Reachable n uf → x < n →
      y < n → uf.unite x y = some (b, uf1) → UnionFind.Reachable n uf1
  | connected {uf uf1 : UnionFind} {x y : Nat} {b : Bool} : UnionFind.Reachable n uf → x < n →
      y < n → uf.connected x y = some (b, uf1) → UnionFind.Reachable n uf1

/-- In the state `uf` the call `connected(a, b)` returns `true`. -/
def UnionFind.Connected (uf : UnionFind) (a b : Nat) : Prop :=
  ∃ uf1, uf.connected a b = some (true, uf1)

/-- `OnChain p x z`: the element `z` lies on the parent chain that starts at
`x` (with `x` itself) and follows the links `p` up to the root. -/
inductive OnChain (p : List Nat) : Nat → Nat → Prop
  | self (x : Nat) : OnChain p x x
  | step {x z : Nat} : p.getD x 0 ≠ x → OnChain p (p.getD x 0) z → OnChain p x z

/-- A sample state over four elements, left by `unite(0, 1)`, `unite(2, 3)`,
`unite(0, 2)`: the chain of 3 is 3, 2, 0. -/
def sampleForest : UnionFind := ⟨[0, 0, 0, 2], [2, 0, 1, 0]⟩


/-! ## Specification vocabulary: mazes -/

/-- The cell `c = (x, y)` lies inside a `width × height` grid. -/
def InGrid (width height : Int) (c : Int × Int) : Prop :=
  0 ≤ c.1 ∧ c.1 < width ∧ 0 ≤ c.2 ∧ c.2 < height

instance (width height : Int) (c : Int × Int) : Decidable (InGrid width height c) := by
  unfold InGrid; infer_instance

/-- The cell `c = (x, y)` lies inside the grid of `m`. -/
def Maze.InBounds (m : Maze) (c : Int × Int) : Prop :=
  InGrid m.width m.height c

instance (m : Maze) (c : Int × Int) : Decidable (m.InBounds c) := by
  unfold Maze.InBounds; infer_instance

/-- The grid `g` has `height` rows of `width` cells each. -/
def GridDims (width height : Int) (g : List (List Cell)) : Prop :=
  g.length = height.toNat ∧ ∀ row, row ∈ g → row.length = width.toNat

instance (width height : Int) (g : List (List Cell)) : Decidable (GridDims width height g) := by
  unfold GridDims; infer_instance

/-- A maze state as the class maintains it: non-negative dimensions and a
grid of `height` rows of `width` cells. -/
def Maze.WF (m : Maze) : Prop :=
  0 ≤ m.width ∧ 0 ≤ m.height ∧ GridDims m.width m.height m.grid

instance (m : Maze) : Decidable m.WF := by
  unfold Maze.WF; infer_instance

/-- A legal move of the maze: from the in-bounds cell `a` to the 4-adjacent
in-bounds cell `b`, in a direction in which `hasWall` reports no wall at `a`. -/
def Maze.Move (m : Maze) (a b : Int × Int) : Prop :=
  m.InBounds a ∧ m.InBounds b ∧
  ((b = (a.1, a.2 - 1) ∧ m.hasWall a.1 a.2 0 = false) ∨
   (b = (a.1 + 1, a.2) ∧ m.hasWall a.1 a.2 1 = false) ∨
   (b = (a.1, a.2 + 1) ∧ m.hasWall a.1 a.2 2 = false) ∨
   (b = (a.1 - 1, a.2) ∧ m.hasWall a.1 a.2 3 = false))

instance (m : Maze) (a b : Int × Int) : Decidable (m.Move a b) := by
  unfold Maze.Move; infer_instance

/-- The list `p` is a walk of the maze from `a` to `b`: it starts at `a`, ends
at `b`, and each cell is followed by one it can legally move to. -/
def Maze.IsWalk (m : Maze) (a b : Int × Int) (p : List (Int × Int)) : Prop :=
  p.head? = some a ∧ p.getLast? = some b ∧ p.Chain' m.Move

/-- Wall symmetry of a maze state: facing flags of adjacent in-bounds cells agree. -/
def Maze.Symmetric (m : Maze) : Prop :=
  ∀ x y : Int,
    (0 ≤ x → x + 1 < m.width → 0 ≤ y → y < m.height →
      (m.getCell x y).right = (m.getCell (x + 1) y).left) ∧
    (0 ≤ x → x < m.width → 0 ≤ y → y + 1 < m.height →
      (m.getCell x y).bottom = (m.getCell x (y + 1)).top)

/-- The two endpoints of a wall. -/
def Wall.fst (w : Wall) : Int × Int := (w.x1, w.y1)

/-- The second endpoint of a wall. -/
def Wall.snd (w : Wall) : Int × Int := (w.x2, w.y2)

/-- An internal wall of the `width × height` grid, as `generateMaze` writes
it: from a cell to its lower or to its right neighbour, both in bounds. -/
def IsGridWall (width height : Int) (w : Wall) : Prop :=
  (w.x2 = w.x1 ∧ w.y2 = w.y1 + 1 ∧ 0 ≤ w.x1 ∧ w.x1 < width ∧ 0 ≤ w.y1 ∧ w.y1 + 1 < height) ∨
  (w.y2 = w.y1 ∧ w.x2 = w.x1 + 1 ∧ 0 ≤ w.x1 ∧ w.x1 + 1 < width ∧ 0 ≤ w.y1 ∧ w.y1 < height)

/-- The grid `g` shows exactly the walls of `log` as open: each flag of each
in-bounds cell is cleared if and only if the wall on that side is in `log`. -/
def FlagsMatch (width height : Int) (g : List (List Cell)) (log : List Wall) : Prop :=
  ∀ x y : Int, 0 ≤ x → x < width → 0 ≤ y → y < height →
    ((cellAt g x y).bottom = false ↔ Wall.mk x y x (y + 1) ∈ log) ∧
    ((cellAt g x y).top = false ↔ Wall.mk x (y - 1) x y ∈ log) ∧
    ((cellAt g x y).right = false ↔ Wall.mk x y (x + 1) y ∈ log) ∧
    ((cellAt g x y).left = false ↔ Wall.mk (x - 1) y x y ∈ log)

/-- The graph on cells whose edges are the walls of `log`. -/
def wallGraph (log : List Wall) : SimpleGraph (Int × Int) :=
  SimpleGraph.fromEdgeSet {e | ∃ w, w ∈ log ∧ e = s(w.fst, w.snd)}

/-- The union-find index `y * width + x` of the cell `(x, y)`. -/
def cellIndex (width : Int) (c : Int × Int) : Nat := (c.2 * width + c.1).toNat

/-- The invariant of the spanning-tree loop of `generateMaze` once it has
processed the walls `done`: the union-find partition is exactly reachability
through the walls opened so far, which form a forest; the grid shows exactly
those walls open; every processed wall is either logged or skipped. -/
structure TreeInv (W H : Int) (done : List Wall) (st : TreeState) : Prop where
  uf_inv : st.uf.Inv (W * H).toNat
  walls : ∀ w, w ∈ done → IsGridWall W H w
  sound : ∀ a b, InGrid W H a → InGrid W H b →
    st.uf.Same (cellIndex W a) (cellIndex W b) → (wallGraph st.wallRemovalOrder).Reachable a b
  complete : ∀ w, w ∈ done → st.uf.Same (cellIndex W w.fst) (cellIndex W w.snd)
  count : st.uf.numRoots + st.wallRemovalOrder.length = (W * H).toNat
  dims : GridDims W H st.grid
  flags : FlagsMatch W H st.grid st.wallRemovalOrder
  split : (st.wallRemovalOrder ++ st.skippedWalls).Perm done
  acyclic : (wallGraph st.wallRemovalOrder).IsAcyclic

/-- A sample input: the freshly constructed 3 × 2 maze. -/
def sampleMaze : Maze :=
  ⟨3, 2, [[Cell.default, Cell.default, Cell.default],
          [Cell.default, Cell.default, Cell.default]], []⟩

/-- A sample input: the freshly constructed 2 × 2 maze. -/
def smallMaze : Maze :=
  ⟨2, 2, [[Cell.default, Cell.default], [Cell.default, Cell.default]], []⟩

/-- Two cells are 4-adjacent: they differ by exactly 1 in exactly one coordinate. -/
def Adjacent4 (a b : Int × Int) : Prop :=
  (a.1 = b.1 ∧ (a.2 = b.2 + 1 ∨ b.2 = a.2 + 1)) ∨
  (a.2 = b.2 ∧ (a.1 = b.1 + 1 ∨ b.1 = a.1 + 1))

instance (a b : Int × Int) : Decidable (Adjacent4 a b) := by
  unfold Adjacent4; infer_instance

/-- The wall `w` joins the unordered pair of cells `a`, `b`. -/
def Wall.Joins (w : Wall) (a b : Int × Int) : Prop :=
  (w.fst = a ∧ w.snd = b) ∨ (w.fst = b ∧ w.snd = a)

instance (w : Wall) (a b : Int × Int) : Decidable (w.Joins a b) := by
  unfold Wall.Joins; infer_instance

/-- The all-walled `width × height` grid, as the constructor and `reset` leave it. -/
def freshGrid (width height : Int) : List (List Cell) :=
  List.replicate height.toNat (List.replicate width.toNat Cell.default)

/-- The replay of a removal log: starting from the all-walled grid, the
walls of `log` are removed in order, each by the dual-flag removal. -/
def replayLog (width height : Int) (log : List Wall) : List (List Cell) :=
  log.foldl removeWallFromGrid (freshGrid width height)


/-! ## Specification vocabulary: searches -/

/-- The start cell of a path finder. -/
def PathFinder.start (pf : PathFinder) : Int × Int := (pf.startX, pf.startY)

/-- The end cell of a path finder. -/
def PathFinder.goal (pf : PathFinder) : Int × Int := (pf.endX, pf.endY)

/-- The neighbour relation of `getNeighbors`: `b` is listed among the
neighbours of `a`. -/
def PathFinder.Nbr (pf : PathFinder) (a b : Int × Int) : Prop :=
  b ∈ pf.getNeighbors a.1 a.2

instance (pf : PathFinder) (a b : Int × Int) : Decidable (pf.Nbr a b) := by
  unfold PathFinder.Nbr; infer_instance

/-- The list `p` is a walk from `a` to `b` through the neighbour relation:
it starts at `a`, ends at `b`, and each cell is followed by one of its
neighbours. It has `p.length - 1` edges. -/
def PathFinder.IsRoute (pf : PathFinder) (a b : Int × Int) (p : List (Int × Int)) : Prop :=
  p.head? = some a ∧ p.getLast? = some b ∧ p.Chain' pf.Nbr

/-- The cell `b` is reachable from `a` through the neighbour relation. -/
def PathFinder.Reachable (pf : PathFinder) (a b : Int × Int) : Prop :=
  ∃ p, pf.IsRoute a b p

/-- The inputs the searches are specified for: a maze state with its grid of
`height × width` cells, and start and end inside the grid. -/
def PathFinder.WF (pf : PathFinder) : Prop :=
  pf.maze.WF ∧ pf.maze.InBounds pf.start ∧ pf.maze.InBounds pf.goal

instance (pf : PathFinder) : Decidable pf.WF := by
  unfold PathFinder.WF; infer_instance

/-- The table `v` has `height` rows of `width` entries each. -/
def TableDims {α : Type} (width height : Int) (v : List (List α)) : Prop :=
  v.length = height.toNat ∧ ∀ row, row ∈ v → row.length = width.toNat

/-- The loop invariant shared by both searches, with the depth `d` of each
explored cell in the parent tree as auxiliary data. -/
structure SearchInv (pf : PathFinder) (st : SearchState) (d : Int × Int → Nat) : Prop where
  dims_visited : TableDims pf.maze.width pf.maze.height st.visited
  dims_parent : TableDims pf.maze.width pf.maze.height st.parent
  visited_iff : ∀ c, pf.maze.InBounds c →
    (readAt st.visited c.1 c.2 false = true ↔ c ∈ st.result.explored)
  explored_in : ∀ c, c ∈ st.result.explored → pf.maze.InBounds c
  explored_nodup : st.result.explored.Nodup
  frontier_sub : ∀ c, c ∈ st.frontier → c ∈ st.result.explored
  count : st.result.stepsCount + st.frontier.length = st.result.explored.length
  start_mem : pf.start ∈ st.result.explored
  depth_start : d pf.start = 0
  parent_start : readAt st.parent pf.start.1 pf.start.2 (-1, -1) = (-1, -1)
  parent_spec : ∀ c, c ∈ st.result.explored → c ≠ pf.start →
    readAt st.parent c.1 c.2 (-1, -1) ∈ st.result.explored ∧
    pf.Nbr (readAt st.parent c.1 c.2 (-1, -1)) c ∧
    d c = d (readAt st.parent c.1 c.2 (-1, -1)) + 1
  depth_lt : ∀ c, c ∈ st.result.explored → d c < st.result.explored.length
  closed : ∀ c, c ∈ st.result.explored → c ∉ st.frontier →
    ∀ b, pf.Nbr c b → b ∈ st.result.explored
  popped_ne_goal : ∀ c, c ∈ st.result.explored → c ∉ st.frontier → c ≠ pf.goal
  not_found : st.result.found = false
  path_nil : st.result.path = []

/-- The additional invariant of the breadth-first search: the queue is
ordered by depth and spans at most two consecutive depths; popped cells are
no deeper than queued ones; a neighbour of a popped cell is at most one
deeper than it. -/
structure BfsInv (pf : PathFinder) (st : SearchState) (d : Int × Int → Nat) : Prop where
  sorted : st.frontier.Pairwise (fun a b => d a ≤ d b)
  span : ∀ a b, a ∈ st.frontier → b ∈ st.frontier → d b ≤ d a + 1
  popped_le : ∀ c, c ∈ st.result.explored → c ∉ st.frontier →
    ∀ f, f ∈ st.frontier → d c ≤ d f
  nbr_le : ∀ c, c ∈ st.result.explored → c ∉ st.frontier →
    ∀ b, pf.Nbr c b → d b ≤ d c + 1

/-- A sample input: a 2 × 2 maze with the walls (0,0)-(1,0), (1,0)-(1,1) and
(0,1)-(1,1) open, searched from (0,0) to (0,1). -/
def sampleFinder : PathFinder :=
  ⟨⟨2, 2, [[⟨true, true, true, false⟩, ⟨true, false, false, true⟩],
           [⟨true, true, true, false⟩, ⟨false, true, false, true⟩]], []⟩, 0, 0, 0, 1⟩

/-- The cells of `l` that are not yet in `explored`, in the order of `l`. -/
def freshCells (explored l : List (Int × Int)) : List (Int × Int) :=
  l.filter (fun c => decide (c ∉ explored))

/-- The depth assignment after expanding a cell of depth `du`: the fresh
cells get depth `du + 1`, the others keep theirs. -/
def nextDepth (d : Int × Int → Nat) (fresh : List (Int × Int)) (du : Nat) : Int × Int → Nat :=
  fun c => if c ∈ fresh then du + 1 else d c

/-- The state after one non-final iteration of the main loop: the cell `u`
is popped (the frontier is left with `rest`), the step is counted and the
neighbour loop runs over `nbrs`. -/
def expandState (lifo : Bool) (st : SearchState) (u : Int × Int) (rest nbrs : List (Int × Int)) :
    SearchState :=
  nbrs.foldl (visitNeighbor lifo u.1 u.2)
    { visited := st.visited, parent := st.parent, frontier := rest,
      result := { st.result with stepsCount := st.result.stepsCount + 1 } }

/-- What a completed search returns: the result `r` comes from a loop state
`st` that satisfies the invariants (with depths `d`), and either the frontier
ran empty and `r` is the result as accumulated, or the end cell was on top of
the frontier and `r` adds the last step, `found` and the reconstructed path. -/
def SearchOutcome (pf : PathFinder) (lifo : Bool) (r : PathResult) : Prop :=
  ∃ (st : SearchState) (d : Int × Int → Nat), SearchInv pf st d ∧
    (lifo = false → BfsInv pf st d) ∧
    ((st.frontier = [] ∧ r = st.result) ∨
     (∃ rest path, st.frontier = pf.goal :: rest ∧ pf.IsRoute pf.start pf.goal path ∧
        path.length = d pf.goal + 1 ∧
        r = ⟨path, st.result.explored, st.result.stepsCount + 1, true⟩))

/-- The number of edges of a walk given as the list of its cells. -/
def edgeCount (p : List (Int × Int)) : Nat := p.length - 1

/-- A sample input: the maze of `sampleFinder`, searched from (0,0) to the
out-of-grid coordinate (5,5). -/
def sampleFinderOutside : PathFinder :=
  ⟨sampleFinder.maze, 0, 0, 5, 5⟩

/-- The coordinate next to `(x, y)` in direction `d`: 0 = top, 1 = right,
2 = bottom, otherwise left. -/
def cellInDirection (x y d : Int) : Int × Int :=
  if d = 0 then (x, y - 1) else if d = 1 then (x + 1, y) else if d = 2 then (x, y + 1)
  else (x - 1, y)

/-- The neighbour enumeration as the specification words it: of the four
directions in the order top, right, bottom, left, the neighbours in whose
direction the maze reports no wall and whose coordinate is in bounds. -/
def openNeighbors (m : Maze) (x y : Int) : List (Int × Int) :=
  (([0, 1, 2, 3] : List Int).filter
    (fun d => !m.hasWall x y d && decide (m.InBounds (cellInDirection x y d)))).map
    (cellInDirection x y)


/-! ## Disjoint sets: `find`, `unite`, `connected` -/

theorem getD_set_nat (p : List Nat) (x y v : Nat) :
    (p.set x v).getD y 0 = if x = y ∧ x < p.length then v else p.getD y 0 := by
  simp only [List.getD_eq_getElem?_getD, List.getElem?_set]
  by_cases h : x = y
  · subst h
    by_cases hx : x < p.length
    · simp [hx]
    · have : p[x]? = none := by simp; omega
      simp [hx, this]
  · simp [h]

theorem getD_set_self (p : List Nat) (x v : Nat) (hx : x < p.length) :
    (p.set x v).getD x 0 = v := by
  rw [getD_set_nat]; simp [hx]

theorem getD_set_ne (p : List Nat) (x y v : Nat) (h : x ≠ y) :
    (p.set x v).getD y 0 = p.getD y 0 := by
  rw [getD_set_nat]; simp [h]

theorem RootOf.lt {p : List Nat} {x r : Nat} (h : RootOf p x r) : x < p.length := by
  cases h <;> assumption

theorem RootOf.root_self {p : List Nat} {x r : Nat} (h : RootOf p x r) : p.getD r 0 = r := by
  induction h with
  | root _ h => exact h
  | step _ _ _ ih => exact ih

theorem RootOf.root_lt {p : List Nat} {x r : Nat} (h : RootOf p x r) : r < p.length := by
  induction h with
  | root h _ => exact h
  | step _ _ _ ih => exact ih

theorem RootOf.of_root {p : List Nat} {x r : Nat} (h : RootOf p x r) (hx : p.getD x 0 = x) :
    r = x := by
  cases h with
  | root _ _ => rfl
  | step _ hne _ => exact absurd hx hne

theorem RootOf.unique {p : List Nat} {x r s : Nat} (h : RootOf p x r) (h2 : RootOf p x s) :
    r = s := by
  induction h with
  | root _ hr => exact (h2.of_root hr).symm
  | step _ hne _ ih =>
    cases h2 with
    | root _ hr => exact absurd hr hne
    | step _ _ h3 => exact ih h3

theorem RootOf.root_root {p : List Nat} {x r : Nat} (h : RootOf p x r) : RootOf p r r :=
  RootOf.root h.root_lt h.root_self

/-- Path compression of one node keeps every root. -/
theorem rootOf_compress {p : List Nat} {x r : Nat} (hx : RootOf p x r) (y s : Nat) :
    RootOf (p.set x r) y s ↔ RootOf p y s := by
  have hlen : (p.set x r).length = p.length := List.length_set _ _ _
  constructor
  · intro h
    induction h with
    | @root s hs hself =>
      rw [hlen] at hs
      by_cases hsx : x = s
      · subst hsx
        rw [getD_set_self _ _ _ hs] at hself
        subst hself
        exact hx
      · rw [getD_set_ne _ _ _ _ hsx] at hself
        exact RootOf.root hs hself
    | @step y s hy hne _ ih =>
      rw [hlen] at hy
      by_cases hyx : x = y
      · subst hyx
        rw [getD_set_self _ _ _ hy] at ih
        have : s = r := hx.root_root.unique ih |>.symm
        subst this
        exact hx
      · rw [getD_set_ne _ _ _ _ hyx] at hne ih
        exact RootOf.step hy hne ih
  · intro h
    induction h with
    | @root s hs hself =>
      have hs2 : s < (p.set x r).length := by rw [hlen]; exact hs
      by_cases hsx : x = s
      · subst hsx
        have : r = x := hx.of_root hself
        subst this
        exact RootOf.root hs2 (getD_set_self _ _ _ hs)
      · exact RootOf.root hs2 (by rw [getD_set_ne _ _ _ _ hsx]; exact hself)
    | @step y s hy hne hstep ih =>
      have hy2 : y < (p.set x r).length := by rw [hlen]; exact hy
      by_cases hyx : x = y
      · subst hyx
        have hs : s = r := (RootOf.step hy hne hstep).unique hx
        subst hs
        have hsx : s ≠ x := fun e => hne (e ▸ hx.root_self)
        refine RootOf.step hy2 ?_ ?_
        · rw [getD_set_self _ _ _ hy]; exact hsx
        · rw [getD_set_self _ _ _ hy]
          exact RootOf.root (by rw [hlen]; exact hx.root_lt)
            (by rw [getD_set_ne _ _ _ _ (Ne.symm hsx)]; exact hx.root_self)
      · refine RootOf.step hy2 ?_ ?_
        · rw [getD_set_ne _ _ _ _ hyx]; exact hne
        · rw [getD_set_ne _ _ _ _ hyx]; exact ih

/-- Linking the root `ry` under the distinct root `rx` redirects exactly the
elements whose root was `ry`. -/
theorem rootOf_link {p : List Nat} {rx ry : Nat} (hrx : RootOf p rx rx) (hry : RootOf p ry ry)
    (hne : rx ≠ ry) (y s : Nat) :
    RootOf (p.set ry rx) y s ↔ (RootOf p y s ∧ s ≠ ry) ∨ (RootOf p y ry ∧ s = rx) := by
  have hlen : (p.set ry rx).length = p.length := List.length_set _ _ _
  have hrx2 : RootOf (p.set ry rx) rx rx :=
    RootOf.root (by rw [hlen]; exact hrx.lt)
      (by rw [getD_set_ne _ _ _ _ (Ne.symm hne)]; exact hrx.root_self)
  constructor
  · intro h
    induction h with
    | @root s hs hself =>
      rw [hlen] at hs
      by_cases hsy : ry = s
      · subst hsy
        rw [getD_set_self _ _ _ hs] at hself
        exact absurd hself hne
      · rw [getD_set_ne _ _ _ _ hsy] at hself
        exact Or.inl ⟨RootOf.root hs hself, Ne.symm hsy⟩
    | @step y s hy hney _ ih =>
      rw [hlen] at hy
      by_cases hyy : ry = y
      · subst hyy
        rw [getD_set_self _ _ _ hy] at ih
        rcases ih with ⟨h1, _⟩ | ⟨h1, _⟩
        · exact Or.inr ⟨hry, (hrx.unique h1).symm⟩
        · exact absurd (hrx.unique h1) hne
      · rw [getD_set_ne _ _ _ _ hyy] at hney ih
        rcases ih with ⟨h1, h2⟩ | ⟨h1, h2⟩
        · exact Or.inl ⟨RootOf.step hy hney h1, h2⟩
        · exact Or.inr ⟨RootOf.step hy hney h1, h2⟩
  · rintro (⟨h, hs⟩ | ⟨h, hs⟩)
    · induction h with
      | @root s hs2 hself =>
        exact RootOf.root (by rw [hlen]; exact hs2)
          (by rw [getD_set_ne _ _ _ _ (Ne.symm hs)]; exact hself)
      | @step y s hy hney hstep ih =>
        have hyy : ry ≠ y := fun e => hney (e ▸ hry.root_self)
        refine RootOf.step (by rw [hlen]; exact hy) ?_ ?_
        · rw [getD_set_ne _ _ _ _ hyy]; exact hney
        · rw [getD_set_ne _ _ _ _ hyy]; exact ih hs
    · subst hs
      generalize hq : ry = q at h
      induction h with
      | @root s hs2 hself =>
        subst hq
        refine RootOf.step (by rw [hlen]; exact hs2) ?_ ?_
        · rw [getD_set_self _ _ _ hs2]; exact hne
        · rw [getD_set_self _ _ _ hs2]; exact hrx2
      | @step y s hy hney hstep ih =>
        subst hq
        have hyy : ry ≠ y := fun e => hney (e ▸ hry.root_self)
        refine RootOf.step (by rw [hlen]; exact hy) ?_ ?_
        · rw [getD_set_ne _ _ _ _ hyy]; exact hney
        · rw [getD_set_ne _ _ _ _ hyy]; exact ih rfl

theorem UnionFind.Inv.rank_lt_root {n : Nat} {uf : UnionFind} (h : uf.Inv n) {x r : Nat}
    (hr : RootOf uf.parent x r) (hne : x ≠ r) : uf.rank.getD x 0 < uf.rank.getD r 0 := by
  induction hr with
  | root _ _ => exact absurd rfl hne
  | @step x r hx hnx hstep ih =>
    have hxn : x < n := h.parent_length ▸ hx
    have h1 := h.rank_lt_parent x hxn hnx
    by_cases hp : uf.parent.getD x 0 = r
    · rw [hp] at h1; exact h1
    · exact lt_trans h1 (ih hp)

theorem numRoots_congr {uf uf1 : UnionFind} (hlen : uf1.parent.length = uf.parent.length)
    (h : ∀ y, uf1.parent.getD y 0 = y ↔ uf.parent.getD y 0 = y) :
    uf1.numRoots = uf.numRoots := by
  unfold UnionFind.numRoots
  rw [hlen]
  congr 1
  apply Finset.filter_congr
  intro y _
  exact h y

/-- With fuel that covers the ranks still above `x`, `find` returns the root
of `x`, keeps the invariant, and changes neither a rank, nor a root, nor the
root of any element. -/
theorem findAux_spec {n : Nat} : ∀ (k : Nat) (uf : UnionFind) (x : Nat),
    uf.Inv n → x < n → n ≤ k + uf.rank.getD x 0 →
    ∃ r uf1, UnionFind.findAux k uf x = some (r, uf1) ∧ RootOf uf.parent x r ∧ uf1.Inv n ∧
      uf1.rank = uf.rank ∧
      (∀ y s, RootOf uf1.parent y s ↔ RootOf uf.parent y s) ∧
      (∀ y, uf1.parent.getD y 0 = y ↔ uf.parent.getD y 0 = y) := by
  intro k
  induction k with
  | zero =>
    intro uf x h hx hk
    have := h.rank_lt x hx
    omega
  | succ k ih =>
    intro uf x h hx hk
    have hxl : x < uf.parent.length := by rw [h.parent_length]; exact hx
    by_cases hroot : uf.parent.getD x 0 = x
    · refine ⟨x, uf, ?_, RootOf.root hxl hroot, h, rfl, fun _ _ => Iff.rfl, fun _ => Iff.rfl⟩
      rw [UnionFind.findAux, if_neg (not_not.mpr hroot), hroot]
    · have hpx := h.parent_lt x hx
      have hrk := h.rank_lt_parent x hx hroot
      obtain ⟨r, uf1, hfind, hr, hinv1, hrank1, hroots1, hself1⟩ :=
        ih uf (uf.parent.getD x 0) h hpx (by omega)
      have hxr : RootOf uf.parent x r := RootOf.step hxl hroot hr
      have hxr1 : RootOf uf1.parent x r := (hroots1 x r).2 hxr
      have hxl1 : x < uf1.parent.length := by rw [hinv1.parent_length]; exact hx
      have hne : x ≠ r := fun e => hroot (by rw [e]; exact hr.root_self)
      have hself2 : ∀ y, (uf1.parent.set x r).getD y 0 = y ↔ uf1.parent.getD y 0 = y := by
        intro y
        by_cases hxy : x = y
        · subst hxy
          rw [getD_set_self _ _ _ hxl1]
          constructor
          · intro e; exact absurd e.symm hne
          · intro e; exact absurd ((hself1 x).1 e) hroot
        · rw [getD_set_ne _ _ _ _ hxy]
      have hnum : (UnionFind.mk (uf1.parent.set x r) uf1.rank).numRoots = uf1.numRoots :=
        numRoots_congr (List.length_set _ _ _) hself2
      refine ⟨r, ⟨uf1.parent.set x r, uf1.rank⟩, ?_, hxr, ?_, hrank1, ?_, ?_⟩
      · rw [UnionFind.findAux, if_pos hroot, hfind]
        show some ((uf1.parent.set x r).getD x 0, _) = _
        rw [getD_set_self _ _ _ hxl1]
      · refine ⟨?_, hinv1.rank_length, ?_, ?_, hinv1.rank_lt, ?_⟩
        · simp [hinv1.parent_length]
        · intro y hy
          show (uf1.parent.set x r).getD y 0 < n
          by_cases hxy : x = y
          · subst hxy
            rw [getD_set_self _ _ _ hxl1]
            exact hinv1.parent_length ▸ hxr1.root_lt
          · rw [getD_set_ne _ _ _ _ hxy]; exact hinv1.parent_lt y hy
        · intro y hy
          show (uf1.parent.set x r).getD y 0 ≠ y →
            uf1.rank.getD y 0 < uf1.rank.getD ((uf1.parent.set x r).getD y 0) 0
          by_cases hxy : x = y
          · subst hxy
            rw [getD_set_self _ _ _ hxl1]
            intro _
            exact hinv1.rank_lt_root hxr1 hne
          · rw [getD_set_ne _ _ _ _ hxy]; exact hinv1.rank_lt_parent y hy
        · intro y hy
          rw [hnum]
          exact hinv1.rank_roots y hy
      · intro y s
        rw [← hroots1 y s]
        exact rootOf_compress hxr1 y s
      · intro y
        rw [← hself1 y]
        exact hself2 y

/-- The specification of `find`: on a valid index it returns the root of `x`,
and leaves ranks, the invariant, the set of roots and every element's root
unchanged. -/
theorem find_spec {n : Nat} {uf : UnionFind} (h : uf.Inv n) {x : Nat} (hx : x < n) :
    ∃ r uf1, uf.find x = some (r, uf1) ∧ RootOf uf.parent x r ∧ uf1.Inv n ∧
      uf1.rank = uf.rank ∧
      (∀ y s, RootOf uf1.parent y s ↔ RootOf uf.parent y s) ∧
      (∀ y, uf1.parent.getD y 0 = y ↔ uf.parent.getD y 0 = y) := by
  unfold UnionFind.find
  exact findAux_spec uf.parent.length uf x h hx (by rw [h.parent_length]; omega)

theorem UnionFind.Inv.exists_root {n : Nat} {uf : UnionFind} (h : uf.Inv n) {x : Nat}
    (hx : x < n) : ∃ r, RootOf uf.parent x r := by
  obtain ⟨r, _, _, hr, _⟩ := find_spec h hx
  exact ⟨r, hr⟩

theorem UnionFind.Same.symm {uf : UnionFind} {a b : Nat} (h : uf.Same a b) : uf.Same b a := by
  obtain ⟨r, h1, h2⟩ := h
  exact ⟨r, h2, h1⟩

theorem UnionFind.Same.trans {uf : UnionFind} {a b c : Nat} (h : uf.Same a b)
    (h2 : uf.Same b c) : uf.Same a c := by
  obtain ⟨r, h1, h3⟩ := h
  obtain ⟨s, h4, h5⟩ := h2
  have := h3.unique h4
  subst this
  exact ⟨r, h1, h5⟩

theorem UnionFind.Inv.same_refl {n : Nat} {uf : UnionFind} (h : uf.Inv n) {x : Nat}
    (hx : x < n) : uf.Same x x := by
  obtain ⟨r, hr⟩ := h.exists_root hx
  exact ⟨r, hr, hr⟩

theorem same_congr {uf uf1 : UnionFind}
    (h : ∀ y s, RootOf uf1.parent y s ↔ RootOf uf.parent y s) (a b : Nat) :
    uf1.Same a b ↔ uf.Same a b := by
  unfold UnionFind.Same
  simp only [h]

theorem numRoots_link {uf : UnionFind} {c t : Nat} (rk : List Nat)
    (hc : RootOf uf.parent c c) (hne : t ≠ c) :
    (UnionFind.mk (uf.parent.set c t) rk).numRoots + 1 = uf.numRoots := by
  unfold UnionFind.numRoots
  have hlen : (uf.parent.set c t).length = uf.parent.length := List.length_set _ _ _
  have hmem : c ∈ (Finset.range uf.parent.length).filter (fun i => uf.parent.getD i 0 = i) := by
    simp only [Finset.mem_filter, Finset.mem_range]
    exact ⟨hc.lt, hc.root_self⟩
  have heq : (Finset.range (uf.parent.set c t).length).filter
        (fun i => (uf.parent.set c t).getD i 0 = i)
      = ((Finset.range uf.parent.length).filter (fun i => uf.parent.getD i 0 = i)).erase c := by
    ext i
    simp only [Finset.mem_filter, Finset.mem_range, Finset.mem_erase, hlen]
    by_cases hi : c = i
    · subst hi
      rw [getD_set_self _ _ _ hc.lt]
      constructor
      · rintro ⟨_, e⟩; exact absurd e hne
      · rintro ⟨e, _⟩; exact absurd rfl e
    · rw [getD_set_ne _ _ _ _ hi]
      constructor
      · rintro ⟨h1, h2⟩; exact ⟨Ne.symm hi, h1, h2⟩
      · rintro ⟨_, h1, h2⟩; exact ⟨h1, h2⟩
  show ((Finset.range (uf.parent.set c t).length).filter
        (fun i => (uf.parent.set c t).getD i 0 = i)).card + 1 = _
  rw [heq]
  exact Finset.card_erase_add_one hmem

theorem two_le_numRoots {uf : UnionFind} {c t : Nat} (hc : RootOf uf.parent c c)
    (ht : RootOf uf.parent t t) (hne : t ≠ c) : 2 ≤ uf.numRoots := by
  unfold UnionFind.numRoots
  apply Finset.one_lt_card.mpr
  refine ⟨c, ?_, t, ?_, Ne.symm hne⟩
  · simp only [Finset.mem_filter, Finset.mem_range]; exact ⟨hc.lt, hc.root_self⟩
  · simp only [Finset.mem_filter, Finset.mem_range]; exact ⟨ht.lt, ht.root_self⟩

/-- Linking root `c` under root `t`, with a rank vector `rk` that differs from
the old one at most at `t` (by at most one) and puts `c` strictly below `t`,
keeps the invariant. -/
theorem inv_link {n : Nat} {uf : UnionFind} (h : uf.Inv n) {c t : Nat}
    (hc : RootOf uf.parent c c) (ht : RootOf uf.parent t t) (hne : t ≠ c) (rk : List Nat)
    (hlen : rk.length = n) (hsame : ∀ y, y ≠ t → rk.getD y 0 = uf.rank.getD y 0)
    (hge : uf.rank.getD t 0 ≤ rk.getD t 0) (hle : rk.getD t 0 ≤ uf.rank.getD t 0 + 1)
    (hlt : rk.getD c 0 < rk.getD t 0) :
    (UnionFind.mk (uf.parent.set c t) rk).Inv n := by
  have hnum := numRoots_link rk hc hne
  have h2 := two_le_numRoots hc ht hne
  have hcl : c < uf.parent.length := hc.lt
  have htn : t < n := h.parent_length ▸ ht.lt
  have hmono : ∀ y, uf.rank.getD y 0 ≤ rk.getD y 0 := by
    intro y
    by_cases hy : y = t
    · subst hy; exact hge
    · rw [hsame y hy]
  have hup : ∀ y, rk.getD y 0 ≤ uf.rank.getD y 0 + 1 := by
    intro y
    by_cases hy : y = t
    · subst hy; exact hle
    · rw [hsame y hy]; omega
  refine ⟨?_, hlen, ?_, ?_, ?_, ?_⟩
  · simp [h.parent_length]
  · intro y hy
    show (uf.parent.set c t).getD y 0 < n
    by_cases hcy : c = y
    · subst hcy; rw [getD_set_self _ _ _ hcl]; exact htn
    · rw [getD_set_ne _ _ _ _ hcy]; exact h.parent_lt y hy
  · intro y hy
    show (uf.parent.set c t).getD y 0 ≠ y → rk.getD y 0 < rk.getD ((uf.parent.set c t).getD y 0) 0
    by_cases hcy : c = y
    · subst hcy; rw [getD_set_self _ _ _ hcl]; intro _; exact hlt
    · rw [getD_set_ne _ _ _ _ hcy]
      intro hny
      have hyt : y ≠ t := fun e => hny (e ▸ ht.root_self)
      rw [hsame y hyt]
      exact lt_of_lt_of_le (h.rank_lt_parent y hy hny) (hmono _)
  · intro y hy
    show rk.getD y 0 < n
    have h1 := h.rank_roots y hy
    have h3 := hup y
    omega
  · intro y hy
    show rk.getD y 0 + (UnionFind.mk (uf.parent.set c t) rk).numRoots ≤ n
    have h1 := h.rank_roots y hy
    have h3 := hup y
    omega

/-- Linking root `c` (of `xc`) under root `t` (of `xt`): the new partition
merges the two sets and nothing else. -/
theorem same_link {uf : UnionFind} {c t xc xt : Nat} (hc : RootOf uf.parent xc c)
    (ht : RootOf uf.parent xt t) (hne : t ≠ c) (rk : List Nat) :
    (∀ a b, (UnionFind.mk (uf.parent.set c t) rk).Same a b →
        uf.Same a b ∨ (uf.Same a xc ∧ uf.Same xt b) ∨ (uf.Same a xt ∧ uf.Same xc b)) ∧
    (∀ a b, uf.Same a b → (UnionFind.mk (uf.parent.set c t) rk).Same a b) ∧
    (UnionFind.mk (uf.parent.set c t) rk).Same xc xt := by
  have key := rootOf_link ht.root_root hc.root_root hne
  refine ⟨?_, ?_, ?_⟩
  · rintro a b ⟨s, ha, hb⟩
    rcases (key a s).1 ha with ⟨ha1, _⟩ | ⟨ha1, hs1⟩
    · rcases (key b s).1 hb with ⟨hb1, _⟩ | ⟨hb1, hs2⟩
      · exact Or.inl ⟨s, ha1, hb1⟩
      · subst hs2
        exact Or.inr (Or.inr ⟨⟨_, ha1, ht⟩, ⟨c, hc, hb1⟩⟩)
    · rcases (key b s).1 hb with ⟨hb1, _⟩ | ⟨hb1, _⟩
      · subst hs1
        exact Or.inr (Or.inl ⟨⟨c, ha1, hc⟩, ⟨_, ht, hb1⟩⟩)
      · exact Or.inl ⟨c, ha1, hb1⟩
  · rintro a b ⟨r, ha, hb⟩
    by_cases hr : r = c
    · subst hr
      exact ⟨t, (key a t).2 (Or.inr ⟨ha, rfl⟩), (key b t).2 (Or.inr ⟨hb, rfl⟩)⟩
    · exact ⟨r, (key a r).2 (Or.inl ⟨ha, hr⟩), (key b r).2 (Or.inl ⟨hb, hr⟩)⟩
  · exact ⟨t, (key xc t).2 (Or.inr ⟨hc, rfl⟩), (key xt t).2 (Or.inl ⟨ht, hne⟩)⟩

/-- The specification of `connected`: it answers whether the two elements are
in the same set and changes neither the partition nor the number of sets. -/
theorem connected_spec {n : Nat} {uf : UnionFind} (h : uf.Inv n) {x y : Nat} (hx : x < n)
    (hy : y < n) :
    ∃ b uf1, uf.connected x y = some (b, uf1) ∧ uf1.Inv n ∧ (b = true ↔ uf.Same x y) ∧
      (∀ a c, uf1.Same a c ↔ uf.Same a c) ∧ uf1.numRoots = uf.numRoots := by
  obtain ⟨rx, uf1, hf1, hrx, hinv1, _, hroots1, hself1⟩ := find_spec h hx
  obtain ⟨ry, uf2, hf2, hry, hinv2, _, hroots2, hself2⟩ := find_spec hinv1 hy
  refine ⟨decide (rx = ry), uf2, ?_, hinv2, ?_, ?_, ?_⟩
  · simp only [UnionFind.connected, hf1, hf2]
  · rw [decide_eq_true_iff]
    have hry0 : RootOf uf.parent y ry := (hroots1 y ry).1 hry
    constructor
    · intro e; subst e; exact ⟨rx, hrx, hry0⟩
    · rintro ⟨r, h1, h2⟩
      rw [hrx.unique h1, hry0.unique h2]
  · intro a c
    rw [same_congr hroots2, same_congr hroots1]
  · rw [numRoots_congr (by rw [hinv2.parent_length, hinv1.parent_length]) hself2,
      numRoots_congr (by rw [hinv1.parent_length, h.parent_length]) hself1]

/-- The specification of `unite`: it returns `true` exactly when the two
elements were in different sets; afterwards they are in the same set, the
partition is the old one with these two sets merged, and the number of sets
drops by one exactly when `true` is returned. -/
theorem unite_spec {n : Nat} {uf : UnionFind} (h : uf.Inv n) {x y : Nat} (hx : x < n)
    (hy : y < n) :
    ∃ b uf1, uf.unite x y = some (b, uf1) ∧ uf1.Inv n ∧ (b = true ↔ ¬ uf.Same x y) ∧
      (∀ a c, uf.Same a c → uf1.Same a c) ∧
      (∀ a c, uf1.Same a c →
        uf.Same a c ∨ (uf.Same a x ∧ uf.Same y c) ∨ (uf.Same a y ∧ uf.Same x c)) ∧
      uf1.Same x y ∧
      uf1.numRoots + (if b then 1 else 0) = uf.numRoots := by
  obtain ⟨rx, uf1, hf1, hrx, hinv1, _, hroots1, hself1⟩ := find_spec h hx
  obtain ⟨ry, uf2, hf2, hry, hinv2, _, hroots2, hself2⟩ := find_spec hinv1 hy
  have hs2 : ∀ a c, uf2.Same a c ↔ uf.Same a c := by
    intro a c
    rw [same_congr hroots2, same_congr hroots1]
  have hn2 : uf2.numRoots = uf.numRoots := by
    rw [numRoots_congr (by rw [hinv2.parent_length, hinv1.parent_length]) hself2,
      numRoots_congr (by rw [hinv1.parent_length, h.parent_length]) hself1]
  have hrx2 : RootOf uf2.parent x rx := (hroots2 x rx).2 ((hroots1 x rx).2 hrx)
  have hry2 : RootOf uf2.parent y ry := (hroots2 y ry).2 hry
  have hsame_iff : uf.Same x y ↔ rx = ry := by
    rw [← hs2]
    constructor
    · rintro ⟨r, h1, h2⟩
      rw [hrx2.unique h1, hry2.unique h2]
    · intro e; subst e; exact ⟨rx, hrx2, hry2⟩
  by_cases hroot : rx = ry
  · refine ⟨false, uf2, ?_, hinv2, ?_, ?_, ?_, ?_, ?_⟩
    · simp only [UnionFind.unite, hf1, hf2, if_pos hroot]
    · simp [hsame_iff, hroot]
    · intro a c hac; exact (hs2 a c).2 hac
    · intro a c hac; exact Or.inl ((hs2 a c).1 hac)
    · exact (hs2 x y).2 (hsame_iff.2 hroot)
    · simp [hn2]
  · have hunite : ∀ (c t xc xt : Nat) (rk : List Nat), RootOf uf2.parent xc c →
        RootOf uf2.parent xt t → t ≠ c → (UnionFind.mk (uf2.parent.set c t) rk).Inv n →
        ((xc = x ∧ xt = y) ∨ (xc = y ∧ xt = x)) →
        uf.unite x y = some (true, UnionFind.mk (uf2.parent.set c t) rk) →
        ∃ b uf1, uf.unite x y = some (b, uf1) ∧ uf1.Inv n ∧ (b = true ↔ ¬ uf.Same x y) ∧
          (∀ a c, uf.Same a c → uf1.Same a c) ∧
          (∀ a c, uf1.Same a c →
            uf.Same a c ∨ (uf.Same a x ∧ uf.Same y c) ∨ (uf.Same a y ∧ uf.Same x c)) ∧
          uf1.Same x y ∧
          uf1.numRoots + (if b then 1 else 0) = uf.numRoots := by
      intro c t xc xt rk hc ht hne hinv hcase heq
      obtain ⟨hl1, hl2, hl3⟩ := same_link hc ht hne rk
      refine ⟨true, _, heq, hinv, ?_, ?_, ?_, ?_, ?_⟩
      · simp [hsame_iff, hroot]
      · intro a b hab; exact hl2 a b ((hs2 a b).2 hab)
      · intro a b hab
        rcases hcase with ⟨e1, e2⟩ | ⟨e1, e2⟩
        · subst e1; subst e2
          rcases hl1 a b hab with h1 | ⟨h1, h2⟩ | ⟨h1, h2⟩
          · exact Or.inl ((hs2 _ _).1 h1)
          · exact Or.inr (Or.inl ⟨(hs2 _ _).1 h1, (hs2 _ _).1 h2⟩)
          · exact Or.inr (Or.inr ⟨(hs2 _ _).1 h1, (hs2 _ _).1 h2⟩)
        · subst e1; subst e2
          rcases hl1 a b hab with h1 | ⟨h1, h2⟩ | ⟨h1, h2⟩
          · exact Or.inl ((hs2 _ _).1 h1)
          · exact Or.inr (Or.inr ⟨(hs2 _ _).1 h1, (hs2 _ _).1 h2⟩)
          · exact Or.inr (Or.inl ⟨(hs2 _ _).1 h1, (hs2 _ _).1 h2⟩)
      · rcases hcase with ⟨e1, e2⟩ | ⟨e1, e2⟩
        · subst e1; subst e2; exact hl3
        · subst e1; subst e2; exact hl3.symm
      · have := numRoots_link rk hc.root_root hne
        simp only [if_true]
        rw [this, hn2]
    by_cases hlt : uf2.rank.getD rx 0 < uf2.rank.getD ry 0
    · refine hunite rx ry x y uf2.rank hrx2 hry2 (Ne.symm hroot) ?_ (Or.inl ⟨rfl, rfl⟩) ?_
      · exact inv_link hinv2 hrx2.root_root hry2.root_root (Ne.symm hroot) uf2.rank
          hinv2.rank_length (fun _ _ => rfl) le_rfl (Nat.le_succ _) hlt
      · simp only [UnionFind.unite, hf1, hf2, if_neg hroot, if_pos hlt]
    · by_cases hgt : uf2.rank.getD rx 0 > uf2.rank.getD ry 0
      · refine hunite ry rx y x uf2.rank hry2 hrx2 hroot ?_ (Or.inr ⟨rfl, rfl⟩) ?_
        · exact inv_link hinv2 hry2.root_root hrx2.root_root hroot uf2.rank
            hinv2.rank_length (fun _ _ => rfl) le_rfl (Nat.le_succ _) hgt
        · simp only [UnionFind.unite, hf1, hf2, if_neg hroot, if_neg hlt, if_pos hgt]
      · have hrxl : rx < uf2.rank.length := by
          rw [hinv2.rank_length, ← hinv2.parent_length]; exact hrx2.root_lt
        refine hunite ry rx y x (uf2.rank.set rx (uf2.rank.getD rx 0 + 1)) hry2 hrx2 hroot ?_
          (Or.inr ⟨rfl, rfl⟩) ?_
        · refine inv_link hinv2 hry2.root_root hrx2.root_root hroot _ ?_ ?_ ?_ ?_ ?_
          · simp [hinv2.rank_length]
          · intro z hz; exact getD_set_ne _ _ _ _ (Ne.symm hz)
          · rw [getD_set_self _ _ _ hrxl]; omega
          · rw [getD_set_self _ _ _ hrxl]
          · rw [getD_set_self _ _ _ hrxl, getD_set_ne _ _ _ _ hroot]; omega
        · simp only [UnionFind.unite, hf1, hf2, if_neg hroot, if_neg hlt, if_neg hgt]

/-- A fresh `UnionFind(n)` satisfies the invariant and has `n` singleton sets. -/
theorem new_inv (n : Nat) : (UnionFind.new n).Inv n ∧ (UnionFind.new n).numRoots = n ∧
    ∀ a b, (UnionFind.new n).Same a b → a = b := by
  have hget : ∀ x, x < n → (List.range n).getD x 0 = x := by
    intro x hx
    rw [List.getD_eq_getElem _ _ (by simpa using hx)]
    simp
  have hnum : (UnionFind.new n).numRoots = n := by
    unfold UnionFind.numRoots UnionFind.new
    simp only [Int.toNat_ofNat, List.length_range]
    rw [Finset.filter_true_of_mem]
    · simp
    · intro x hx
      exact hget x (Finset.mem_range.1 hx)
  have hrk : ∀ x, (List.replicate n 0).getD x 0 = 0 := by
    intro x
    rw [List.getD_eq_getElem?_getD]
    by_cases hx : x < n
    · simp [hx]
    · have : (List.replicate n 0)[x]? = none := by simp; omega
      simp [this]
  refine ⟨⟨?_, ?_, ?_, ?_, ?_, ?_⟩, hnum, ?_⟩
  · simp [UnionFind.new]
  · simp [UnionFind.new]
  · intro x hx
    show (List.range (n : Int).toNat).getD x 0 < n
    rw [Int.toNat_ofNat, hget x hx]; exact hx
  · intro x hx hne
    exfalso; apply hne
    show (List.range (n : Int).toNat).getD x 0 = x
    rw [Int.toNat_ofNat, hget x hx]
  · intro x hx
    show (List.replicate (n : Int).toNat 0).getD x 0 < n
    rw [Int.toNat_ofNat, hrk]; omega
  · intro x hx
    show (List.replicate (n : Int).toNat 0).getD x 0 + _ ≤ n
    rw [Int.toNat_ofNat, hrk, hnum]; omega
  · rintro a b ⟨r, ha, hb⟩
    have hself : ∀ {x s}, RootOf (UnionFind.new n).parent x s → s = x := by
      intro x s hs
      apply hs.of_root
      have hx : x < n := by simpa [UnionFind.new] using hs.lt
      show (List.range (n : Int).toNat).getD x 0 = x
      rw [Int.toNat_ofNat, hget x hx]
    rw [← hself ha, ← hself hb]


/-! ## The grid: reads, writes and wall removal -/

theorem getD_set_gen {α : Type} (p : List α) (x y : Nat) (v d : α) :
    (p.set x v).getD y d = if x = y ∧ x < p.length then v else p.getD y d := by
  simp only [List.getD_eq_getElem?_getD, List.getElem?_set]
  by_cases h : x = y
  · subst h
    by_cases hx : x < p.length
    · simp [hx]
    · have : p[x]? = none := by simp; omega
      simp [hx, this]
  · simp [h]

theorem getD_mem {α : Type} (p : List α) (x : Nat) (d : α) (hx : x < p.length) :
    p.getD x d ∈ p := by
  rw [List.getD_eq_getElem _ _ hx]
  exact List.getElem_mem hx

theorem gridDims_modifyCell {W H : Int} {g : List (List Cell)} (hg : GridDims W H g)
    (x y : Int) (f : Cell → Cell) : GridDims W H (modifyCell g x y f) := by
  unfold modifyCell
  refine ⟨by rw [List.length_set]; exact hg.1, ?_⟩
  intro row hrow
  by_cases hy : y.toNat < g.length
  · rcases List.mem_or_eq_of_mem_set hrow with h | h
    · exact hg.2 row h
    · rw [h, List.length_set]
      exact hg.2 _ (getD_mem g _ _ hy)
  · rw [List.set_eq_of_length_le (by omega)] at hrow
    exact hg.2 row hrow

theorem cellAt_modifyCell {W H : Int} {g : List (List Cell)} (hg : GridDims W H g)
    {x y : Int} (hx0 : 0 ≤ x) (hxW : x < W) (hy0 : 0 ≤ y) (hyH : y < H) (f : Cell → Cell)
    {x1 y1 : Int} (hx1 : 0 ≤ x1) (hy1 : 0 ≤ y1) :
    cellAt (modifyCell g x y f) x1 y1 =
      if x1 = x ∧ y1 = y then f (cellAt g x y) else cellAt g x1 y1 := by
  have hyl : y.toNat < g.length := by rw [hg.1]; omega
  have hrow : (g.getD y.toNat []).length = W.toNat := hg.2 _ (getD_mem g _ _ hyl)
  unfold modifyCell
  rw [cellAt, getD_set_gen]
  by_cases hyy : y1 = y
  · subst hyy
    rw [if_pos ⟨rfl, hyl⟩, getD_set_gen]
    by_cases hxx : x1 = x
    · subst hxx
      rw [if_pos ⟨rfl, by rw [hrow]; omega⟩, if_pos ⟨rfl, rfl⟩]
    · rw [if_neg (by omega), if_neg (by tauto)]
      rfl
  · rw [if_neg (by omega), if_neg (by tauto)]
    rfl

/-- Pointwise description of the removal of a wall between a cell and the cell below it. -/
theorem cellAt_removeWall_down {W H : Int} {g : List (List Cell)} (hg : GridDims W H g)
    {wx wy : Int} (hx0 : 0 ≤ wx) (hxW : wx < W) (hy0 : 0 ≤ wy) (hyH : wy + 1 < H)
    {x y : Int} (hx : 0 ≤ x) (hy : 0 ≤ y) :
    cellAt (removeWallFromGrid g ⟨wx, wy, wx, wy + 1⟩) x y =
      if x = wx ∧ y = wy + 1 then { cellAt g x y with top := false }
      else if x = wx ∧ y = wy then { cellAt g x y with bottom := false }
      else cellAt g x y := by
  unfold removeWallFromGrid
  simp only [if_true, show wy < wy + 1 by omega]
  rw [cellAt_modifyCell (gridDims_modifyCell hg _ _ _) hx0 hxW (by omega) hyH _ hx hy]
  by_cases h1 : x = wx ∧ y = wy + 1
  · rw [if_pos h1, if_pos h1]
    rw [cellAt_modifyCell hg hx0 hxW hy0 (by omega) _ hx0 (by omega)]
    rw [if_neg (by omega)]
    rw [h1.1, h1.2]
  · rw [if_neg h1, if_neg h1]
    rw [cellAt_modifyCell hg hx0 hxW hy0 (by omega) _ hx hy]
    by_cases h2 : x = wx ∧ y = wy
    · rw [if_pos h2, if_pos h2, h2.1, h2.2]
    · rw [if_neg h2, if_neg h2]

/-- Pointwise description of the removal of a wall between a cell and the cell to its right. -/
theorem cellAt_removeWall_right {W H : Int} {g : List (List Cell)} (hg : GridDims W H g)
    {wx wy : Int} (hx0 : 0 ≤ wx) (hxW : wx + 1 < W) (hy0 : 0 ≤ wy) (hyH : wy < H)
    {x y : Int} (hx : 0 ≤ x) (hy : 0 ≤ y) :
    cellAt (removeWallFromGrid g ⟨wx, wy, wx + 1, wy⟩) x y =
      if x = wx + 1 ∧ y = wy then { cellAt g x y with left := false }
      else if x = wx ∧ y = wy then { cellAt g x y with right := false }
      else cellAt g x y := by
  unfold removeWallFromGrid
  simp only [show ¬ (wx = wx + 1) by omega, if_false, show wx < wx + 1 by omega, if_true]
  rw [cellAt_modifyCell (gridDims_modifyCell hg _ _ _) (by omega) hxW hy0 hyH _ hx hy]
  by_cases h1 : x = wx + 1 ∧ y = wy
  · rw [if_pos h1, if_pos h1]
    rw [cellAt_modifyCell hg hx0 (by omega) hy0 hyH _ (by omega) hy0]
    rw [if_neg (by omega)]
    rw [h1.1, h1.2]
  · rw [if_neg h1, if_neg h1]
    rw [cellAt_modifyCell hg hx0 (by omega) hy0 hyH _ hx hy]
    by_cases h2 : x = wx ∧ y = wy
    · rw [if_pos h2, if_pos h2, h2.1, h2.2]
    · rw [if_neg h2, if_neg h2]

theorem gridDims_removeWall {W H : Int} {g : List (List Cell)} (hg : GridDims W H g)
    (w : Wall) : GridDims W H (removeWallFromGrid g w) := by
  unfold removeWallFromGrid
  split_ifs <;> exact gridDims_modifyCell (gridDims_modifyCell hg _ _ _) _ _ _

/-- Removing a grid wall clears exactly the two flags that face it. -/
theorem flagsMatch_removeWall {W H : Int} {g : List (List Cell)} {log : List Wall}
    (hg : GridDims W H g) (hf : FlagsMatch W H g log) {w : Wall} (hw : IsGridWall W H w) :
    FlagsMatch W H (removeWallFromGrid g w) (log ++ [w]) := by
  intro x y hx0 hxW hy0 hyH
  obtain ⟨h1, h2, h3, h4⟩ := hf x y hx0 hxW hy0 hyH
  obtain ⟨x1, y1, x2, y2⟩ := w
  simp only [List.mem_append, List.mem_singleton, Wall.mk.injEq]
  rcases hw with ⟨e1, e2, a1, a2, a3, a4⟩ | ⟨e1, e2, a1, a2, a3, a4⟩
  · simp only at e1 e2 a1 a2 a3 a4
    subst e1; subst e2
    rw [cellAt_removeWall_down hg a1 a2 a3 a4 hx0 hy0]
    by_cases c1 : x = x2 ∧ y = y1 + 1
    · rw [if_pos c1]
      simp only [← h1, ← h2, ← h3, ← h4]
      refine ⟨?_, ?_, ?_, ?_⟩
      · constructor
        · intro h; exact Or.inl h
        · rintro (h | h)
          · exact h
          · omega
      · constructor
        · intro _; right; omega
        · intro _; trivial
      · constructor
        · intro h; exact Or.inl h
        · rintro (h | h)
          · exact h
          · omega
      · constructor
        · intro h; exact Or.inl h
        · rintro (h | h)
          · exact h
          · omega
    · rw [if_neg c1]
      by_cases c2 : x = x2 ∧ y = y1
      · rw [if_pos c2]
        simp only [← h1, ← h2, ← h3, ← h4]
        refine ⟨?_, ?_, ?_, ?_⟩
        · constructor
          · intro _; right; omega
          · intro _; trivial
        · constructor
          · intro h; exact Or.inl h
          · rintro (h | h)
            · exact h
            · omega
        · constructor
          · intro h; exact Or.inl h
          · rintro (h | h)
            · exact h
            · omega
        · constructor
          · intro h; exact Or.inl h
          · rintro (h | h)
            · exact h
            · omega
      · rw [if_neg c2]
        simp only [← h1, ← h2, ← h3, ← h4]
        refine ⟨?_, ?_, ?_, ?_⟩ <;>
        · constructor
          · intro h; exact Or.inl h
          · rintro (h | h)
            · exact h
            · omega
  · simp only at e1 e2 a1 a2 a3 a4
    subst e1; subst e2
    rw [cellAt_removeWall_right hg a1 a2 a3 a4 hx0 hy0]
    by_cases c1 : x = x1 + 1 ∧ y = y2
    · rw [if_pos c1]
      simp only [← h1, ← h2, ← h3, ← h4]
      refine ⟨?_, ?_, ?_, ?_⟩
      · constructor
        · intro h; exact Or.inl h
        · rintro (h | h)
          · exact h
          · omega
      · constructor
        · intro h; exact Or.inl h
        · rintro (h | h)
          · exact h
          · omega
      · constructor
        · intro h; exact Or.inl h
        · rintro (h | h)
          · exact h
          · omega
      · constructor
        · intro _; right; omega
        · intro _; trivial
    · rw [if_neg c1]
      by_cases c2 : x = x1 ∧ y = y2
      · rw [if_pos c2]
        simp only [← h1, ← h2, ← h3, ← h4]
        refine ⟨?_, ?_, ?_, ?_⟩
        · constructor
          · intro h; exact Or.inl h
          · rintro (h | h)
            · exact h
            · omega
        · constructor
          · intro h; exact Or.inl h
          · rintro (h | h)
            · exact h
            · omega
        · constructor
          · intro _; right; omega
          · intro _; trivial
        · constructor
          · intro h; exact Or.inl h
          · rintro (h | h)
            · exact h
            · omega
      · rw [if_neg c2]
        simp only [← h1, ← h2, ← h3, ← h4]
        refine ⟨?_, ?_, ?_, ?_⟩ <;>
        · constructor
          · intro h; exact Or.inl h
          · rintro (h | h)
            · exact h
            · omega

theorem clearRow_spec {W H : Int} (y : Nat) (hy : (y : Int) < H) :
    ∀ (xs : List Nat) (g : List (List Cell)), GridDims W H g → (∀ x, x ∈ xs → (x : Int) < W) →
      GridDims W H (xs.foldl (fun g1 (x : Nat) => modifyCell g1 x y (fun _ => Cell.default)) g) ∧
      ∀ x1 y1 : Int, 0 ≤ x1 → 0 ≤ y1 →
        ((y1 = y ∧ x1.toNat ∈ xs) ∨ cellAt g x1 y1 = Cell.default) →
        cellAt (xs.foldl (fun g1 (x : Nat) => modifyCell g1 x y (fun _ => Cell.default)) g) x1 y1
          = Cell.default := by
  intro xs
  induction xs with
  | nil =>
    intro g hg _
    refine ⟨hg, ?_⟩
    intro x1 y1 _ _ h
    rcases h with ⟨_, h⟩ | h
    · simp at h
    · exact h
  | cons x xs ih =>
    intro g hg hxs
    have hxW : (x : Int) < W := hxs x (List.mem_cons_self _ _)
    have hg1 := gridDims_modifyCell hg (x : Int) (y : Int) (fun _ => Cell.default)
    obtain ⟨hd, hc⟩ := ih (modifyCell g x y (fun _ => Cell.default)) hg1
      (fun z hz => hxs z (List.mem_cons_of_mem _ hz))
    refine ⟨hd, ?_⟩
    intro x1 y1 hx1 hy1 h
    apply hc x1 y1 hx1 hy1
    rw [cellAt_modifyCell hg (by omega) hxW (by omega) hy _ hx1 hy1]
    by_cases hc1 : x1 = x ∧ y1 = y
    · right; rw [if_pos hc1]
    · rw [if_neg hc1]
      rcases h with ⟨h1, h2⟩ | h
      · rcases List.mem_cons.1 h2 with h3 | h3
        · exfalso; apply hc1; constructor <;> omega
        · exact Or.inl ⟨h1, h3⟩
      · exact Or.inr h

theorem clearRows_spec {W H : Int} (hW : 0 ≤ W) :
    ∀ (ys : List Nat) (g : List (List Cell)), GridDims W H g → (∀ y, y ∈ ys → (y : Int) < H) →
      GridDims W H (ys.foldl (fun g (y : Nat) => (List.range W.toNat).foldl
          (fun g1 (x : Nat) => modifyCell g1 x y (fun _ => Cell.default)) g) g) ∧
      ∀ x1 y1 : Int, 0 ≤ x1 → x1 < W → 0 ≤ y1 →
        (y1.toNat ∈ ys ∨ cellAt g x1 y1 = Cell.default) →
        cellAt (ys.foldl (fun g (y : Nat) => (List.range W.toNat).foldl
          (fun g1 (x : Nat) => modifyCell g1 x y (fun _ => Cell.default)) g) g) x1 y1
          = Cell.default := by
  intro ys
  induction ys with
  | nil =>
    intro g hg _
    refine ⟨hg, ?_⟩
    intro x1 y1 _ _ _ h
    rcases h with h | h
    · simp at h
    · exact h
  | cons y ys ih =>
    intro g hg hys
    have hyH : (y : Int) < H := hys y (List.mem_cons_self _ _)
    obtain ⟨hd1, hc1⟩ := clearRow_spec y hyH (List.range W.toNat) g hg
      (by intro x hx; have := List.mem_range.1 hx; omega)
    obtain ⟨hd, hc⟩ := ih _ hd1 (fun z hz => hys z (List.mem_cons_of_mem _ hz))
    refine ⟨hd, ?_⟩
    intro x1 y1 hx1 hx1W hy1 h
    apply hc x1 y1 hx1 hx1W hy1
    rcases h with h | h
    · rcases List.mem_cons.1 h with h3 | h3
      · right
        apply hc1 x1 y1 hx1 hy1
        left
        refine ⟨by omega, ?_⟩
        rw [List.mem_range]; omega
      · exact Or.inl h3
    · right
      exact hc1 x1 y1 hx1 hy1 (Or.inr h)

/-- After the clearing loops every in-bounds cell is fully walled. -/
theorem clearGrid_spec {W H : Int} (hW : 0 ≤ W) {g : List (List Cell)} (hg : GridDims W H g) :
    GridDims W H (clearGrid W H g) ∧
    ∀ x y : Int, 0 ≤ x → x < W → 0 ≤ y → y < H → cellAt (clearGrid W H g) x y = Cell.default := by
  obtain ⟨hd, hc⟩ := clearRows_spec hW (List.range H.toNat) g hg
    (by intro y hy; have := List.mem_range.1 hy; omega)
  refine ⟨hd, ?_⟩
  intro x y hx hxW hy hyH
  apply hc x y hx hxW hy
  left
  rw [List.mem_range]; omega

theorem flagsMatch_clearGrid {W H : Int} (hW : 0 ≤ W) {g : List (List Cell)}
    (hg : GridDims W H g) : FlagsMatch W H (clearGrid W H g) [] := by
  intro x y hx hxW hy hyH
  rw [(clearGrid_spec hW hg).2 x y hx hxW hy hyH]
  simp [Cell.default]

/-- The candidate list holds exactly the internal walls of the grid. -/
theorem mem_allWalls {W H : Int} {w : Wall} : w ∈ allWalls W H ↔ IsGridWall W H w := by
  obtain ⟨x1, y1, x2, y2⟩ := w
  unfold allWalls IsGridWall
  simp only [List.mem_append, List.mem_flatMap, List.mem_map, List.mem_range, Wall.mk.injEq]
  constructor
  · rintro (⟨y, hy, x, hx, e1, e2, e3, e4⟩ | ⟨y, hy, x, hx, e1, e2, e3, e4⟩)
    · left; omega
    · right; omega
  · rintro (⟨e1, e2, a1, a2, a3, a4⟩ | ⟨e1, e2, a1, a2, a3, a4⟩)
    · left
      exact ⟨y1.toNat, by omega, x1.toNat, by omega, by omega, by omega, by omega, by omega⟩
    · right
      exact ⟨y1.toNat, by omega, x1.toNat, by omega, by omega, by omega, by omega, by omega⟩


/-! ## The wall graph and the spanning-tree loop -/

/-- Adding to an acyclic graph edges that all join one pair of vertices,
unreachable from each other before, keeps the graph acyclic. -/
theorem isAcyclic_add_edge {V : Type} {G G1 : SimpleGraph V} {u v : V} (hG : G.IsAcyclic)
    (hn : ¬ G.Reachable u v) (hle : ∀ a b, G1.Adj a b → G.Adj a b ∨ s(a, b) = s(u, v)) :
    G1.IsAcyclic := by
  intro w c hc
  by_cases h : s(u, v) ∈ c.edges
  · have h1 := (SimpleGraph.adj_and_reachable_delete_edges_iff_exists_cycle).2 ⟨w, c, hc, h⟩
    apply hn
    refine h1.2.mono ?_
    intro a b hab
    rw [SimpleGraph.sdiff_adj] at hab
    rcases hle a b hab.1 with h2 | h2
    · exact h2
    · exfalso
      apply hab.2
      rw [SimpleGraph.fromEdgeSet_adj]
      exact ⟨by rw [h2]; rfl, hab.1.ne⟩
  · have htr : ∀ e, e ∈ c.edges → e ∈ G.edgeSet := by
      intro e he
      have he1 := c.edges_subset_edgeSet he
      induction e using Sym2.ind with
      | _ a b =>
        rw [SimpleGraph.mem_edgeSet] at he1 ⊢
        rcases hle a b he1 with h2 | h2
        · exact h2
        · exact absurd (h2 ▸ he) h
    exact hG (c.transfer G htr) (hc.transfer htr)

theorem wallGraph_adj {log : List Wall} {a b : Int × Int} :
    (wallGraph log).Adj a b ↔
      (∃ w, w ∈ log ∧ ((a = w.fst ∧ b = w.snd) ∨ (a = w.snd ∧ b = w.fst))) ∧ a ≠ b := by
  unfold wallGraph
  rw [SimpleGraph.fromEdgeSet_adj]
  simp only [Set.mem_setOf_eq, Sym2.eq_iff]

theorem wallGraph_mono {log log1 : List Wall} (h : ∀ w, w ∈ log → w ∈ log1) :
    wallGraph log ≤ wallGraph log1 := by
  intro a b hab
  rw [wallGraph_adj] at hab ⊢
  obtain ⟨⟨w, hw, hc⟩, hne⟩ := hab
  exact ⟨⟨w, h w hw, hc⟩, hne⟩

theorem IsGridWall.fst_ne_snd {W H : Int} {w : Wall} (h : IsGridWall W H w) : w.fst ≠ w.snd := by
  obtain ⟨x1, y1, x2, y2⟩ := w
  unfold IsGridWall at h
  simp only [Wall.fst, Wall.snd, ne_eq, Prod.mk.injEq]
  simp only at h
  omega

theorem IsGridWall.fst_in {W H : Int} {w : Wall} (h : IsGridWall W H w) : InGrid W H w.fst := by
  obtain ⟨x1, y1, x2, y2⟩ := w
  unfold IsGridWall at h
  simp only [Wall.fst, InGrid]
  simp only at h
  omega

theorem IsGridWall.snd_in {W H : Int} {w : Wall} (h : IsGridWall W H w) : InGrid W H w.snd := by
  obtain ⟨x1, y1, x2, y2⟩ := w
  unfold IsGridWall at h
  simp only [Wall.snd, InGrid]
  simp only at h
  omega

theorem cellIndex_lt {W H : Int} {c : Int × Int} (h : InGrid W H c) :
    cellIndex W c < (W * H).toNat := by
  obtain ⟨h1, h2, h3, h4⟩ := h
  unfold cellIndex
  have h5 : c.2 * W ≤ (H - 1) * W := by
    apply Int.mul_le_mul_of_nonneg_right <;> omega
  have h6 : 0 ≤ c.2 * W := Int.mul_nonneg h3 (by omega)
  have h7 : (H - 1) * W = W * H - W := by ring
  omega

/-- Every valid union-find index is the index of an in-bounds cell. -/
theorem exists_cell_of_index {W H : Int} (hW : 1 ≤ W) {i : Nat} (hi : i < (W * H).toNat) :
    ∃ c, InGrid W H c ∧ cellIndex W c = i := by
  refine ⟨((i : Int) % W, (i : Int) / W), ⟨?_, ?_, ?_, ?_⟩, ?_⟩
  · exact Int.emod_nonneg _ (by omega)
  · exact Int.emod_lt_of_pos _ (by omega)
  · exact Int.ediv_nonneg (by omega) (by omega)
  · apply Int.ediv_lt_of_lt_mul (by omega)
    rw [mul_comm]; omega
  · unfold cellIndex
    show ((i : Int) / W * W + (i : Int) % W).toNat = i
    rw [Int.ediv_add_emod']
    simp

theorem cellIndex_inj {W H : Int} {a b : Int × Int} (ha : InGrid W H a) (hb : InGrid W H b)
    (h : cellIndex W a = cellIndex W b) : a = b := by
  obtain ⟨a1, a2, a3, a4⟩ := ha
  obtain ⟨b1, b2, b3, b4⟩ := hb
  unfold cellIndex at h
  have hW : 0 < W := by omega
  have h1 : 0 ≤ a.2 * W := Int.mul_nonneg a3 (by omega)
  have h2 : 0 ≤ b.2 * W := Int.mul_nonneg b3 (by omega)
  have h3 : a.2 * W + a.1 = b.2 * W + b.1 := by omega
  have h4 : (a.2 * W + a.1) % W = a.1 := by
    rw [Int.add_comm, Int.add_mul_emod_self]
    exact Int.emod_eq_of_lt a1 a2
  have h5 : (b.2 * W + b.1) % W = b.1 := by
    rw [Int.add_comm, Int.add_mul_emod_self]
    exact Int.emod_eq_of_lt b1 b2
  have h6 : a.1 = b.1 := by rw [← h4, ← h5, h3]
  have h7 : a.2 * W = b.2 * W := by omega
  have h8 : a.2 = b.2 := Int.eq_of_mul_eq_mul_right (by omega) h7
  exact Prod.ext h6 h8

/-- When the endpoints of every logged wall are in one set, cells joined by a
path of logged walls are in one set. -/
theorem same_of_reachable {W H : Int} {uf : UnionFind} {log : List Wall}
    (hinv : uf.Inv (W * H).toNat)
    (hlog : ∀ w, w ∈ log → IsGridWall W H w ∧ uf.Same (cellIndex W w.fst) (cellIndex W w.snd))
    {a b : Int × Int} (ha : InGrid W H a) (h : (wallGraph log).Reachable a b) :
    uf.Same (cellIndex W a) (cellIndex W b) := by
  obtain ⟨p⟩ := h
  induction p with
  | nil => exact hinv.same_refl (cellIndex_lt ha)
  | @cons u v x hadj _ ih =>
    rw [wallGraph_adj] at hadj
    obtain ⟨⟨w, hw, hc⟩, _⟩ := hadj
    obtain ⟨hgw, hs⟩ := hlog w hw
    rcases hc with ⟨e1, e2⟩ | ⟨e1, e2⟩
    · rw [e1] at ha ⊢
      have hv : InGrid W H v := e2 ▸ hgw.snd_in
      exact (e2 ▸ hs).trans (ih hv)
    · rw [e1] at ha ⊢
      have hv : InGrid W H v := e2 ▸ hgw.fst_in
      exact (e2 ▸ hs.symm).trans (ih hv)

theorem treeInv_init {W H : Int} (hW : 0 ≤ W) (hH : 0 ≤ H) {g : List (List Cell)}
    (hg : GridDims W H g) :
    TreeInv W H [] ⟨UnionFind.new (W * H), clearGrid W H g, [], []⟩ := by
  have hn : W * H = ((W * H).toNat : Int) := (Int.toNat_of_nonneg (Int.mul_nonneg hW hH)).symm
  obtain ⟨h1, h2, h3⟩ := new_inv (W * H).toNat
  rw [← hn] at h1 h2 h3
  refine ⟨h1, ?_, ?_, ?_, ?_, (clearGrid_spec hW hg).1, flagsMatch_clearGrid hW hg, ?_, ?_⟩
  · intro w hw; simp at hw
  · intro a b ha hb hs
    have := cellIndex_inj ha hb (h3 _ _ hs)
    subst this
    exact SimpleGraph.Reachable.refl _
  · intro w hw; simp at hw
  · simp [h2]
  · simp
  · intro v c hc
    cases c with
    | nil => exact hc.ne_nil rfl
    | cons hadj _ =>
      rw [wallGraph_adj] at hadj
      simp at hadj

/-- One iteration of the spanning-tree loop succeeds and keeps the invariant. -/
theorem treeStep_inv {W H : Int} {done : List Wall} {st : TreeState}
    (hinv : TreeInv W H done st) {w : Wall} (hw : IsGridWall W H w) :
    ∃ st1, treeStep W st w = some st1 ∧ TreeInv W H (done ++ [w]) st1 ∧
      ((st1.wallRemovalOrder = st.wallRemovalOrder ++ [w] ∧ st1.skippedWalls = st.skippedWalls) ∨
       (st1.wallRemovalOrder = st.wallRemovalOrder ∧ st1.skippedWalls = st.skippedWalls ++ [w]))
    := by
  have hx : cellIndex W w.fst < (W * H).toNat := cellIndex_lt hw.fst_in
  have hy : cellIndex W w.snd < (W * H).toNat := cellIndex_lt hw.snd_in
  obtain ⟨c, uf1, hconn, hinv1, hc, hsame1, hnum1⟩ := connected_spec hinv.uf_inv hx hy
  have hwalls : ∀ w1, w1 ∈ done ++ [w] → IsGridWall W H w1 := by
    intro w1 hw1
    rcases List.mem_append.1 hw1 with h | h
    · exact hinv.walls w1 h
    · rw [List.mem_singleton.1 h]; exact hw
  have hstep : treeStep W st w =
      match st.uf.connected (cellIndex W w.fst) (cellIndex W w.snd) with
      | none => none
      | some (c, uf1) =>
        if !c then
          match uf1.unite (cellIndex W w.fst) (cellIndex W w.snd) with
          | none => none
          | some (_, uf2) =>
            some ⟨uf2, removeWallFromGrid st.grid w, st.wallRemovalOrder ++ [w],
                  st.skippedWalls⟩
        else
          some ⟨uf1, st.grid, st.wallRemovalOrder, st.skippedWalls ++ [w]⟩ := rfl
  rw [hstep, hconn]
  cases c with
  | true =>
    refine ⟨⟨uf1, st.grid, st.wallRemovalOrder, st.skippedWalls ++ [w]⟩, by simp, ?_,
      Or.inr ⟨rfl, rfl⟩⟩
    refine ⟨hinv1, hwalls, ?_, ?_, ?_, hinv.dims, hinv.flags, ?_, hinv.acyclic⟩
    · intro a b ha hb hs
      exact hinv.sound a b ha hb ((hsame1 _ _).1 hs)
    · intro w1 hw1
      rcases List.mem_append.1 hw1 with h | h
      · exact (hsame1 _ _).2 (hinv.complete w1 h)
      · rw [List.mem_singleton.1 h]
        exact (hsame1 _ _).2 (hc.1 rfl)
    · show uf1.numRoots + _ = _
      rw [hnum1]; exact hinv.count
    · show (st.wallRemovalOrder ++ (st.skippedWalls ++ [w])).Perm (done ++ [w])
      rw [← List.append_assoc]
      exact hinv.split.append_right [w]
  | false =>
    have hns : ¬ st.uf.Same (cellIndex W w.fst) (cellIndex W w.snd) := by
      intro h; have := hc.2 h; simp at this
    have hns1 : ¬ uf1.Same (cellIndex W w.fst) (cellIndex W w.snd) := by
      intro h; exact hns ((hsame1 _ _).1 h)
    obtain ⟨b, uf2, hun, hinv2, hb, hmono, hchar, hxy, hnum2⟩ := unite_spec hinv1 hx hy
    have hbt : b = true := hb.2 hns1
    subst hbt
    simp only [Bool.not_false, if_true, hun]
    refine ⟨⟨uf2, removeWallFromGrid st.grid w, st.wallRemovalOrder ++ [w], st.skippedWalls⟩,
      by simp, ?_, Or.inl ⟨rfl, rfl⟩⟩
    have hmonoG : wallGraph st.wallRemovalOrder ≤ wallGraph (st.wallRemovalOrder ++ [w]) :=
      wallGraph_mono (fun w1 h => List.mem_append_left _ h)
    have hadj : (wallGraph (st.wallRemovalOrder ++ [w])).Adj w.fst w.snd := by
      rw [wallGraph_adj]
      exact ⟨⟨w, by simp, Or.inl ⟨rfl, rfl⟩⟩, hw.fst_ne_snd⟩
    have hlog : ∀ w1, w1 ∈ st.wallRemovalOrder →
        IsGridWall W H w1 ∧ st.uf.Same (cellIndex W w1.fst) (cellIndex W w1.snd) := by
      intro w1 hw1
      have hd : w1 ∈ done := hinv.split.subset (List.mem_append_left _ hw1)
      exact ⟨hinv.walls w1 hd, hinv.complete w1 hd⟩
    refine ⟨hinv2, hwalls, ?_, ?_, ?_, gridDims_removeWall hinv.dims w,
      flagsMatch_removeWall hinv.dims hinv.flags hw, ?_, ?_⟩
    · intro a c ha hc1 hs
      have hr : ∀ p q, InGrid W H p → InGrid W H q →
          uf1.Same (cellIndex W p) (cellIndex W q) →
          (wallGraph (st.wallRemovalOrder ++ [w])).Reachable p q := by
        intro p q hp hq h
        exact (hinv.sound p q hp hq ((hsame1 _ _).1 h)).mono hmonoG
      rcases hchar _ _ hs with h | ⟨h1, h2⟩ | ⟨h1, h2⟩
      · exact hr a c ha hc1 h
      · exact ((hr a w.fst ha hw.fst_in h1).trans hadj.reachable).trans
          (hr w.snd c hw.snd_in hc1 h2)
      · exact ((hr a w.snd ha hw.snd_in h1).trans hadj.symm.reachable).trans
          (hr w.fst c hw.fst_in hc1 h2)
    · intro w1 hw1
      rcases List.mem_append.1 hw1 with h | h
      · exact hmono _ _ ((hsame1 _ _).2 (hinv.complete w1 h))
      · rw [List.mem_singleton.1 h]; exact hxy
    · show uf2.numRoots + (st.wallRemovalOrder ++ [w]).length = _
      have := hinv.count
      simp only [if_true] at hnum2
      rw [List.length_append, List.length_singleton]
      omega
    · show ((st.wallRemovalOrder ++ [w]) ++ st.skippedWalls).Perm (done ++ [w])
      refine List.Perm.trans ?_ (hinv.split.append_right [w])
      rw [List.append_assoc, List.append_assoc]
      exact List.Perm.append_left _ List.perm_append_comm
    · refine @isAcyclic_add_edge _ _ _ w.fst w.snd hinv.acyclic ?_ ?_
      · intro hreach
        exact hns (same_of_reachable hinv.uf_inv hlog hw.fst_in hreach)
      · intro a c hac
        rw [wallGraph_adj] at hac
        obtain ⟨⟨w1, hw1, hcase⟩, hne⟩ := hac
        rcases List.mem_append.1 hw1 with h | h
        · left
          rw [wallGraph_adj]
          exact ⟨⟨w1, h, hcase⟩, hne⟩
        · right
          rw [List.mem_singleton.1 h] at hcase
          rw [Sym2.eq_iff]
          exact hcase

/-- The spanning-tree loop runs to completion and keeps the invariant. -/
theorem treeLoop_inv {W H : Int} : ∀ (rest done : List Wall) (st : TreeState),
    TreeInv W H done st → (∀ w, w ∈ rest → IsGridWall W H w) →
    ∃ st1, treeLoop W st rest = some st1 ∧ TreeInv W H (done ++ rest) st1 := by
  intro rest
  induction rest with
  | nil =>
    intro done st hinv _
    exact ⟨st, rfl, by rw [List.append_nil]; exact hinv⟩
  | cons w rest ih =>
    intro done st hinv hrest
    obtain ⟨st1, hstep, hinv1, _⟩ := treeStep_inv hinv (hrest w (List.mem_cons_self _ _))
    obtain ⟨st2, hloop, hinv2⟩ := ih (done ++ [w]) st1 hinv1
      (fun w1 h => hrest w1 (List.mem_cons_of_mem _ h))
    refine ⟨st2, ?_, ?_⟩
    · rw [treeLoop, hstep]; exact hloop
    · rw [List.append_assoc] at hinv2; exact hinv2

/-- The first half of `generateMaze` always completes, and its result
satisfies the loop invariant for the whole shuffled wall list. -/
theorem generateTree_inv {shuffle1 : List Wall → List Wall}
    (hperm : ∀ l, (shuffle1 l).Perm l) {m : Maze} (hm : m.WF) :
    ∃ st, generateTree shuffle1 m = some st ∧
      TreeInv m.width m.height (shuffle1 (allWalls m.width m.height)) st := by
  obtain ⟨hW, hH, hg⟩ := hm
  have h0 := treeInv_init hW hH hg
  obtain ⟨st, hloop, hinv⟩ := treeLoop_inv (shuffle1 (allWalls m.width m.height)) [] _ h0
    (fun w hw => mem_allWalls.1 ((hperm _).subset hw))
  exact ⟨st, hloop, by simpa using hinv⟩

/-- Once every internal wall has been processed, every cell is in the set of
the cell `(0, 0)`. -/
theorem same_origin {W H : Int} {done : List Wall} {st : TreeState}
    (hinv : TreeInv W H done st) (hall : ∀ w, IsGridWall W H w → w ∈ done) :
    ∀ (k : Nat) (a : Int × Int), InGrid W H a → a.1.toNat + a.2.toNat = k →
      st.uf.Same (cellIndex W a) (cellIndex W (0, 0)) := by
  intro k
  induction k with
  | zero =>
    intro a ha hk
    obtain ⟨a1, a2, a3, a4⟩ := ha
    have : a = (0, 0) := Prod.ext (by show a.1 = 0; omega) (by show a.2 = 0; omega)
    subst this
    exact hinv.uf_inv.same_refl (cellIndex_lt ⟨a1, a2, a3, a4⟩)
  | succ k ih =>
    intro a ha hk
    obtain ⟨x, y⟩ := a
    obtain ⟨a1, a2, a3, a4⟩ := ha
    simp only at a1 a2 a3 a4 hk
    by_cases hx : 0 < x
    · have hw : IsGridWall W H ⟨x - 1, y, x, y⟩ := by
        right
        refine ⟨rfl, ?_⟩
        simp only
        omega
      have h1 := hinv.complete _ (hall _ hw)
      have h2 := ih (x - 1, y) ⟨by simp only; omega, by simp only; omega, a3, a4⟩
        (by simp only; omega)
      exact h1.symm.trans h2
    · have hw : IsGridWall W H ⟨x, y - 1, x, y⟩ := by
        left
        refine ⟨rfl, ?_⟩
        simp only
        omega
      have h1 := hinv.complete _ (hall _ hw)
      have h2 := ih (x, y - 1) ⟨a1, a2, by simp only; omega, by simp only; omega⟩
        (by simp only; omega)
      exact h1.symm.trans h2

/-- Once every internal wall has been processed, the logged walls connect
every pair of cells. -/
theorem tree_spanning {W H : Int} {done : List Wall} {st : TreeState}
    (hinv : TreeInv W H done st) (hall : ∀ w, IsGridWall W H w → w ∈ done)
    {a b : Int × Int} (ha : InGrid W H a) (hb : InGrid W H b) :
    (wallGraph st.wallRemovalOrder).Reachable a b :=
  hinv.sound a b ha hb
    ((same_origin hinv hall _ a ha rfl).trans (same_origin hinv hall _ b hb rfl).symm)

theorem numRoots_eq_one {n : Nat} {uf : UnionFind} (hinv : uf.Inv n) {z : Nat} (hz : z < n)
    (hall : ∀ i, i < n → uf.Same i z) : uf.numRoots = 1 := by
  obtain ⟨r0, hr0⟩ := hinv.exists_root hz
  unfold UnionFind.numRoots
  rw [Finset.card_eq_one]
  refine ⟨r0, ?_⟩
  ext i
  simp only [Finset.mem_filter, Finset.mem_range, Finset.mem_singleton]
  constructor
  · rintro ⟨hi, hself⟩
    obtain ⟨r, h1, h2⟩ := hall i (hinv.parent_length ▸ hi)
    have e1 : r = i := h1.of_root hself
    have e2 : r = r0 := h2.unique hr0
    rw [← e1, e2]
  · intro e
    subst e
    exact ⟨hr0.root_lt, hr0.root_self⟩

/-- Once every internal wall has been processed, the log holds one wall less
than there are cells. -/
theorem tree_count {W H : Int} (hW : 1 ≤ W) (hH : 1 ≤ H) {done : List Wall} {st : TreeState}
    (hinv : TreeInv W H done st) (hall : ∀ w, IsGridWall W H w → w ∈ done) :
    (st.wallRemovalOrder.length : Int) = W * H - 1 := by
  have h0 : InGrid W H (0, 0) := ⟨le_refl _, by show (0 : Int) < W; omega, le_refl _,
    by show (0 : Int) < H; omega⟩
  have hone : st.uf.numRoots = 1 := by
    apply numRoots_eq_one hinv.uf_inv (cellIndex_lt h0)
    intro i hi
    obtain ⟨c, hc, hci⟩ := exists_cell_of_index hW hi
    rw [← hci]
    exact same_origin hinv hall _ c hc rfl
  have hcount := hinv.count
  have hpos : 0 ≤ W * H := Int.mul_nonneg (by omega) (by omega)
  rw [hone] at hcount
  omega


/-! ## The cycle loop and `generateMaze` as a whole -/

/-- The cycle loop never runs out of iterations, never reads past the end of
the skipped list, and opens exactly the first `min(max(extraCycles,0), size)`
skipped walls, in order. -/
theorem cycleLoop_spec {W H : Int} (extraCycles : Int) (sk : List Wall)
    (hsk : ∀ w, w ∈ sk → IsGridWall W H w) :
    ∀ (fuel i : Nat) (g : List (List Cell)) (log : List Wall), sk.length ≤ fuel + i →
      GridDims W H g → FlagsMatch W H g log →
      ∃ g1, cycleLoop extraCycles sk fuel i (g, log) =
          some (g1, log ++ (sk.take (min extraCycles.toNat sk.length)).drop i) ∧
        GridDims W H g1 ∧
        FlagsMatch W H g1 (log ++ (sk.take (min extraCycles.toNat sk.length)).drop i) := by
  intro fuel
  induction fuel with
  | zero =>
    intro i g log hfuel hg hf
    have hcond : ¬ ((i : Int) < extraCycles ∧ i < sk.length) := by omega
    have hdrop : (sk.take (min extraCycles.toNat sk.length)).drop i = [] := by
      apply List.drop_eq_nil_of_le
      rw [List.length_take]; omega
    rw [hdrop, List.append_nil]
    refine ⟨g, ?_, hg, hf⟩
    unfold cycleLoop
    rw [if_neg hcond]
  | succ fuel ih =>
    intro i g log hfuel hg hf
    by_cases hcond : (i : Int) < extraCycles ∧ i < sk.length
    · have hi : i < sk.length := hcond.2
      have hiT : i < (sk.take (min extraCycles.toNat sk.length)).length := by
        rw [List.length_take]; omega
      have hget : sk[i]? = some sk[i] := List.getElem?_eq_getElem hi
      have hw : IsGridWall W H sk[i] := hsk _ (List.getElem_mem hi)
      obtain ⟨g1, hrun, hg1, hf1⟩ := ih (i + 1) (removeWallFromGrid g sk[i]) (log ++ [sk[i]])
        (by omega) (gridDims_removeWall hg _) (flagsMatch_removeWall hg hf hw)
      have hdrop : (sk.take (min extraCycles.toNat sk.length)).drop i =
          sk[i] :: (sk.take (min extraCycles.toNat sk.length)).drop (i + 1) := by
        rw [List.drop_eq_getElem_cons hiT, List.getElem_take]
      rw [hdrop]
      rw [List.append_assoc, List.singleton_append] at hrun hf1
      refine ⟨g1, ?_, hg1, hf1⟩
      unfold cycleLoop
      rw [if_pos hcond]
      simp only [hget]
      exact hrun
    · have hdrop : (sk.take (min extraCycles.toNat sk.length)).drop i = [] := by
        apply List.drop_eq_nil_of_le
        rw [List.length_take]; omega
      rw [hdrop, List.append_nil]
      refine ⟨g, ?_, hg, hf⟩
      unfold cycleLoop
      rw [if_neg hcond]

/-- The master specification of `generateMaze`: it always returns; the
spanning-tree phase satisfies its invariant on the whole shuffled wall list;
the final log is the tree log followed by the first
`min(max(extraCycles,0), size)` shuffled skipped walls; and the final grid
shows exactly the logged walls open. -/
theorem generateMaze_spec {shuffle1 shuffle2 : List Wall → List Wall}
    (hperm1 : ∀ l, (shuffle1 l).Perm l) (hperm2 : ∀ l, (shuffle2 l).Perm l)
    {m : Maze} (hm : m.WF) (extraCycles : Int) :
    ∃ st m1, generateTree shuffle1 m = some st ∧
      TreeInv m.width m.height (shuffle1 (allWalls m.width m.height)) st ∧
      m.generateMaze shuffle1 shuffle2 extraCycles = some m1 ∧
      m1.width = m.width ∧ m1.height = m.height ∧
      GridDims m.width m.height m1.grid ∧
      FlagsMatch m.width m.height m1.grid m1.wallRemovalOrder ∧
      m1.wallRemovalOrder = st.wallRemovalOrder ++
        (shuffle2 st.skippedWalls).take
          (min extraCycles.toNat (shuffle2 st.skippedWalls).length) ∧
      (∀ w, w ∈ m1.wallRemovalOrder → IsGridWall m.width m.height w) := by
  obtain ⟨st, htree, hinv⟩ := generateTree_inv hperm1 hm
  have hsk : ∀ w, w ∈ shuffle2 st.skippedWalls → IsGridWall m.width m.height w := by
    intro w hw
    exact hinv.walls w (hinv.split.subset (List.mem_append_right _ ((hperm2 _).subset hw)))
  obtain ⟨g1, hrun, hg1, hf1⟩ := cycleLoop_spec extraCycles (shuffle2 st.skippedWalls) hsk
    (shuffle2 st.skippedWalls).length 0 st.grid st.wallRemovalOrder (by omega) hinv.dims
    hinv.flags
  rw [List.drop_zero] at hrun hf1
  refine ⟨st, ⟨m.width, m.height, g1, _⟩, htree, hinv, ?_, rfl, rfl, hg1, hf1, rfl, ?_⟩
  · unfold Maze.generateMaze
    rw [htree]
    simp only [hrun]
  · intro w hw
    rcases List.mem_append.1 hw with h | h
    · exact hinv.walls w (hinv.split.subset (List.mem_append_left _ h))
    · exact hsk w (List.mem_of_mem_take h)

theorem hasWall_of_inBounds (m : Maze) {x y : Int} (h : InGrid m.width m.height (x, y)) :
    m.hasWall x y 0 = (cellAt m.grid x y).top ∧
    m.hasWall x y 1 = (cellAt m.grid x y).right ∧
    m.hasWall x y 2 = (cellAt m.grid x y).bottom ∧
    m.hasWall x y 3 = (cellAt m.grid x y).left := by
  obtain ⟨h1, h2, h3, h4⟩ := h
  simp only at h1 h2 h3 h4
  have hc : ¬ (x < 0 ∨ x ≥ m.width ∨ y < 0 ∨ y ≥ m.height) := by omega
  unfold Maze.hasWall
  simp only [if_neg hc]
  refine ⟨?_, ?_, ?_, ?_⟩ <;> simp

theorem getCell_of_inBounds (m : Maze) {x y : Int} (h : InGrid m.width m.height (x, y)) :
    m.getCell x y = cellAt m.grid x y := by
  obtain ⟨h1, h2, h3, h4⟩ := h
  simp only at h1 h2 h3 h4
  unfold Maze.getCell
  rw [if_pos (by omega)]

/-- In a maze whose grid shows exactly the logged walls open, the legal moves
are exactly the edges of the wall graph of the log. -/
theorem move_iff_adj {m : Maze} (hf : FlagsMatch m.width m.height m.grid m.wallRemovalOrder)
    (hlog : ∀ w, w ∈ m.wallRemovalOrder → IsGridWall m.width m.height w) (a b : Int × Int) :
    m.Move a b ↔ (wallGraph m.wallRemovalOrder).Adj a b := by
  obtain ⟨ax, ay⟩ := a
  obtain ⟨bx, by1⟩ := b
  rw [wallGraph_adj]
  constructor
  · rintro ⟨ha, hb, hcase⟩
    obtain ⟨t0, t1, t2, t3⟩ := hasWall_of_inBounds m ha
    obtain ⟨f1, f2, f3, f4⟩ := hf ax ay ha.1 ha.2.1 ha.2.2.1 ha.2.2.2
    simp only [Prod.mk.injEq] at hcase
    rcases hcase with ⟨⟨e1, e2⟩, hwall⟩ | ⟨⟨e1, e2⟩, hwall⟩ | ⟨⟨e1, e2⟩, hwall⟩ | ⟨⟨e1, e2⟩, hwall⟩
    · subst e1; subst e2
      rw [t0] at hwall
      refine ⟨⟨_, f2.1 hwall, Or.inr ⟨rfl, rfl⟩⟩, ?_⟩
      simp only [ne_eq, Prod.mk.injEq]; omega
    · subst e1; subst e2
      rw [t1] at hwall
      refine ⟨⟨_, f3.1 hwall, Or.inl ⟨rfl, rfl⟩⟩, ?_⟩
      simp only [ne_eq, Prod.mk.injEq]; omega
    · subst e1; subst e2
      rw [t2] at hwall
      refine ⟨⟨_, f1.1 hwall, Or.inl ⟨rfl, rfl⟩⟩, ?_⟩
      simp only [ne_eq, Prod.mk.injEq]; omega
    · subst e1; subst e2
      rw [t3] at hwall
      refine ⟨⟨_, f4.1 hwall, Or.inr ⟨rfl, rfl⟩⟩, ?_⟩
      simp only [ne_eq, Prod.mk.injEq]; omega
  · rintro ⟨⟨w, hw, hcase⟩, _⟩
    have hgw := hlog w hw
    have hin1 := hgw.fst_in
    have hin2 := hgw.snd_in
    obtain ⟨x1, y1, x2, y2⟩ := w
    simp only [Wall.fst, Wall.snd, Prod.mk.injEq] at hcase hin1 hin2
    rcases hgw with ⟨e1, e2, _⟩ | ⟨e1, e2, _⟩
    · simp only at e1 e2
      subst x2; subst y2
      rcases hcase with ⟨⟨c1, c2⟩, ⟨c3, c4⟩⟩ | ⟨⟨c1, c2⟩, ⟨c3, c4⟩⟩
      · subst ax; subst ay; subst bx; subst by1
        obtain ⟨t0, t1, t2, t3⟩ := hasWall_of_inBounds m hin1
        obtain ⟨f1, f2, f3, f4⟩ := hf x1 y1 hin1.1 hin1.2.1 hin1.2.2.1 hin1.2.2.2
        refine ⟨hin1, hin2, Or.inr (Or.inr (Or.inl ⟨rfl, ?_⟩))⟩
        rw [t2]; exact f1.2 hw
      · subst ax; subst ay; subst bx; subst by1
        obtain ⟨t0, t1, t2, t3⟩ := hasWall_of_inBounds m hin2
        obtain ⟨f1, f2, f3, f4⟩ := hf x1 (y1 + 1) hin2.1 hin2.2.1 hin2.2.2.1 hin2.2.2.2
        refine ⟨hin2, hin1, Or.inl ⟨by simp, ?_⟩⟩
        rw [t0]; apply f2.2
        rw [Int.add_sub_cancel]; exact hw
    · simp only at e1 e2
      subst x2; subst y2
      rcases hcase with ⟨⟨c1, c2⟩, ⟨c3, c4⟩⟩ | ⟨⟨c1, c2⟩, ⟨c3, c4⟩⟩
      · subst ax; subst ay; subst bx; subst by1
        obtain ⟨t0, t1, t2, t3⟩ := hasWall_of_inBounds m hin1
        obtain ⟨f1, f2, f3, f4⟩ := hf x1 y1 hin1.1 hin1.2.1 hin1.2.2.1 hin1.2.2.2
        refine ⟨hin1, hin2, Or.inr (Or.inl ⟨rfl, ?_⟩)⟩
        rw [t1]; exact f3.2 hw
      · subst ax; subst ay; subst bx; subst by1
        obtain ⟨t0, t1, t2, t3⟩ := hasWall_of_inBounds m hin2
        obtain ⟨f1, f2, f3, f4⟩ := hf (x1 + 1) y1 hin2.1 hin2.2.1 hin2.2.2.1 hin2.2.2.2
        refine ⟨hin2, hin1, Or.inr (Or.inr (Or.inr ⟨by simp, ?_⟩))⟩
        rw [t3]; apply f4.2
        rw [Int.add_sub_cancel]; exact hw

/-- A grid that shows exactly the logged walls open has symmetric walls. -/
theorem symmetric_of_flagsMatch {m : Maze}
    (hf : FlagsMatch m.width m.height m.grid m.wallRemovalOrder) : m.Symmetric := by
  intro x y
  constructor
  · intro hx hxW hy hyH
    rw [getCell_of_inBounds m ⟨hx, by show x < m.width; omega, hy, hyH⟩,
      getCell_of_inBounds m ⟨by show 0 ≤ x + 1; omega, hxW, hy, hyH⟩]
    obtain ⟨_, _, f3, _⟩ := hf x y hx (by omega) hy hyH
    obtain ⟨_, _, _, g4⟩ := hf (x + 1) y (by omega) hxW hy hyH
    rw [Int.add_sub_cancel] at g4
    have key : (cellAt m.grid x y).right = false ↔ (cellAt m.grid (x + 1) y).left = false :=
      f3.trans g4.symm
    cases h1 : (cellAt m.grid x y).right <;> cases h2 : (cellAt m.grid (x + 1) y).left <;>
      simp [h1, h2] at key ⊢
  · intro hx hxW hy hyH
    rw [getCell_of_inBounds m ⟨hx, hxW, hy, by show y < m.height; omega⟩,
      getCell_of_inBounds m ⟨hx, hxW, by show 0 ≤ y + 1; omega, hyH⟩]
    obtain ⟨f1, _, _, _⟩ := hf x y hx hxW hy (by omega)
    obtain ⟨_, g2, _, _⟩ := hf x (y + 1) hx hxW (by omega) hyH
    rw [Int.add_sub_cancel] at g2
    have key : (cellAt m.grid x y).bottom = false ↔ (cellAt m.grid x (y + 1)).top = false :=
      f1.trans g2.symm
    cases h1 : (cellAt m.grid x y).bottom <;> cases h2 : (cellAt m.grid x (y + 1)).top <;>
      simp [h1, h2] at key ⊢

theorem cellAt_replicate (w h : Nat) (x y : Int) :
    cellAt (List.replicate h (List.replicate w Cell.default)) x y = Cell.default := by
  unfold cellAt
  have hrow : (List.replicate h (List.replicate w Cell.default)).getD y.toNat [] =
      List.replicate w Cell.default ∨
      (List.replicate h (List.replicate w Cell.default)).getD y.toNat [] = [] := by
    rw [List.getD_eq_getElem?_getD]
    by_cases hy : y.toNat < h
    · left; simp [hy]
    · right
      have : (List.replicate h (List.replicate w Cell.default))[y.toNat]? = none := by
        simp; omega
      simp [this]
  rcases hrow with h1 | h1
  · rw [h1, List.getD_eq_getElem?_getD]
    by_cases hx : x.toNat < w
    · simp [hx]
    · have : (List.replicate w Cell.default)[x.toNat]? = none := by simp; omega
      simp [this]
  · rw [h1]; rfl

/-- A walk of a graph, read as the list of its vertices. -/
theorem exists_list_of_reachable {G : SimpleGraph (Int × Int)} {a b : Int × Int}
    (h : G.Reachable a b) :
    ∃ p : List (Int × Int), p.head? = some a ∧ p.getLast? = some b ∧ p.Chain' G.Adj ∧
      p.Nodup := by
  classical
  refine h.elim_path ?_
  intro q
  refine ⟨q.1.support, ?_, ?_, q.1.chain'_adj_support, q.2.support_nodup⟩
  · rw [q.1.support_eq_cons]; rfl
  · rw [List.getLast?_eq_getLast _ (q.1.support_ne_nil), q.1.getLast_support]


/-! ## The searches: tables, neighbours, loop invariants -/

theorem tableDims_writeAt {α : Type} {W H : Int} {v : List (List α)} (hv : TableDims W H v)
    (x y : Int) (a : α) : TableDims W H (writeAt v x y a) := by
  unfold writeAt
  refine ⟨by rw [List.length_set]; exact hv.1, ?_⟩
  intro row hrow
  by_cases hy : y.toNat < v.length
  · rcases List.mem_or_eq_of_mem_set hrow with h | h
    · exact hv.2 row h
    · rw [h, List.length_set]
      exact hv.2 _ (getD_mem v _ _ hy)
  · rw [List.set_eq_of_length_le (by omega)] at hrow
    exact hv.2 row hrow

theorem readAt_writeAt {α : Type} {W H : Int} {v : List (List α)} (hv : TableDims W H v)
    {x y : Int} (hx0 : 0 ≤ x) (hxW : x < W) (hy0 : 0 ≤ y) (hyH : y < H) (a d : α)
    {x1 y1 : Int} (hx1 : 0 ≤ x1) (hy1 : 0 ≤ y1) :
    readAt (writeAt v x y a) x1 y1 d = if x1 = x ∧ y1 = y then a else readAt v x1 y1 d := by
  have hyl : y.toNat < v.length := by rw [hv.1]; omega
  have hrow : (v.getD y.toNat []).length = W.toNat := hv.2 _ (getD_mem v _ _ hyl)
  unfold writeAt
  rw [readAt, getD_set_gen]
  by_cases hyy : y1 = y
  · subst hyy
    rw [if_pos ⟨rfl, hyl⟩, getD_set_gen]
    by_cases hxx : x1 = x
    · subst hxx
      rw [if_pos ⟨rfl, by rw [hrow]; omega⟩, if_pos ⟨rfl, rfl⟩]
    · rw [if_neg (by omega), if_neg (by tauto)]
      rfl
  · rw [if_neg (by omega), if_neg (by tauto)]
    rfl

theorem tableDims_replicate {α : Type} {W H : Int} (a : α) :
    TableDims W H (List.replicate H.toNat (List.replicate W.toNat a)) := by
  refine ⟨by simp, ?_⟩
  intro row hrow
  rw [(List.mem_replicate.1 hrow).2]
  simp

theorem readAt_replicate {α : Type} (w h : Nat) (a : α) (x y : Int) :
    readAt (List.replicate h (List.replicate w a)) x y a = a := by
  unfold readAt
  have hrow : (List.replicate h (List.replicate w a)).getD y.toNat [] = List.replicate w a ∨
      (List.replicate h (List.replicate w a)).getD y.toNat [] = [] := by
    rw [List.getD_eq_getElem?_getD]
    by_cases hy : y.toNat < h
    · left; simp [hy]
    · right
      have : (List.replicate h (List.replicate w a))[y.toNat]? = none := by simp; omega
      simp [this]
  rcases hrow with h1 | h1
  · rw [h1, List.getD_eq_getElem?_getD]
    by_cases hx : x.toNat < w
    · simp [hx]
    · have : (List.replicate w a)[x.toNat]? = none := by simp; omega
      simp [this]
  · rw [h1]; rfl

theorem isValid_iff (pf : PathFinder) (x y : Int) :
    pf.isValid x y = true ↔ pf.maze.InBounds (x, y) := by
  unfold PathFinder.isValid Maze.InBounds InGrid
  simp only [Bool.and_eq_true, decide_eq_true_eq, ge_iff_le]
  tauto

/-- Membership in `getNeighbors`: the four candidates, each under its wall
test and bounds test. -/
theorem mem_getNeighbors (pf : PathFinder) (x y : Int) (b : Int × Int) :
    b ∈ pf.getNeighbors x y ↔
      (b = (x, y - 1) ∧ pf.maze.hasWall x y 0 = false ∧ pf.maze.InBounds (x, y - 1)) ∨
      (b = (x + 1, y) ∧ pf.maze.hasWall x y 1 = false ∧ pf.maze.InBounds (x + 1, y)) ∨
      (b = (x, y + 1) ∧ pf.maze.hasWall x y 2 = false ∧ pf.maze.InBounds (x, y + 1)) ∨
      (b = (x - 1, y) ∧ pf.maze.hasWall x y 3 = false ∧ pf.maze.InBounds (x - 1, y)) := by
  unfold PathFinder.getNeighbors
  simp only [List.mem_append, Bool.and_eq_true, Bool.not_eq_true', ← isValid_iff]
  constructor
  · rintro (((h | h) | h) | h)
    · split_ifs at h with hc
      · simp only [List.mem_singleton] at h; exact Or.inl ⟨h, hc.1, hc.2⟩
      · simp at h
    · split_ifs at h with hc
      · simp only [List.mem_singleton] at h; exact Or.inr (Or.inl ⟨h, hc.1, hc.2⟩)
      · simp at h
    · split_ifs at h with hc
      · simp only [List.mem_singleton] at h; exact Or.inr (Or.inr (Or.inl ⟨h, hc.1, hc.2⟩))
      · simp at h
    · split_ifs at h with hc
      · simp only [List.mem_singleton] at h; exact Or.inr (Or.inr (Or.inr ⟨h, hc.1, hc.2⟩))
      · simp at h
  · rintro (⟨h, hc⟩ | ⟨h, hc⟩ | ⟨h, hc⟩ | ⟨h, hc⟩)
    · left; left; left; rw [if_pos hc]; exact List.mem_singleton.2 h
    · left; left; right; rw [if_pos hc]; exact List.mem_singleton.2 h
    · left; right; rw [if_pos hc]; exact List.mem_singleton.2 h
    · right; rw [if_pos hc]; exact List.mem_singleton.2 h

theorem nbr_inBounds {pf : PathFinder} {a b : Int × Int} (h : pf.Nbr a b) :
    pf.maze.InBounds b := by
  unfold PathFinder.Nbr at h
  rw [mem_getNeighbors] at h
  rcases h with ⟨e, _, hb⟩ | ⟨e, _, hb⟩ | ⟨e, _, hb⟩ | ⟨e, _, hb⟩ <;> (rw [e]; exact hb)

theorem getNeighbors_nodup (pf : PathFinder) (x y : Int) : (pf.getNeighbors x y).Nodup := by
  have hsub : (pf.getNeighbors x y).Sublist [(x, y - 1), (x + 1, y), (x, y + 1), (x - 1, y)] := by
    unfold PathFinder.getNeighbors
    have h1 : ∀ (c : Bool) (a : Int × Int), (if c then [a] else []).Sublist [a] := by
      intro c a; cases c <;> simp
    have := ((((h1 (!pf.maze.hasWall x y 0 && pf.isValid x (y - 1)) (x, y - 1)).append
      (h1 (!pf.maze.hasWall x y 1 && pf.isValid (x + 1) y) (x + 1, y))).append
      (h1 (!pf.maze.hasWall x y 2 && pf.isValid x (y + 1)) (x, y + 1))).append
      (h1 (!pf.maze.hasWall x y 3 && pf.isValid (x - 1) y) (x - 1, y)))
    simpa using this
  refine hsub.nodup ?_
  simp only [List.nodup_cons, List.mem_cons, List.mem_singleton, Prod.mk.injEq,
    List.not_mem_nil, not_false_eq_true, List.nodup_nil, and_true, not_or]
  omega

theorem mem_freshCells {explored l : List (Int × Int)} {c : Int × Int} :
    c ∈ freshCells explored l ↔ c ∈ l ∧ c ∉ explored := by
  unfold freshCells
  simp [List.mem_filter]

theorem freshCells_cons_of_mem {explored l : List (Int × Int)} {n : Int × Int}
    (h : n ∈ explored) : freshCells explored (n :: l) = freshCells explored l := by
  unfold freshCells
  rw [List.filter_cons_of_neg]
  simpa using h

theorem freshCells_cons_of_not_mem {explored l : List (Int × Int)} {n : Int × Int}
    (h : n ∉ explored) (hn : n ∉ l) :
    freshCells explored (n :: l) = n :: freshCells (explored ++ [n]) l := by
  unfold freshCells
  rw [List.filter_cons_of_pos (by simpa using h)]
  congr 1
  apply List.filter_congr
  intro c hc
  have hcn : c ≠ n := fun e => hn (e ▸ hc)
  simp [hcn]

/-- The effect of the whole neighbour loop on the search state: the fresh
neighbours are marked, get `u` as parent, and are appended to `explored` and
pushed on the frontier, in order. -/
theorem visit_fold (pf : PathFinder) (lifo : Bool) (u : Int × Int) :
    ∀ (l : List (Int × Int)) (st : SearchState),
      TableDims pf.maze.width pf.maze.height st.visited →
      TableDims pf.maze.width pf.maze.height st.parent →
      (∀ n, n ∈ l → pf.maze.InBounds n) → l.Nodup →
      (∀ c, pf.maze.InBounds c →
        (readAt st.visited c.1 c.2 false = true ↔ c ∈ st.result.explored)) →
      TableDims pf.maze.width pf.maze.height (l.foldl (visitNeighbor lifo u.1 u.2) st).visited ∧
      TableDims pf.maze.width pf.maze.height (l.foldl (visitNeighbor lifo u.1 u.2) st).parent ∧
      (l.foldl (visitNeighbor lifo u.1 u.2) st).result.explored =
        st.result.explored ++ freshCells st.result.explored l ∧
      (l.foldl (visitNeighbor lifo u.1 u.2) st).frontier =
        (if lifo then (freshCells st.result.explored l).reverse ++ st.frontier
         else st.frontier ++ freshCells st.result.explored l) ∧
      (∀ c, pf.maze.InBounds c →
        (readAt (l.foldl (visitNeighbor lifo u.1 u.2) st).visited c.1 c.2 false = true ↔
          c ∈ (l.foldl (visitNeighbor lifo u.1 u.2) st).result.explored)) ∧
      (∀ c, pf.maze.InBounds c →
        readAt (l.foldl (visitNeighbor lifo u.1 u.2) st).parent c.1 c.2 (-1, -1) =
          if c ∈ freshCells st.result.explored l then u
          else readAt st.parent c.1 c.2 (-1, -1)) ∧
      (l.foldl (visitNeighbor lifo u.1 u.2) st).result.path = st.result.path ∧
      (l.foldl (visitNeighbor lifo u.1 u.2) st).result.stepsCount = st.result.stepsCount ∧
      (l.foldl (visitNeighbor lifo u.1 u.2) st).result.found = st.result.found := by
  intro l
  induction l with
  | nil =>
    intro st hv hp _ _ hvis
    refine ⟨hv, hp, by simp [freshCells], ?_, hvis, ?_, rfl, rfl, rfl⟩
    · cases lifo <;> simp [freshCells]
    · intro c _; simp [freshCells]
  | cons n rest ih =>
    intro st hv hp hin hnd hvis
    have hn : pf.maze.InBounds n := hin n (List.mem_cons_self _ _)
    have hrest : ∀ c, c ∈ rest → pf.maze.InBounds c := fun c hc => hin c (List.mem_cons_of_mem _ hc)
    rw [List.nodup_cons] at hnd
    rw [List.foldl_cons]
    by_cases hmem : n ∈ st.result.explored
    · have hstep : visitNeighbor lifo u.1 u.2 st n = st := by
        unfold visitNeighbor
        rw [(hvis n hn).2 hmem]
        rfl
      rw [hstep, freshCells_cons_of_mem hmem]
      exact ih st hv hp hrest hnd.2 hvis
    · have hread : readAt st.visited n.1 n.2 false = false := by
        cases h : readAt st.visited n.1 n.2 false
        · rfl
        · exact absurd ((hvis n hn).1 h) hmem
      have hstep : visitNeighbor lifo u.1 u.2 st n =
          { visited := writeAt st.visited n.1 n.2 true
            parent := writeAt st.parent n.1 n.2 (u.1, u.2)
            frontier := pushFrontier lifo st.frontier n
            result := { st.result with explored := st.result.explored ++ [n] } } := by
        unfold visitNeighbor
        rw [hread]
        rfl
      obtain ⟨n1, n2, n3, n4⟩ := hn
      have hvis1 : ∀ c, pf.maze.InBounds c →
          (readAt (writeAt st.visited n.1 n.2 true) c.1 c.2 false = true ↔
            c ∈ st.result.explored ++ [n]) := by
        intro c hc
        rw [readAt_writeAt hv n1 n2 n3 n4 _ _ hc.1 hc.2.2.1, List.mem_append, List.mem_singleton]
        by_cases hcn : c.1 = n.1 ∧ c.2 = n.2
        · rw [if_pos hcn]
          have : c = n := Prod.ext hcn.1 hcn.2
          simp [this]
        · rw [if_neg hcn]
          have : c ≠ n := fun e => hcn ⟨by rw [e], by rw [e]⟩
          rw [hvis c hc]
          simp [this]
      obtain ⟨r1, r2, r3, r4, r5, r6, r7, r8, r9⟩ :=
        ih ⟨writeAt st.visited n.1 n.2 true, writeAt st.parent n.1 n.2 (u.1, u.2),
            pushFrontier lifo st.frontier n,
            { st.result with explored := st.result.explored ++ [n] }⟩
          (tableDims_writeAt hv _ _ _) (tableDims_writeAt hp _ _ _) hrest hnd.2 hvis1
      rw [hstep, freshCells_cons_of_not_mem hmem hnd.1]
      refine ⟨r1, r2, ?_, ?_, r5, ?_, r7, r8, r9⟩
      · rw [r3]; simp
      · rw [r4]
        cases lifo <;> simp [pushFrontier]
      · intro c hc
        rw [r6 c hc]
        show (if c ∈ freshCells (st.result.explored ++ [n]) rest then u
          else readAt (writeAt st.parent n.1 n.2 (u.1, u.2)) c.1 c.2 (-1, -1)) = _
        rw [readAt_writeAt hp n1 n2 n3 n4 _ _ hc.1 hc.2.2.1]
        by_cases hcf : c ∈ freshCells (st.result.explored ++ [n]) rest
        · rw [if_pos hcf, if_pos (List.mem_cons_of_mem _ hcf)]
        · rw [if_neg hcf]
          by_cases hcn : c.1 = n.1 ∧ c.2 = n.2
          · have : c = n := Prod.ext hcn.1 hcn.2
            rw [if_pos hcn, if_pos (by rw [this]; exact List.mem_cons_self _ _)]
          · have : c ≠ n := fun e => hcn ⟨by rw [e], by rw [e]⟩
            rw [if_neg hcn, if_neg]
            intro hmem2
            rcases List.mem_cons.1 hmem2 with h | h
            · exact this h
            · exact hcf h

/-- One non-final iteration of the main loop keeps the shared invariant. -/
theorem search_step {pf : PathFinder} {lifo : Bool} {st : SearchState} {d : Int × Int → Nat}
    {u : Int × Int} {rest nbrs : List (Int × Int)} (hinv : SearchInv pf st d)
    (hfr : st.frontier = u :: rest) (hne : u ≠ pf.goal)
    (hnb : ∀ b, b ∈ nbrs ↔ pf.Nbr u b) (hnd : nbrs.Nodup) :
    SearchInv pf (expandState lifo st u rest nbrs)
      (nextDepth d (freshCells st.result.explored nbrs) (d u)) ∧
    (expandState lifo st u rest nbrs).result.explored =
      st.result.explored ++ freshCells st.result.explored nbrs ∧
    (expandState lifo st u rest nbrs).frontier =
      (if lifo then (freshCells st.result.explored nbrs).reverse ++ rest
       else rest ++ freshCells st.result.explored nbrs) ∧
    (expandState lifo st u rest nbrs).result.stepsCount = st.result.stepsCount + 1 := by
  have hin : ∀ n, n ∈ nbrs → pf.maze.InBounds n := fun n h => nbr_inBounds ((hnb n).1 h)
  obtain ⟨r1, r2, r3, r4, r5, r6, r7, r8, r9⟩ := visit_fold pf lifo u nbrs
    ⟨st.visited, st.parent, rest, { st.result with stepsCount := st.result.stepsCount + 1 }⟩
    hinv.dims_visited hinv.dims_parent hin hnd hinv.visited_iff
  simp only at r3 r4 r6 r7 r8 r9
  have e3 : (expandState lifo st u rest nbrs).result.explored =
      st.result.explored ++ freshCells st.result.explored nbrs := r3
  have e4 : (expandState lifo st u rest nbrs).frontier =
      (if lifo then (freshCells st.result.explored nbrs).reverse ++ rest
       else rest ++ freshCells st.result.explored nbrs) := r4
  have e6 : ∀ c, pf.maze.InBounds c →
      readAt (expandState lifo st u rest nbrs).parent c.1 c.2 (-1, -1) =
        if c ∈ freshCells st.result.explored nbrs then u
        else readAt st.parent c.1 c.2 (-1, -1) := r6
  have e7 : (expandState lifo st u rest nbrs).result.path = st.result.path := r7
  have e8 : (expandState lifo st u rest nbrs).result.stepsCount = st.result.stepsCount + 1 := r8
  have e9 : (expandState lifo st u rest nbrs).result.found = st.result.found := r9
  have hu : u ∈ st.result.explored := hinv.frontier_sub u (by rw [hfr]; exact List.mem_cons_self _ _)
  have hfresh : ∀ c, c ∈ freshCells st.result.explored nbrs ↔ pf.Nbr u c ∧ c ∉ st.result.explored := by
    intro c; rw [mem_freshCells, hnb]
  have hold : ∀ c, c ∈ st.result.explored →
      nextDepth d (freshCells st.result.explored nbrs) (d u) c = d c := by
    intro c hc
    unfold nextDepth
    rw [if_neg (fun h => ((hfresh c).1 h).2 hc)]
  have hnew : ∀ c, c ∈ freshCells st.result.explored nbrs →
      nextDepth d (freshCells st.result.explored nbrs) (d u) c = d u + 1 := by
    intro c hc
    unfold nextDepth
    rw [if_pos hc]
  have hmemfr : ∀ c, c ∈ (expandState lifo st u rest nbrs).frontier ↔
      c ∈ rest ∨ c ∈ freshCells st.result.explored nbrs := by
    intro c
    rw [e4]
    cases lifo <;> simp [or_comm]
  have hmemex : ∀ c, c ∈ (expandState lifo st u rest nbrs).result.explored ↔
      c ∈ st.result.explored ∨ c ∈ freshCells st.result.explored nbrs := by
    intro c
    rw [e3, List.mem_append]
  have hlenfr : (expandState lifo st u rest nbrs).frontier.length =
      rest.length + (freshCells st.result.explored nbrs).length := by
    rw [e4]
    cases lifo <;> simp [Nat.add_comm]
  have hfnd : (freshCells st.result.explored nbrs).Nodup := hnd.filter _
  refine ⟨⟨r1, r2, r5, ?_, ?_, ?_, ?_, ?_, ?_, ?_, ?_, ?_, ?_, ?_, ?_, ?_⟩, e3, e4, e8⟩
  · intro c hc
    rcases (hmemex c).1 hc with h | h
    · exact hinv.explored_in c h
    · exact nbr_inBounds ((hfresh c).1 h).1
  · rw [e3, List.nodup_append]
    refine ⟨hinv.explored_nodup, hfnd, ?_⟩
    intro c hc hc2
    exact ((hfresh c).1 hc2).2 hc
  · intro c hc
    rw [hmemex]
    rcases (hmemfr c).1 hc with h | h
    · exact Or.inl (hinv.frontier_sub c (by rw [hfr]; exact List.mem_cons_of_mem _ h))
    · exact Or.inr h
  · rw [hlenfr]
    rw [e8, e3, List.length_append]
    have := hinv.count
    rw [hfr, List.length_cons] at this
    omega
  · exact (hmemex _).2 (Or.inl hinv.start_mem)
  · rw [hold _ hinv.start_mem]; exact hinv.depth_start
  · rw [e6 _ (hinv.explored_in _ hinv.start_mem),
      if_neg (fun h => ((hfresh _).1 h).2 hinv.start_mem)]
    exact hinv.parent_start
  · intro c hc hcs
    have hcin : pf.maze.InBounds c := by
      rcases (hmemex c).1 hc with h | h
      · exact hinv.explored_in c h
      · exact nbr_inBounds ((hfresh c).1 h).1
    rw [e6 c hcin]
    by_cases hcf : c ∈ freshCells st.result.explored nbrs
    · rw [if_pos hcf]
      exact ⟨(hmemex u).2 (Or.inl hu), ((hfresh c).1 hcf).1, by rw [hnew c hcf, hold u hu]⟩
    · rw [if_neg hcf]
      have hce : c ∈ st.result.explored := by
        rcases (hmemex c).1 hc with h | h
        · exact h
        · exact absurd h hcf
      obtain ⟨p1, p2, p3⟩ := hinv.parent_spec c hce hcs
      exact ⟨(hmemex _).2 (Or.inl p1), p2, by rw [hold c hce, hold _ p1, p3]⟩
  · intro c hc
    rw [e3, List.length_append]
    rcases (hmemex c).1 hc with h | h
    · rw [hold c h]
      have := hinv.depth_lt c h
      omega
    · rw [hnew c h]
      have := hinv.depth_lt u hu
      have : 0 < (freshCells st.result.explored nbrs).length := List.length_pos_of_mem h
      omega
  · intro c hc hcf b hcb
    rw [hmemfr] at hcf
    rw [hmemex]
    have hce : c ∈ st.result.explored := by
      rcases (hmemex c).1 hc with h | h
      · exact h
      · exact absurd (Or.inr h) hcf
    by_cases hcu : c = u
    · subst hcu
      by_cases hb : b ∈ st.result.explored
      · exact Or.inl hb
      · exact Or.inr ((hfresh b).2 ⟨hcb, hb⟩)
    · left
      apply hinv.closed c hce _ b hcb
      rw [hfr]
      intro h
      rcases List.mem_cons.1 h with h1 | h1
      · exact hcu h1
      · exact hcf (Or.inl h1)
  · intro c hc hcf
    rw [hmemfr] at hcf
    have hce : c ∈ st.result.explored := by
      rcases (hmemex c).1 hc with h | h
      · exact h
      · exact absurd (Or.inr h) hcf
    by_cases hcu : c = u
    · rw [hcu]; exact hne
    · apply hinv.popped_ne_goal c hce
      rw [hfr]
      intro h
      rcases List.mem_cons.1 h with h1 | h1
      · exact hcu h1
      · exact hcf (Or.inl h1)
  · rw [e9]; exact hinv.not_found
  · rw [e7]; exact hinv.path_nil

/-- One non-final iteration of the main loop of `solveBFS` keeps the
breadth-first invariant. -/
theorem bfs_step {pf : PathFinder} {st : SearchState} {d : Int × Int → Nat}
    {u : Int × Int} {rest nbrs : List (Int × Int)} (hinv : SearchInv pf st d)
    (hb : BfsInv pf st d) (hfr : st.frontier = u :: rest) (hne : u ≠ pf.goal)
    (hnb : ∀ b, b ∈ nbrs ↔ pf.Nbr u b) (hnd : nbrs.Nodup) :
    BfsInv pf (expandState false st u rest nbrs)
      (nextDepth d (freshCells st.result.explored nbrs) (d u)) := by
  obtain ⟨_, e3, e4, _⟩ := @search_step pf false st d u rest nbrs hinv hfr hne hnb hnd
  simp only [Bool.false_eq_true, if_false] at e4
  have hu : u ∈ st.result.explored := hinv.frontier_sub u (by rw [hfr]; exact List.mem_cons_self _ _)
  have hfresh : ∀ c, c ∈ freshCells st.result.explored nbrs ↔ pf.Nbr u c ∧ c ∉ st.result.explored := by
    intro c; rw [mem_freshCells, hnb]
  have hold : ∀ c, c ∈ st.result.explored →
      nextDepth d (freshCells st.result.explored nbrs) (d u) c = d c := by
    intro c hc
    unfold nextDepth
    rw [if_neg (fun h => ((hfresh c).1 h).2 hc)]
  have hnew : ∀ c, c ∈ freshCells st.result.explored nbrs →
      nextDepth d (freshCells st.result.explored nbrs) (d u) c = d u + 1 := by
    intro c hc
    unfold nextDepth
    rw [if_pos hc]
  have hrest_ex : ∀ c, c ∈ rest → c ∈ st.result.explored := fun c hc =>
    hinv.frontier_sub c (by rw [hfr]; exact List.mem_cons_of_mem _ hc)
  have hrest_fr : ∀ c, c ∈ rest → c ∈ st.frontier := fun c hc => by
    rw [hfr]; exact List.mem_cons_of_mem _ hc
  have hu_fr : u ∈ st.frontier := by rw [hfr]; exact List.mem_cons_self _ _
  have hsorted := hb.sorted
  rw [hfr, List.pairwise_cons] at hsorted
  -- a popped cell of the new state is `u` or a popped cell of the old state
  have hpopped : ∀ c, c ∈ (expandState false st u rest nbrs).result.explored →
      c ∉ (expandState false st u rest nbrs).frontier →
      c ∈ st.result.explored ∧ (c = u ∨ c ∉ st.frontier) := by
    intro c hc hcf
    rw [e3, List.mem_append] at hc
    rw [e4, List.mem_append] at hcf
    have hce : c ∈ st.result.explored := by
      rcases hc with h | h
      · exact h
      · exact absurd (Or.inr h) hcf
    refine ⟨hce, ?_⟩
    by_cases hcu : c = u
    · exact Or.inl hcu
    · right
      rw [hfr]
      intro h
      rcases List.mem_cons.1 h with h1 | h1
      · exact hcu h1
      · exact hcf (Or.inl h1)
  refine ⟨?_, ?_, ?_, ?_⟩
  · rw [e4, List.pairwise_append]
    refine ⟨?_, ?_, ?_⟩
    · refine hsorted.2.imp_of_mem ?_
      intro a b ha hb1 hab
      rw [hold a (hrest_ex a ha), hold b (hrest_ex b hb1)]
      exact hab
    · apply List.pairwise_of_forall_mem_list
      intro a ha b hb1
      rw [hnew a ha, hnew b hb1]
    · intro a ha b hb1
      rw [hold a (hrest_ex a ha), hnew b hb1]
      have := hb.span u a hu_fr (hrest_fr a ha)
      omega
  · intro a b ha hb1
    rw [e4, List.mem_append] at ha hb1
    rcases ha with ha | ha <;> rcases hb1 with hb1 | hb1
    · rw [hold a (hrest_ex a ha), hold b (hrest_ex b hb1)]
      exact hb.span a b (hrest_fr a ha) (hrest_fr b hb1)
    · rw [hold a (hrest_ex a ha), hnew b hb1]
      have := hsorted.1 a ha
      omega
    · rw [hnew a ha, hold b (hrest_ex b hb1)]
      have := hb.span u b hu_fr (hrest_fr b hb1)
      omega
    · rw [hnew a ha, hnew b hb1]; omega
  · intro c hc hcf f hf
    obtain ⟨hce, hcase⟩ := hpopped c hc hcf
    rw [e4, List.mem_append] at hf
    rw [hold c hce]
    rcases hcase with hcu | hcp
    · subst hcu
      rcases hf with hf | hf
      · rw [hold f (hrest_ex f hf)]; exact hsorted.1 f hf
      · rw [hnew f hf]; omega
    · rcases hf with hf | hf
      · rw [hold f (hrest_ex f hf)]; exact hb.popped_le c hce hcp f (hrest_fr f hf)
      · rw [hnew f hf]
        have := hb.popped_le c hce hcp u hu_fr
        omega
  · intro c hc hcf b hcb
    obtain ⟨hce, hcase⟩ := hpopped c hc hcf
    rw [hold c hce]
    rcases hcase with hcu | hcp
    · subst hcu
      by_cases hbe : b ∈ st.result.explored
      · rw [hold b hbe]
        by_cases hbf : b ∈ st.frontier
        · exact hb.span c b hu_fr hbf
        · have := hb.popped_le b hbe hbf c hu_fr
          omega
      · rw [hnew b ((hfresh b).2 ⟨hcb, hbe⟩)]
    · have hbe : b ∈ st.result.explored := hinv.closed c hce hcp b hcb
      rw [hold b hbe]
      exact hb.nbr_le c hce hcp b hcb

theorem explored_length_le {pf : PathFinder} {st : SearchState} {d : Int × Int → Nat}
    (hinv : SearchInv pf st d) :
    st.result.explored.length ≤ (pf.maze.width * pf.maze.height).toNat := by
  have hnd : (st.result.explored.map (cellIndex pf.maze.width)).Nodup := by
    apply List.Nodup.map_on _ hinv.explored_nodup
    intro a ha b hb hab
    exact cellIndex_inj (hinv.explored_in a ha) (hinv.explored_in b hb) hab
  have hsub : (st.result.explored.map (cellIndex pf.maze.width)).toFinset ⊆
      Finset.range (pf.maze.width * pf.maze.height).toNat := by
    intro i hi
    rw [List.mem_toFinset, List.mem_map] at hi
    obtain ⟨c, hc, rfl⟩ := hi
    exact Finset.mem_range.2 (cellIndex_lt (hinv.explored_in c hc))
  have h1 := Finset.card_le_card hsub
  rw [List.toFinset_card_of_nodup hnd, List.length_map, Finset.card_range] at h1
  exact h1

/-- The state before the main loop satisfies both invariants. -/
theorem initialState_inv_of_start {pf : PathFinder} (hs : pf.maze.InBounds pf.start) :
    SearchInv pf (initialState pf) (fun _ => 0) ∧ BfsInv pf (initialState pf) (fun _ => 0) := by
  have hs1 := hs
  obtain ⟨s1, s2, s3, s4⟩ := hs1
  have hex : (initialState pf).result.explored = [pf.start] := rfl
  have hfr : (initialState pf).frontier = [pf.start] := rfl
  refine ⟨⟨tableDims_writeAt (tableDims_replicate false) _ _ _, tableDims_replicate _, ?_, ?_, ?_,
    ?_, ?_, ?_, rfl, ?_, ?_, ?_, ?_, ?_, rfl, rfl⟩, ⟨?_, ?_, ?_, ?_⟩⟩
  · intro c hc
    show readAt (writeAt _ pf.start.1 pf.start.2 true) c.1 c.2 false = true ↔ c ∈ [pf.start]
    rw [readAt_writeAt (tableDims_replicate false) s1 s2 s3 s4 _ _ hc.1 hc.2.2.1,
      List.mem_singleton]
    by_cases hcs : c.1 = pf.start.1 ∧ c.2 = pf.start.2
    · rw [if_pos hcs]
      have : c = pf.start := Prod.ext hcs.1 hcs.2
      simp [this]
    · rw [if_neg hcs, readAt_replicate]
      have : c ≠ pf.start := fun e => hcs ⟨by rw [e], by rw [e]⟩
      simp [this]
  · intro c hc
    rw [hex, List.mem_singleton] at hc
    rw [hc]; exact hs
  · rw [hex]; exact List.nodup_singleton _
  · intro c hc; rw [hex]; rw [hfr] at hc; exact hc
  · rfl
  · rw [hex]; exact List.mem_singleton.2 rfl
  · exact readAt_replicate _ _ _ _ _
  · intro c hc hcs
    rw [hex, List.mem_singleton] at hc
    exact absurd hc hcs
  · intro c _
    rw [hex]; simp
  · intro c hc hcf
    rw [hex] at hc; rw [hfr] at hcf
    exact absurd hc hcf
  · intro c hc hcf
    rw [hex] at hc; rw [hfr] at hcf
    exact absurd hc hcf
  · rw [hfr]; exact List.pairwise_singleton _ _
  · intro a b _ _; exact Nat.zero_le _
  · intro c _ _ f _; exact Nat.le_refl _
  · intro c _ _ b _; exact Nat.zero_le _

theorem initialState_inv {pf : PathFinder} (hwf : pf.WF) :
    SearchInv pf (initialState pf) (fun _ => 0) ∧ BfsInv pf (initialState pf) (fun _ => 0) :=
  initialState_inv_of_start hwf.2.1

/-- The reconstruction loop, started at an explored cell with enough fuel,
returns the reverse of a walk from the start to that cell whose number of
edges is the depth of the cell. -/
theorem reconstruct_spec {pf : PathFinder} {st : SearchState} {d : Int × Int → Nat}
    (hinv : SearchInv pf st d) :
    ∀ (n : Nat) (c : Int × Int), c ∈ st.result.explored → d c = n →
      ∀ (fuel : Nat) (acc : List (Int × Int)), n < fuel →
        ∃ r, pf.IsRoute pf.start c r ∧ r.length = n + 1 ∧
          reconstructPath st.parent fuel c acc = some (acc ++ r.reverse) := by
  intro n
  induction n with
  | zero =>
    intro c hc hd fuel acc hfuel
    have hcs : c = pf.start := by
      by_contra hne
      have := (hinv.parent_spec c hc hne).2.2
      omega
    subst hcs
    refine ⟨[pf.start], ⟨rfl, rfl, List.chain'_singleton _⟩, rfl, ?_⟩
    obtain ⟨fuel1, rfl⟩ : ∃ k, fuel = k + 1 := ⟨fuel - 1, by omega⟩
    have hin := hinv.explored_in _ hc
    have hcond : pf.start.1 ≠ -1 ∧ pf.start.2 ≠ -1 := by
      obtain ⟨h1, _, h3, _⟩ := hin
      constructor <;> omega
    have hunf : reconstructPath st.parent (fuel1 + 1) pf.start acc =
        reconstructPath st.parent fuel1 (readAt st.parent pf.start.1 pf.start.2 (-1, -1))
          (acc ++ [pf.start]) := by
      conv_lhs => unfold reconstructPath
      rw [if_pos hcond]
    rw [hunf, hinv.parent_start]
    unfold reconstructPath
    simp
  | succ n ih =>
    intro c hc hd fuel acc hfuel
    have hcs : c ≠ pf.start := by
      intro e
      rw [e, hinv.depth_start] at hd
      omega
    obtain ⟨p1, p2, p3⟩ := hinv.parent_spec c hc hcs
    obtain ⟨fuel1, rfl⟩ : ∃ k, fuel = k + 1 := ⟨fuel - 1, by omega⟩
    have hin := hinv.explored_in _ hc
    have hcond : c.1 ≠ -1 ∧ c.2 ≠ -1 := by
      obtain ⟨h1, _, h3, _⟩ := hin
      constructor <;> omega
    have hunf : reconstructPath st.parent (fuel1 + 1) c acc =
        reconstructPath st.parent fuel1 (readAt st.parent c.1 c.2 (-1, -1)) (acc ++ [c]) := by
      conv_lhs => unfold reconstructPath
      rw [if_pos hcond]
    obtain ⟨r, ⟨hr1, hr2, hr3⟩, hlen, hrec⟩ :=
      ih (readAt st.parent c.1 c.2 (-1, -1)) p1 (by omega) fuel1 (acc ++ [c]) (by omega)
    have hrne : r ≠ [] := by
      intro e; rw [e] at hlen; simp at hlen
    refine ⟨r ++ [c], ⟨?_, ?_, ?_⟩, by simp [hlen], ?_⟩
    · rw [List.head?_append_of_ne_nil _ hrne]; exact hr1
    · simp
    · apply List.Chain'.append hr3 (List.chain'_singleton _)
      intro x hx y hy
      rw [hr2] at hx
      simp only [Option.mem_def, Option.some.injEq, List.head?_cons] at hx hy
      rw [← hx, ← hy]
      exact p2
    · rw [hunf, hrec]
      simp

/-- The main loop, started in a state that satisfies the invariants with fuel
for the cells not yet popped, returns a result. -/
theorem searchLoop_spec (pf : PathFinder) (lifo : Bool) :
    ∀ (fuel : Nat) (st : SearchState) (d : Int × Int → Nat), SearchInv pf st d →
      (lifo = false → BfsInv pf st d) →
      (pf.maze.width * pf.maze.height).toNat ≤ fuel + st.result.stepsCount →
      ∃ r, searchLoop pf lifo fuel st = some r ∧ SearchOutcome pf lifo r := by
  intro fuel
  induction fuel with
  | zero =>
    intro st d hinv hb hfuel
    have hlen := explored_length_le hinv
    have hcount := hinv.count
    cases hfr : st.frontier with
    | nil =>
      refine ⟨st.result, ?_, st, d, hinv, hb, Or.inl ⟨hfr, rfl⟩⟩
      unfold searchLoop
      rw [hfr]
    | cons u rest =>
      rw [hfr, List.length_cons] at hcount
      omega
  | succ fuel ih =>
    intro st d hinv hb hfuel
    have hlen := explored_length_le hinv
    have hcount := hinv.count
    cases hfr : st.frontier with
    | nil =>
      refine ⟨st.result, ?_, st, d, hinv, hb, Or.inl ⟨hfr, rfl⟩⟩
      unfold searchLoop
      rw [hfr]
    | cons u rest =>
      obtain ⟨x, y⟩ := u
      have hu : (x, y) ∈ st.result.explored :=
        hinv.frontier_sub _ (by rw [hfr]; exact List.mem_cons_self _ _)
      by_cases hgoal : x = pf.endX ∧ y = pf.endY
      · have hug : (x, y) = pf.goal := Prod.ext hgoal.1 hgoal.2
        have hge : pf.goal ∈ st.result.explored := hug ▸ hu
        obtain ⟨path, hroute, hplen, hrec⟩ := reconstruct_spec hinv (d pf.goal) pf.goal hge rfl
          (pf.maze.width * pf.maze.height).toNat []
          (by have := hinv.depth_lt _ hge; omega)
        rw [List.nil_append] at hrec
        refine ⟨⟨path, st.result.explored, st.result.stepsCount + 1, true⟩, ?_, st, d, hinv, hb,
          Or.inr ⟨rest, path, by rw [hfr, hug], hroute, hplen, rfl⟩⟩
        unfold searchLoop
        rw [hfr]
        simp only [if_pos hgoal]
        have hrec1 : reconstructPath st.parent (pf.maze.width * pf.maze.height).toNat
            (pf.endX, pf.endY) [] = some path.reverse := hrec
        rw [hrec1]
        simp only [List.reverse_reverse]
      · have hne : (x, y) ≠ pf.goal := by
          intro e
          apply hgoal
          have h1 := congrArg Prod.fst e
          have h2 := congrArg Prod.snd e
          exact ⟨h1, h2⟩
        have hnb : ∀ b, b ∈ (if lifo then (pf.getNeighbors x y).reverse
            else pf.getNeighbors x y) ↔ pf.Nbr (x, y) b := by
          intro b
          cases lifo
          · exact Iff.rfl
          · simp only [if_true, List.mem_reverse]; exact Iff.rfl
        have hnd : (if lifo then (pf.getNeighbors x y).reverse
            else pf.getNeighbors x y).Nodup := by
          cases lifo
          · exact getNeighbors_nodup pf x y
          · simp only [if_true, List.nodup_reverse]; exact getNeighbors_nodup pf x y
        obtain ⟨hinv1, _, _, hsteps⟩ :=
          @search_step pf lifo st d (x, y) rest _ hinv hfr hne hnb hnd
        have hb1 : lifo = false → BfsInv pf (expandState lifo st (x, y) rest
            (if lifo then (pf.getNeighbors x y).reverse else pf.getNeighbors x y))
            (nextDepth d (freshCells st.result.explored
              (if lifo then (pf.getNeighbors x y).reverse else pf.getNeighbors x y))
              (d (x, y))) := by
          intro hl
          subst hl
          exact bfs_step hinv (hb rfl) hfr hne hnb hnd
        obtain ⟨r, hrun, hout⟩ := ih _ _ hinv1 hb1 (by rw [hsteps]; omega)
        refine ⟨r, ?_, hout⟩
        unfold searchLoop
        rw [hfr]
        simp only [if_neg hgoal]
        exact hrun

/-- Both searches return a result whenever the start is in bounds. -/
theorem solve_spec_of_start (pf : PathFinder) (hs : pf.maze.InBounds pf.start) :
    (∃ r, pf.solveBFS = some r ∧ SearchOutcome pf false r) ∧
    (∃ r, pf.solveDFS = some r ∧ SearchOutcome pf true r) := by
  obtain ⟨h1, h2⟩ := initialState_inv_of_start hs
  constructor
  · exact searchLoop_spec pf false _ _ _ h1 (fun _ => h2) (by omega)
  · exact searchLoop_spec pf true _ _ _ h1 (fun _ => h2) (by omega)

/-- Both searches return a result on every well-formed input. -/
theorem solve_spec (pf : PathFinder) (hwf : pf.WF) :
    (∃ r, pf.solveBFS = some r ∧ SearchOutcome pf false r) ∧
    (∃ r, pf.solveDFS = some r ∧ SearchOutcome pf true r) :=
  solve_spec_of_start pf hwf.2.1

theorem outcome_counts {pf : PathFinder} {lifo : Bool} {r : PathResult}
    (h : SearchOutcome pf lifo r) :
    r.stepsCount ≤ r.explored.length ∧
    r.explored.length ≤ (pf.maze.width * pf.maze.height).toNat ∧
    (r.found = false → r.stepsCount = r.explored.length) := by
  obtain ⟨st, d, hinv, _, hcase⟩ := h
  have hlen := explored_length_le hinv
  have hcount := hinv.count
  rcases hcase with ⟨hfr, rfl⟩ | ⟨rest, path, hfr, _, _, rfl⟩
  · rw [hfr] at hcount
    simp only [List.length_nil, Nat.add_zero] at hcount
    exact ⟨by omega, hlen, fun _ => hcount⟩
  · rw [hfr, List.length_cons] at hcount
    refine ⟨by show st.result.stepsCount + 1 ≤ st.result.explored.length; omega, hlen, ?_⟩
    intro hf
    simp at hf

theorem outcome_route {pf : PathFinder} {lifo : Bool} {r : PathResult}
    (h : SearchOutcome pf lifo r) (hf : r.found = true) : pf.IsRoute pf.start pf.goal r.path := by
  obtain ⟨st, d, hinv, _, hcase⟩ := h
  rcases hcase with ⟨_, rfl⟩ | ⟨rest, path, _, hroute, _, rfl⟩
  · rw [hinv.not_found] at hf
    exact absurd hf (by simp)
  · exact hroute

/-- A set of cells closed under the neighbour relation contains every cell
reachable from one of its members. -/
theorem route_closed {pf : PathFinder} {S : Int × Int → Prop}
    (hS : ∀ a b, S a → pf.Nbr a b → S b) :
    ∀ (p : List (Int × Int)) (a b : Int × Int), S a → pf.IsRoute a b p → S b := by
  intro p
  induction p with
  | nil =>
    intro a b _ h
    have := h.1
    simp at this
  | cons x rest ih =>
    intro a b ha h
    obtain ⟨h1, h2, h3⟩ := h
    simp only [List.head?_cons, Option.some.injEq] at h1
    subst h1
    cases rest with
    | nil =>
      simp only [List.getLast?_singleton, Option.some.injEq] at h2
      subst h2
      exact ha
    | cons y r =>
      rw [List.chain'_cons] at h3
      rw [List.getLast?_cons_cons] at h2
      exact ih y b (hS x y ha h3.1) ⟨rfl, h2, h3.2⟩

theorem explored_reachable {pf : PathFinder} {st : SearchState} {d : Int × Int → Nat}
    (hinv : SearchInv pf st d) {c : Int × Int} (hc : c ∈ st.result.explored) :
    pf.Reachable pf.start c := by
  obtain ⟨r, hr, _, _⟩ := reconstruct_spec hinv (d c) c hc rfl (d c + 1) [] (by omega)
  exact ⟨r, hr⟩

theorem outcome_not_found {pf : PathFinder} {lifo : Bool} {r : PathResult}
    (h : SearchOutcome pf lifo r) (hf : r.found = false) :
    r.path = [] ∧ (∀ c, c ∈ r.explored ↔ pf.Reachable pf.start c) ∧
    ¬ pf.Reachable pf.start pf.goal := by
  obtain ⟨st, d, hinv, _, hcase⟩ := h
  rcases hcase with ⟨hfr, rfl⟩ | ⟨rest, path, _, _, _, rfl⟩
  · have hclosed : ∀ c, pf.Reachable pf.start c → c ∈ st.result.explored := by
      rintro c ⟨p, hp⟩
      refine route_closed (S := fun z => z ∈ st.result.explored) ?_ p pf.start c hinv.start_mem hp
      intro a b ha hab
      exact hinv.closed a ha (by rw [hfr]; simp) b hab
    refine ⟨hinv.path_nil, fun c => ⟨explored_reachable hinv, hclosed c⟩, ?_⟩
    intro hreach
    exact hinv.popped_ne_goal pf.goal (hclosed _ hreach) (by rw [hfr]; simp) rfl
  · simp at hf

theorem outcome_found_iff {pf : PathFinder} {lifo : Bool} {r : PathResult}
    (h : SearchOutcome pf lifo r) : r.found = true ↔ pf.Reachable pf.start pf.goal := by
  constructor
  · intro hf
    exact ⟨r.path, outcome_route h hf⟩
  · intro hreach
    by_contra hf
    have hf2 : r.found = false := by
      cases hfd : r.found
      · rfl
      · exact absurd hfd hf
    exact (outcome_not_found h hf2).2.2 hreach

/-- Breadth-first distances: when `t` is at the front of the queue, a walk
from an explored cell `a` to `t` has at least `d t - d a` edges. -/
theorem bfs_dist {pf : PathFinder} {st : SearchState} {d : Int × Int → Nat}
    (hinv : SearchInv pf st d) (hb : BfsInv pf st d) {t : Int × Int} {rest : List (Int × Int)}
    (hfr : st.frontier = t :: rest) :
    ∀ (w : List (Int × Int)) (a : Int × Int), a ∈ st.result.explored → pf.IsRoute a t w →
      d t + 1 ≤ d a + w.length := by
  have hsorted := hb.sorted
  rw [hfr, List.pairwise_cons] at hsorted
  intro w
  induction w with
  | nil =>
    intro a _ h
    have := h.1
    simp at this
  | cons x r ih =>
    intro a ha h
    obtain ⟨h1, h2, h3⟩ := h
    simp only [List.head?_cons, Option.some.injEq] at h1
    subst h1
    cases r with
    | nil =>
      simp only [List.getLast?_singleton, Option.some.injEq] at h2
      subst h2
      simp
    | cons y r1 =>
      rw [List.chain'_cons] at h3
      rw [List.getLast?_cons_cons] at h2
      by_cases hle : d t ≤ d x
      · simp only [List.length_cons]; omega
      · have hxf : x ∉ st.frontier := by
          rw [hfr]
          intro hm
          rcases List.mem_cons.1 hm with e | hm1
          · rw [e] at hle; exact hle (Nat.le_refl _)
          · exact hle (hsorted.1 x hm1)
        have hy : y ∈ st.result.explored := hinv.closed x ha hxf y h3.1
        have hdy := hb.nbr_le x ha hxf y h3.1
        have := ih y hy ⟨rfl, h2, h3.2⟩
        simp only [List.length_cons] at this ⊢
        omega

theorem outcome_bfs_shortest {pf : PathFinder} {r : PathResult}
    (h : SearchOutcome pf false r) (hf : r.found = true) (w : List (Int × Int))
    (hw : pf.IsRoute pf.start pf.goal w) : r.path.length ≤ w.length := by
  obtain ⟨st, d, hinv, hb, hcase⟩ := h
  rcases hcase with ⟨_, rfl⟩ | ⟨rest, path, hfr, _, hlen, rfl⟩
  · rw [hinv.not_found] at hf
    exact absurd hf (by simp)
  · have := bfs_dist hinv (hb rfl) hfr w pf.start hinv.start_mem hw
    rw [hinv.depth_start] at this
    show path.length ≤ w.length
    omega


/-! ## Maze state: construction, reset and the accessors -/

/-- Two tables of the same dimensions with the same entries are equal. -/
theorem table_ext {α : Type} {W H : Int} (d : α) {g1 g2 : List (List α)}
    (h1 : TableDims W H g1) (h2 : TableDims W H g2)
    (h : ∀ x y : Int, 0 ≤ x → x < W → 0 ≤ y → y < H → readAt g1 x y d = readAt g2 x y d) :
    g1 = g2 := by
  apply List.ext_getElem (by rw [h1.1, h2.1])
  intro i hi1 hi2
  have hr1 : (g1[i]).length = W.toNat := h1.2 _ (List.getElem_mem hi1)
  have hr2 : (g2[i]).length = W.toNat := h2.2 _ (List.getElem_mem hi2)
  apply List.ext_getElem (by rw [hr1, hr2])
  intro j hj1 hj2
  have hiH : (i : Int) < H := by rw [h1.1] at hi1; omega
  have hjW : (j : Int) < W := by rw [hr1] at hj1; omega
  have := h (j : Int) (i : Int) (by omega) hjW (by omega) hiH
  unfold readAt at this
  simp only [Int.toNat_ofNat] at this
  rw [List.getD_eq_getElem g1 [] hi1, List.getD_eq_getElem g2 [] hi2,
    List.getD_eq_getElem _ d hj1, List.getD_eq_getElem _ d hj2] at this
  exact this

/-- The clearing loops turn any grid of the right dimensions into the grid
of a freshly constructed maze. -/
theorem clearGrid_eq {W H : Int} (hW : 0 ≤ W) {g : List (List Cell)} (hg : GridDims W H g) :
    clearGrid W H g = List.replicate H.toNat (List.replicate W.toNat Cell.default) := by
  obtain ⟨hd, hc⟩ := clearGrid_spec hW hg
  apply table_ext Cell.default hd (tableDims_replicate Cell.default)
  intro x y hx hxW hy hyH
  rw [readAt_replicate]
  exact hc x y hx hxW hy hyH

theorem outcome_found_goal_inBounds {pf : PathFinder} {lifo : Bool} {r : PathResult}
    (h : SearchOutcome pf lifo r) (hf : r.found = true) : pf.maze.InBounds pf.goal := by
  obtain ⟨st, d, hinv, _, hcase⟩ := h
  rcases hcase with ⟨_, rfl⟩ | ⟨rest, path, hfr, _, _, _⟩
  · rw [hinv.not_found] at hf
    exact absurd hf (by simp)
  · exact hinv.explored_in _ (hinv.frontier_sub _ (by rw [hfr]; exact List.mem_cons_self _ _))

theorem outcome_end_outside {pf : PathFinder} {lifo : Bool} {r : PathResult}
    (h : SearchOutcome pf lifo r) (hg : ¬ pf.maze.InBounds pf.goal) :
    r.found = false ∧ r.path = [] ∧ (∀ c, c ∈ r.explored ↔ pf.Reachable pf.start c) ∧
    r.stepsCount = r.explored.length := by
  have hf : r.found = false := by
    cases hfd : r.found
    · rfl
    · exact absurd (outcome_found_goal_inBounds h hfd) hg
  exact ⟨hf, (outcome_not_found h hf).1, (outcome_not_found h hf).2.1, (outcome_counts h).2.2 hf⟩

/-- A search whose start is also its end stops at the first iteration. -/
theorem searchLoop_start_eq_goal (pf : PathFinder) (lifo : Bool)
    (hs : pf.maze.InBounds pf.start) (he : pf.start = pf.goal) :
    searchLoop pf lifo (pf.maze.width * pf.maze.height).toNat (initialState pf) =
      some ⟨[pf.start], [pf.start], 1, true⟩ := by
  obtain ⟨s1, s2, s3, s4⟩ := hs
  have hcells : 1 ≤ pf.maze.width * pf.maze.height := by
    have h1 : 1 ≤ pf.maze.width := by omega
    have h2 : 1 ≤ pf.maze.height := by omega
    calc (1 : Int) = 1 * 1 := by norm_num
      _ ≤ pf.maze.width * pf.maze.height := Int.mul_le_mul h1 h2 (by norm_num) (by omega)
  obtain ⟨k, hk⟩ : ∃ k, (pf.maze.width * pf.maze.height).toNat = k + 1 :=
    ⟨(pf.maze.width * pf.maze.height).toNat - 1, by omega⟩
  have hx : pf.startX = pf.endX := congrArg Prod.fst he
  have hy : pf.startY = pf.endY := congrArg Prod.snd he
  have hcond : pf.endX ≠ -1 ∧ pf.endY ≠ -1 := by
    have e1 : pf.start.1 = pf.endX := hx
    have e2 : pf.start.2 = pf.endY := hy
    constructor <;> omega
  have hrec : reconstructPath (initialState pf).parent (pf.maze.width * pf.maze.height).toNat
      (pf.endX, pf.endY) [] = some [(pf.endX, pf.endY)] := by
    rw [hk]
    conv_lhs => unfold reconstructPath
    rw [if_pos hcond]
    show reconstructPath _ k (readAt (List.replicate _ (List.replicate _ (-1, -1))) _ _ (-1, -1))
      _ = _
    rw [readAt_replicate]
    unfold reconstructPath
    simp
  conv_lhs => rw [hk]; unfold searchLoop
  show (match [(pf.startX, pf.startY)] with
    | [] => some (initialState pf).result
    | (x, y) :: rest => _) = _
  simp only [if_pos (And.intro hx hy)]
  rw [hrec]
  show some (⟨[(pf.endX, pf.endY)].reverse, [(pf.startX, pf.startY)], 0 + 1, true⟩ : PathResult) =
    some ⟨[(pf.startX, pf.startY)], [(pf.startX, pf.startY)], 1, true⟩
  rw [hx, hy]
  rfl

/-- For an in-bounds coordinate `cellAt` is the element at row `y`, column `x`
of the grid. -/
theorem cellAt_eq_stored {W H : Int} {g : List (List Cell)} (hg : GridDims W H g) {x y : Int}
    (hx : 0 ≤ x) (hxW : x < W) (hy : 0 ≤ y) (hyH : y < H) :
    (g[y.toNat]?).bind (fun row => row[x.toNat]?) = some (cellAt g x y) := by
  have hyl : y.toNat < g.length := by rw [hg.1]; omega
  have hrow : (g[y.toNat]).length = W.toNat := hg.2 _ (List.getElem_mem hyl)
  have hxl : x.toNat < (g[y.toNat]).length := by rw [hrow]; omega
  unfold cellAt
  rw [List.getElem?_eq_getElem hyl, List.getD_eq_getElem g [] hyl, Option.some_bind,
    List.getElem?_eq_getElem hxl, List.getD_eq_getElem _ _ hxl]

theorem maze_new_of_nonneg {w h : Int} (hw : 0 ≤ w) (hh : 0 ≤ h) :
    Maze.new w h =
      some ⟨w, h, List.replicate h.toNat (List.replicate w.toNat Cell.default), []⟩ := by
  unfold Maze.new
  rw [if_neg (by omega)]


/-! ## Disjoint sets: reachable states, representatives -/

/-- Every reachable union-find state satisfies the representation invariant. -/
theorem reachable_inv {n : Nat} {uf : UnionFind} (h : uf.Reachable n) : uf.Inv n := by
  induction h with
  | new => exact (new_inv n).1
  | find _ hx hf ih =>
    obtain ⟨r, uf2, hf2, _, hinv, _⟩ := find_spec ih hx
    rw [hf] at hf2
    cases hf2
    exact hinv
  | unite _ hx hy hu ih =>
    obtain ⟨b, uf2, hu2, hinv, _⟩ := unite_spec ih hx hy
    rw [hu] at hu2
    cases hu2
    exact hinv
  | connected _ hx hy hc ih =>
    obtain ⟨b, uf2, hc2, hinv, _⟩ := connected_spec ih hx hy
    rw [hc] at hc2
    cases hc2
    exact hinv

/-- On valid indices `connected` returns `true` exactly for elements of one set. -/
theorem connected_iff_same {n : Nat} {uf : UnionFind} (h : uf.Inv n) {a b : Nat} (ha : a < n)
    (hb : b < n) : uf.Connected a b ↔ uf.Same a b := by
  obtain ⟨c, uf1, hc, _, hiff, _⟩ := connected_spec h ha hb
  unfold UnionFind.Connected
  constructor
  · rintro ⟨uf2, h2⟩
    rw [hc] at h2
    cases h2
    exact hiff.1 rfl
  · intro hs
    have : c = true := hiff.2 hs
    subst this
    exact ⟨uf1, hc⟩

/-- After `find(x)` returns `r`, the parent of `x` is `r`. -/
theorem findAux_parent : ∀ (k : Nat) (uf : UnionFind) (x r : Nat) (uf1 : UnionFind),
    UnionFind.findAux k uf x = some (r, uf1) → uf1.parent.getD x 0 = r := by
  intro k uf x r uf1 h
  cases k with
  | zero => simp [UnionFind.findAux] at h
  | succ k =>
    rw [UnionFind.findAux] at h
    by_cases hroot : uf.parent.getD x 0 = x
    · rw [if_neg (not_not.mpr hroot)] at h
      cases h
      rfl
    · rw [if_pos hroot] at h
      cases hrec : UnionFind.findAux k uf (uf.parent.getD x 0) with
      | none => rw [hrec] at h; cases h
      | some p =>
        obtain ⟨r1, uf2⟩ := p
        rw [hrec] at h
        cases h
        rfl

theorem set_getD_self (p : List Nat) (x : Nat) (hx : x < p.length) :
    p.set x (p.getD x 0) = p := by
  rw [List.getD_eq_getElem p 0 hx]
  apply List.ext_getElem (by simp)
  intro i h1 h2
  rw [List.getElem_set]
  split_ifs with h
  · subst h; rfl
  · rfl

/-- A second `find(x)` returns the same root and changes nothing. -/
theorem find_idempotent {n : Nat} {uf uf1 : UnionFind} (h : uf.Inv n) {x r : Nat} (hx : x < n)
    (hf : uf.find x = some (r, uf1)) : uf1.find x = some (r, uf1) := by
  obtain ⟨r2, uf2, hf2, hroot, hinv1, _, hroots, _⟩ := find_spec h hx
  rw [hf] at hf2
  cases hf2
  have hpx : uf1.parent.getD x 0 = r := findAux_parent _ _ _ _ _ hf
  have hr1 : RootOf uf1.parent x r := (hroots x r).2 hroot
  have hpr : uf1.parent.getD r 0 = r := hr1.root_self
  have hrn : r < n := hinv1.parent_length ▸ hr1.root_lt
  have hxl : x < uf1.parent.length := by rw [hinv1.parent_length]; exact hx
  unfold UnionFind.find
  rw [hinv1.parent_length]
  by_cases hxr : r = x
  · subst hxr
    obtain ⟨k, hk⟩ : ∃ k, n = k + 1 := ⟨n - 1, by omega⟩
    rw [hk, UnionFind.findAux, if_neg (not_not.mpr hpx), hpx]
  · obtain ⟨k, hk⟩ : ∃ k, n = k + 2 := ⟨n - 2, by omega⟩
    have hne : uf1.parent.getD x 0 ≠ x := by rw [hpx]; exact hxr
    have hinner : UnionFind.findAux (k + 1) uf1 r = some (r, uf1) := by
      rw [UnionFind.findAux, if_neg (not_not.mpr hpr), hpr]
    rw [hk, UnionFind.findAux, if_pos hne, hpx, hinner]
    have hset : uf1.parent.set x r = uf1.parent := by
      have := set_getD_self uf1.parent x hxl
      rw [hpx] at this
      exact this
    show some ((uf1.parent.set x r).getD x 0, (⟨uf1.parent.set x r, uf1.rank⟩ : UnionFind)) = _
    rw [hset, hpx]

/-- The value `find` returns is determined by the parent chains: it returns
`s` for `y` exactly when `s` is the root of `y`. -/
theorem find_returns_iff {n : Nat} {uf : UnionFind} (h : uf.Inv n) {y : Nat} (hy : y < n)
    (s : Nat) : (∃ u, uf.find y = some (s, u)) ↔ RootOf uf.parent y s := by
  obtain ⟨r, uf1, hf, hroot, _⟩ := find_spec h hy
  constructor
  · rintro ⟨u, hu⟩
    rw [hf] at hu
    cases hu
    exact hroot
  · intro hs
    have := hroot.unique hs
    subst this
    exact ⟨uf1, hf⟩

theorem new_parent_self (n i : Nat) (hi : i < n) : (UnionFind.new n).parent.getD i 0 = i := by
  show (List.range (n : Int).toNat).getD i 0 = i
  rw [Int.toNat_ofNat, List.getD_eq_getElem _ _ (by simpa using hi)]
  simp

/-- In a fresh `UnionFind(n)` every element is its own representative. -/
theorem new_find (n i : Nat) (hi : i < n) :
    (UnionFind.new n).find i = some (i, UnionFind.new n) := by
  have hlen : (UnionFind.new n).parent.length = n := (new_inv n).1.parent_length
  obtain ⟨k, hk⟩ : ∃ k, n = k + 1 := ⟨n - 1, by omega⟩
  unfold UnionFind.find
  rw [hlen]
  conv_lhs => rw [hk, UnionFind.findAux]
  rw [← hk, if_neg (not_not.mpr (new_parent_self n i hi)), new_parent_self n i hi]


/-! ## The candidate wall list -/

theorem length_flatMap_const {α β : Type} (f : α → List β) (c : Nat)
    (hf : ∀ y, (f y).length = c) : ∀ l : List α, (l.flatMap f).length = l.length * c := by
  intro l
  induction l with
  | nil => simp
  | cons y l ih =>
    rw [List.flatMap_cons, List.length_append, ih, hf, List.length_cons]
    ring

theorem allWalls_length_nat (W H : Int) :
    (allWalls W H).length = (H - 1).toNat * W.toNat + H.toNat * (W - 1).toNat := by
  unfold allWalls
  rw [List.length_append,
    length_flatMap_const _ W.toNat (fun y => by simp),
    length_flatMap_const _ (W - 1).toNat (fun y => by simp)]
  simp

theorem nodup_flatMap_range_map {β : Type} (g : Nat → Nat → β)
    (hg : ∀ x y x1 y1, g x y = g x1 y1 → x = x1 ∧ y = y1) (a b : Nat) :
    ((List.range a).flatMap fun (y : Nat) => (List.range b).map fun (x : Nat) => g x y).Nodup := by
  rw [List.nodup_flatMap]
  constructor
  · intro y _
    apply List.Nodup.map_on _ (List.nodup_range b)
    intro x _ x1 _ h
    exact (hg x y x1 y h).1
  · refine (List.nodup_range a).imp_of_mem ?_
    intro y y1 _ _ hne
    intro w hw hw1
    rw [List.mem_map] at hw hw1
    obtain ⟨x, _, hx⟩ := hw
    obtain ⟨x1, _, hx1⟩ := hw1
    exact hne (hg x y x1 y1 (hx.trans hx1.symm)).2

/-- The candidate list holds no wall twice. -/
theorem allWalls_nodup (W H : Int) : (allWalls W H).Nodup := by
  unfold allWalls
  rw [List.nodup_append]
  refine ⟨?_, ?_, ?_⟩
  · apply nodup_flatMap_range_map (fun (x y : Nat) => Wall.mk x y x (y + 1))
    intro x y x1 y1 h
    simp only [Wall.mk.injEq] at h
    omega
  · apply nodup_flatMap_range_map (fun (x y : Nat) => Wall.mk x y (x + 1) y)
    intro x y x1 y1 h
    simp only [Wall.mk.injEq] at h
    omega
  · intro w hw hw1
    simp only [List.mem_flatMap, List.mem_map, List.mem_range] at hw hw1
    obtain ⟨y, _, x, _, rfl⟩ := hw
    obtain ⟨y1, _, x1, _, h⟩ := hw1
    simp only [Wall.mk.injEq] at h
    omega

theorem countP_eq_one_of_unique {α : Type} [DecidableEq α] {l : List α} {p : α → Bool} {a : α}
    (hnd : l.Nodup) (ha : a ∈ l) (hp : ∀ w, w ∈ l → (p w = true ↔ w = a)) :
    l.countP p = 1 := by
  have h1 : l.countP p = l.countP (fun w => w == a) := by
    apply List.countP_congr
    intro w hw
    rw [hp w hw]
    simp
  rw [h1, ← List.count_eq_countP]
  exact List.count_eq_one_of_mem hnd ha

/-- Every wall of the grid joins two in-bounds 4-adjacent cells. -/
theorem IsGridWall.adjacent {W H : Int} {w : Wall} (h : IsGridWall W H w) :
    Adjacent4 w.fst w.snd := by
  obtain ⟨x1, y1, x2, y2⟩ := w
  unfold IsGridWall at h
  unfold Adjacent4
  simp only [Wall.fst, Wall.snd]
  simp only at h
  omega

/-- Every unordered pair of in-bounds 4-adjacent cells is joined by exactly
one wall of the candidate list. -/
theorem allWalls_joins_once {W H : Int} {a b : Int × Int} (ha : InGrid W H a)
    (hb : InGrid W H b) (hadj : Adjacent4 a b) :
    (allWalls W H).countP (fun w => decide (w.Joins a b)) = 1 := by
  obtain ⟨ax, ay⟩ := a
  obtain ⟨bx, by1⟩ := b
  obtain ⟨a1, a2, a3, a4⟩ := ha
  obtain ⟨b1, b2, b3, b4⟩ := hb
  unfold Adjacent4 at hadj
  simp only at a1 a2 a3 a4 b1 b2 b3 b4 hadj
  have key : ∀ w0 : Wall, IsGridWall W H w0 →
      (∀ w, IsGridWall W H w → (w.Joins (ax, ay) (bx, by1) ↔ w = w0)) →
      (allWalls W H).countP (fun w => decide (w.Joins (ax, ay) (bx, by1))) = 1 := by
    intro w0 hw0 huniq
    apply countP_eq_one_of_unique (allWalls_nodup W H) (mem_allWalls.2 hw0)
    intro w hw
    rw [decide_eq_true_iff]
    exact huniq w (mem_allWalls.1 hw)
  have hjoin : ∀ w : Wall, w.Joins (ax, ay) (bx, by1) ↔
      ((w.x1 = ax ∧ w.y1 = ay) ∧ (w.x2 = bx ∧ w.y2 = by1)) ∨
      ((w.x1 = bx ∧ w.y1 = by1) ∧ (w.x2 = ax ∧ w.y2 = ay)) := by
    intro w
    unfold Wall.Joins Wall.fst Wall.snd
    simp only [Prod.mk.injEq]
  rcases hadj with ⟨e, h | h⟩ | ⟨e, h | h⟩
  · refine key ⟨bx, by1, ax, ay⟩ (Or.inl ⟨by simp only; omega, by simp only; omega, b1, b2, b3,
      by simp only; omega⟩) ?_
    intro w hw
    obtain ⟨x1, y1, x2, y2⟩ := w
    rw [hjoin, Wall.mk.injEq]
    unfold IsGridWall at hw
    simp only at hw ⊢
    omega
  · refine key ⟨ax, ay, bx, by1⟩ (Or.inl ⟨by simp only; omega, by simp only; omega, a1, a2, a3,
      by simp only; omega⟩) ?_
    intro w hw
    obtain ⟨x1, y1, x2, y2⟩ := w
    rw [hjoin, Wall.mk.injEq]
    unfold IsGridWall at hw
    simp only at hw ⊢
    omega
  · refine key ⟨bx, by1, ax, ay⟩ (Or.inr ⟨by simp only; omega, by simp only; omega, b1,
      by simp only; omega, b3, b4⟩) ?_
    intro w hw
    obtain ⟨x1, y1, x2, y2⟩ := w
    rw [hjoin, Wall.mk.injEq]
    unfold IsGridWall at hw
    simp only at hw ⊢
    omega
  · refine key ⟨ax, ay, bx, by1⟩ (Or.inr ⟨by simp only; omega, by simp only; omega, a1,
      by simp only; omega, a3, a4⟩) ?_
    intro w hw
    obtain ⟨x1, y1, x2, y2⟩ := w
    rw [hjoin, Wall.mk.injEq]
    unfold IsGridWall at hw
    simp only at hw ⊢
    omega


/-! ## The 2 × 1 maze -/

/-- On a maze of width 2 and height 1, `generateMaze` always yields the same
state: the single internal wall is open and is the only entry of the log. -/
theorem generateMaze_two_by_one {shuffle1 shuffle2 : List Wall → List Wall}
    (hperm1 : ∀ l, (shuffle1 l).Perm l) (hperm2 : ∀ l, (shuffle2 l).Perm l)
    {m : Maze} (hm : m.WF) (hw : m.width = 2) (hh : m.height = 1) (extraCycles : Int) :
    m.generateMaze shuffle1 shuffle2 extraCycles =
      some ⟨2, 1, [[⟨true, true, true, false⟩, ⟨true, true, false, true⟩]], [⟨0, 0, 1, 0⟩]⟩ := by
  obtain ⟨w, h, g, log⟩ := m
  simp only at hw hh
  subst hw; subst hh
  obtain ⟨hW, _, hg⟩ := hm
  have hwalls : shuffle1 (allWalls 2 1) = [⟨0, 0, 1, 0⟩] := by
    have h1 : allWalls 2 1 = [⟨0, 0, 1, 0⟩] := by decide
    have h2 := hperm1 (allWalls 2 1)
    rw [h1] at h2 ⊢
    exact List.perm_singleton.1 h2
  have hclear : clearGrid 2 1 g = [[Cell.default, Cell.default]] := by
    rw [clearGrid_eq hW hg]
    rfl
  have htree : generateTree shuffle1 ⟨2, 1, g, log⟩ =
      some ⟨⟨[0, 0], [1, 0]⟩, [[⟨true, true, true, false⟩, ⟨true, true, false, true⟩]],
        [⟨0, 0, 1, 0⟩], []⟩ := by
    unfold generateTree
    show treeLoop 2 ⟨UnionFind.new (2 * 1), clearGrid 2 1 g, [], []⟩ (shuffle1 (allWalls 2 1)) = _
    rw [hwalls, hclear]
    rfl
  have hskip : shuffle2 [] = [] := List.Perm.eq_nil (hperm2 [])
  unfold Maze.generateMaze
  rw [htree]
  simp only [hskip]
  have hcycle : ∀ (st : List (List Cell) × List Wall),
      cycleLoop extraCycles [] ([] : List Wall).length 0 st = some st := by
    intro st
    obtain ⟨g1, l1⟩ := st
    unfold cycleLoop
    rw [if_neg (by simp)]
  rw [hcycle]


/-! ## Disjoint sets: the frame of path compression, ranks -/

theorem findAux_length : ∀ (k : Nat) (uf : UnionFind) (x r : Nat) (uf1 : UnionFind),
    UnionFind.findAux k uf x = some (r, uf1) →
    uf1.parent.length = uf.parent.length ∧ uf1.rank = uf.rank := by
  intro k
  induction k with
  | zero =>
    intro uf x r uf1 h
    simp [UnionFind.findAux] at h
  | succ k ih =>
    intro uf x r uf1 h
    rw [UnionFind.findAux] at h
    by_cases hroot : uf.parent.getD x 0 = x
    · rw [if_neg (not_not.mpr hroot)] at h
      cases h
      exact ⟨rfl, rfl⟩
    · rw [if_pos hroot] at h
      cases hrec : UnionFind.findAux k uf (uf.parent.getD x 0) with
      | none => rw [hrec] at h; cases h
      | some p =>
        obtain ⟨r1, uf2⟩ := p
        rw [hrec] at h
        cases h
        obtain ⟨h1, h2⟩ := ih uf _ r1 uf2 hrec
        exact ⟨by rw [← h1]; exact List.length_set _ _ _, h2⟩

theorem RootOf.onChain {p : List Nat} {x r : Nat} (h : RootOf p x r) : OnChain p x r := by
  induction h with
  | root _ _ => exact OnChain.self _
  | step _ hne _ ih => exact OnChain.step hne ih

/-- The frame of `find`: the nodes of the chain from `x` get the returned root
as parent, every other parent is left as it was. -/
theorem findAux_frame {n : Nat} : ∀ (k : Nat) (uf : UnionFind) (x r : Nat) (uf1 : UnionFind),
    uf.Inv n → x < n → UnionFind.findAux k uf x = some (r, uf1) →
    (∀ z, OnChain uf.parent x z → uf1.parent.getD z 0 = r) ∧
    (∀ z, ¬ OnChain uf.parent x z → uf1.parent.getD z 0 = uf.parent.getD z 0) := by
  intro k
  induction k with
  | zero =>
    intro uf x r uf1 _ _ h
    simp [UnionFind.findAux] at h
  | succ k ih =>
    intro uf x r uf1 hinv hx h
    rw [UnionFind.findAux] at h
    by_cases hroot : uf.parent.getD x 0 = x
    · rw [if_neg (not_not.mpr hroot)] at h
      cases h
      refine ⟨?_, fun _ _ => rfl⟩
      intro z hz
      cases hz with
      | self => rfl
      | step hne _ => exact absurd hroot hne
    · rw [if_pos hroot] at h
      cases hrec : UnionFind.findAux k uf (uf.parent.getD x 0) with
      | none => rw [hrec] at h; cases h
      | some p =>
        obtain ⟨r1, uf2⟩ := p
        rw [hrec] at h
        have hlen := (findAux_length k uf _ r1 uf2 hrec).1
        have hx2 : x < uf2.parent.length := by rw [hlen, hinv.parent_length]; exact hx
        have hr : (uf2.parent.set x r1).getD x 0 = r1 := getD_set_self _ _ _ hx2
        cases h
        obtain ⟨hA, hB⟩ := ih uf _ r1 uf2 hinv (hinv.parent_lt x hx) hrec
        constructor
        · intro z hz
          show (uf2.parent.set x r1).getD z 0 = (uf2.parent.set x r1).getD x 0
          rw [hr]
          by_cases hzx : x = z
          · subst hzx; exact hr
          · rw [getD_set_ne _ _ _ _ hzx]
            cases hz with
            | self => exact absurd rfl hzx
            | step _ hz1 => exact hA z hz1
        · intro z hz
          have hzx : x ≠ z := fun e => hz (e ▸ OnChain.self x)
          show (uf2.parent.set x r1).getD z 0 = _
          rw [getD_set_ne _ _ _ _ hzx]
          exact hB z (fun hz1 => hz (OnChain.step hroot hz1))

/-- Ranks never decrease along a parent link, so they never decrease along
iterated parent links. -/
theorem rank_le_iterate {n : Nat} {uf : UnionFind} (hinv : uf.Inv n) :
    ∀ (k x : Nat), x < n →
      (fun z => uf.parent.getD z 0)^[k] x < n ∧
      uf.rank.getD x 0 ≤ uf.rank.getD ((fun z => uf.parent.getD z 0)^[k] x) 0 := by
  intro k
  induction k with
  | zero => intro x hx; exact ⟨hx, Nat.le_refl _⟩
  | succ k ih =>
    intro x hx
    rw [Function.iterate_succ_apply]
    obtain ⟨h1, h2⟩ := ih _ (hinv.parent_lt x hx)
    refine ⟨h1, Nat.le_trans ?_ h2⟩
    by_cases hroot : uf.parent.getD x 0 = x
    · rw [hroot]
    · exact Nat.le_of_lt (hinv.rank_lt_parent x hx hroot)

/-- The parent links contain no cycle: only a root comes back to itself. -/
theorem no_parent_cycle {n : Nat} {uf : UnionFind} (hinv : uf.Inv n) {x : Nat} (hx : x < n)
    (k : Nat) (h : (fun z => uf.parent.getD z 0)^[k + 1] x = x) : uf.parent.getD x 0 = x := by
  by_contra hroot
  have h1 := hinv.rank_lt_parent x hx hroot
  have h2 := (rank_le_iterate hinv k _ (hinv.parent_lt x hx)).2
  rw [Function.iterate_succ_apply] at h
  rw [h] at h2
  omega

/-- How `unite` links: with `rx`, `ry` the roots of `x`, `y` in different
sets, the root of lower rank is put under the other; on a tie the root of `y`
is put under the root of `x`, whose rank grows by one. -/
theorem unite_link_rule {n : Nat} {uf uf1 : UnionFind} (hinv : uf.Inv n) {x y : Nat}
    (hx : x < n) (hy : y < n) (hu : uf.unite x y = some (true, uf1)) :
    ∃ rx ry, RootOf uf.parent x rx ∧ RootOf uf.parent y ry ∧ rx ≠ ry ∧
      (uf.rank.getD rx 0 < uf.rank.getD ry 0 →
        uf1.parent.getD rx 0 = ry ∧ uf1.rank = uf.rank) ∧
      (uf.rank.getD ry 0 < uf.rank.getD rx 0 →
        uf1.parent.getD ry 0 = rx ∧ uf1.rank = uf.rank) ∧
      (uf.rank.getD rx 0 = uf.rank.getD ry 0 →
        uf1.parent.getD ry 0 = rx ∧ uf1.rank.getD rx 0 = uf.rank.getD rx 0 + 1 ∧
        ∀ z, z ≠ rx → uf1.rank.getD z 0 = uf.rank.getD z 0) := by
  obtain ⟨rx, ufa, hf1, hrx, hinva, hranka, hrootsa, _⟩ := find_spec hinv hx
  obtain ⟨ry, ufb, hf2, hry, hinvb, hrankb, hrootsb, _⟩ := find_spec hinva hy
  have hry0 : RootOf uf.parent y ry := (hrootsa y ry).1 hry
  have hrank : ufb.rank = uf.rank := by rw [hrankb, hranka]
  have hrxl : rx < ufb.parent.length := by
    rw [hinvb.parent_length, ← hinv.parent_length]; exact hrx.root_lt
  have hryl : ry < ufb.parent.length := by
    rw [hinvb.parent_length, ← hinv.parent_length]; exact hry0.root_lt
  have hrxr : rx < ufb.rank.length := by rw [hinvb.rank_length, ← hinvb.parent_length]; exact hrxl
  by_cases hroot : rx = ry
  · simp only [UnionFind.unite, hf1, hf2, if_pos hroot] at hu
    cases hu
  · refine ⟨rx, ry, hrx, hry0, hroot, ?_, ?_, ?_⟩
    · intro hlt
      rw [← hrank] at hlt
      simp only [UnionFind.unite, hf1, hf2, if_neg hroot, if_pos hlt] at hu
      cases hu
      exact ⟨getD_set_self _ _ _ hrxl, hrank⟩
    · intro hgt
      rw [← hrank] at hgt
      have hnlt : ¬ ufb.rank.getD rx 0 < ufb.rank.getD ry 0 := by omega
      simp only [UnionFind.unite, hf1, hf2, if_neg hroot, if_neg hnlt, gt_iff_lt, if_pos hgt] at hu
      cases hu
      exact ⟨getD_set_self _ _ _ hryl, hrank⟩
    · intro heq
      rw [← hrank] at heq
      have hnlt : ¬ ufb.rank.getD rx 0 < ufb.rank.getD ry 0 := by omega
      have hngt : ¬ ufb.rank.getD ry 0 < ufb.rank.getD rx 0 := by omega
      simp only [UnionFind.unite, hf1, hf2, if_neg hroot, if_neg hnlt, gt_iff_lt,
        if_neg hngt] at hu
      cases hu
      refine ⟨getD_set_self _ _ _ hryl, ?_, ?_⟩
      · show (ufb.rank.set rx (ufb.rank.getD rx 0 + 1)).getD rx 0 = _
        rw [getD_set_self _ _ _ hrxr, hrank]
      · intro z hz
        show (ufb.rank.set rx (ufb.rank.getD rx 0 + 1)).getD z 0 = _
        rw [getD_set_ne _ _ _ _ (Ne.symm hz), hrank]

theorem sampleForest_reachable : sampleForest.Reachable 4 :=
  UnionFind.Reachable.unite
    (UnionFind.Reachable.unite
      (UnionFind.Reachable.unite UnionFind.Reachable.new (by decide) (by decide)
        (rfl : (UnionFind.new (4 : Nat)).unite 0 1 = some (true, ⟨[0, 0, 2, 3], [1, 0, 0, 0]⟩)))
      (by decide) (by decide)
      (rfl : (UnionFind.mk [0, 0, 2, 3] [1, 0, 0, 0]).unite 2 3 =
        some (true, ⟨[0, 0, 2, 2], [1, 0, 1, 0]⟩)))
    (by decide) (by decide)
    (rfl : (UnionFind.mk [0, 0, 2, 2] [1, 0, 1, 0]).unite 0 2 = some (true, sampleForest))


/-! ## Searches: order of exploration and step counts -/

/-- The neighbour loop only appends to `explored`. -/
theorem visit_fold_explored (lifo : Bool) (x y : Int) :
    ∀ (l : List (Int × Int)) (st : SearchState),
      ∃ rest, (l.foldl (visitNeighbor lifo x y) st).result.explored =
        st.result.explored ++ rest := by
  intro l
  induction l with
  | nil => intro st; exact ⟨[], by simp⟩
  | cons n l ih =>
    intro st
    obtain ⟨rest, h⟩ := ih (visitNeighbor lifo x y st n)
    rw [List.foldl_cons, h]
    unfold visitNeighbor
    split
    · exact ⟨n :: rest, by simp⟩
    · exact ⟨rest, rfl⟩

/-- The main loop only appends to `explored`: the trace of the state it is
started in begins the trace of the result. -/
theorem searchLoop_explored (pf : PathFinder) (lifo : Bool) :
    ∀ (fuel : Nat) (st : SearchState) (r : PathResult), searchLoop pf lifo fuel st = some r →
      ∃ rest, r.explored = st.result.explored ++ rest := by
  intro fuel
  induction fuel with
  | zero =>
    intro st r h
    unfold searchLoop at h
    cases hfr : st.frontier with
    | nil =>
      rw [hfr] at h
      simp only [Option.some.injEq] at h
      subst h
      exact ⟨[], by simp⟩
    | cons u rest =>
      rw [hfr] at h
      simp at h
  | succ fuel ih =>
    intro st r h
    unfold searchLoop at h
    cases hfr : st.frontier with
    | nil =>
      rw [hfr] at h
      simp only [Option.some.injEq] at h
      subst h
      exact ⟨[], by simp⟩
    | cons u rest =>
      obtain ⟨x, y⟩ := u
      rw [hfr] at h
      simp only at h
      by_cases hgoal : x = pf.endX ∧ y = pf.endY
      · rw [if_pos hgoal] at h
        cases hrec : reconstructPath st.parent (pf.maze.width * pf.maze.height).toNat
            (pf.endX, pf.endY) [] with
        | none => rw [hrec] at h; simp at h
        | some path =>
          rw [hrec] at h
          simp only [Option.some.injEq] at h
          subst h
          exact ⟨[], by simp⟩
      · rw [if_neg hgoal] at h
        obtain ⟨rest1, h1⟩ := ih _ _ h
        obtain ⟨rest2, h2⟩ := visit_fold_explored lifo x y
          (if lifo then (pf.getNeighbors x y).reverse else pf.getNeighbors x y)
          ⟨st.visited, st.parent, rest, { st.result with stepsCount := st.result.stepsCount + 1 }⟩
        rw [h2] at h1
        exact ⟨rest2 ++ rest1, by rw [h1]; simp⟩

/-- A cell is not its own neighbour. -/
theorem not_mem_getNeighbors_self (pf : PathFinder) (x y : Int) :
    (x, y) ∉ pf.getNeighbors x y := by
  intro h
  rw [mem_getNeighbors] at h
  rcases h with ⟨e, _⟩ | ⟨e, _⟩ | ⟨e, _⟩ | ⟨e, _⟩
  all_goals
    have e1 := congrArg Prod.fst e
    have e2 := congrArg Prod.snd e
    simp only at e1 e2
    omega

theorem freshCells_of_disjoint {explored l : List (Int × Int)}
    (h : ∀ c, c ∈ l → c ∉ explored) : freshCells explored l = l := by
  unfold freshCells
  rw [List.filter_eq_self]
  intro c hc
  simp [h c hc]

/-- The number of cells of a grid with an in-bounds cell is positive. -/
theorem cells_pos {pf : PathFinder} (hs : pf.maze.InBounds pf.start) :
    ∃ k, (pf.maze.width * pf.maze.height).toNat = k + 1 := by
  obtain ⟨s1, s2, s3, s4⟩ := hs
  have hcells : 1 ≤ pf.maze.width * pf.maze.height := by
    have h1 : 1 ≤ pf.maze.width := by omega
    have h2 : 1 ≤ pf.maze.height := by omega
    calc (1 : Int) = 1 * 1 := by norm_num
      _ ≤ pf.maze.width * pf.maze.height := Int.mul_le_mul h1 h2 (by norm_num) (by omega)
  exact ⟨(pf.maze.width * pf.maze.height).toNat - 1, by omega⟩

/-- The first iteration of a search whose start is not its end: the start is
popped and its neighbours are visited. -/
theorem searchLoop_first_step (pf : PathFinder) (lifo : Bool) (k : Nat)
    (hne : pf.start ≠ pf.goal) :
    searchLoop pf lifo (k + 1) (initialState pf) =
      searchLoop pf lifo k (expandState lifo (initialState pf) pf.start []
        (if lifo then (pf.getNeighbors pf.startX pf.startY).reverse
         else pf.getNeighbors pf.startX pf.startY)) := by
  have hgoal : ¬ (pf.startX = pf.endX ∧ pf.startY = pf.endY) := by
    intro h
    exact hne (Prod.ext h.1 h.2)
  conv_lhs => unfold searchLoop
  show (match [(pf.startX, pf.startY)] with
    | [] => some (initialState pf).result
    | (x, y) :: rest => _) = _
  simp only [if_neg hgoal]
  rfl

/-- The explored trace of a search from an in-bounds start other than the
end begins with the start followed by the neighbours of the start in the
order in which the neighbour loop runs over them. -/
theorem searchLoop_explored_start (pf : PathFinder) (lifo : Bool)
    (hs : pf.maze.InBounds pf.start) (hne : pf.start ≠ pf.goal) (r : PathResult)
    (hr : searchLoop pf lifo (pf.maze.width * pf.maze.height).toNat (initialState pf) = some r) :
    ∃ rest, r.explored = pf.start ::
      ((if lifo then (pf.getNeighbors pf.startX pf.startY).reverse
        else pf.getNeighbors pf.startX pf.startY) ++ rest) := by
  obtain ⟨k, hk⟩ := cells_pos hs
  rw [hk, searchLoop_first_step pf lifo k hne] at hr
  obtain ⟨rest, hrest⟩ := searchLoop_explored pf lifo k _ r hr
  have hnb : ∀ b, b ∈ (if lifo then (pf.getNeighbors pf.startX pf.startY).reverse
      else pf.getNeighbors pf.startX pf.startY) ↔ pf.Nbr pf.start b := by
    intro b
    cases lifo
    · exact Iff.rfl
    · simp only [if_true, List.mem_reverse]; exact Iff.rfl
  have hnd : (if lifo then (pf.getNeighbors pf.startX pf.startY).reverse
      else pf.getNeighbors pf.startX pf.startY).Nodup := by
    cases lifo
    · exact getNeighbors_nodup pf _ _
    · simp only [if_true, List.nodup_reverse]; exact getNeighbors_nodup pf _ _
  obtain ⟨_, hexp, _, _⟩ := @search_step pf lifo (initialState pf) (fun _ => 0) pf.start [] _
    (initialState_inv_of_start hs).1 rfl hne hnb hnd
  have hfresh : freshCells (initialState pf).result.explored
      (if lifo then (pf.getNeighbors pf.startX pf.startY).reverse
       else pf.getNeighbors pf.startX pf.startY) =
      (if lifo then (pf.getNeighbors pf.startX pf.startY).reverse
       else pf.getNeighbors pf.startX pf.startY) := by
    apply freshCells_of_disjoint
    intro c hc hce
    have hcs : c = pf.start := List.mem_singleton.1 hce
    rw [hcs] at hc
    exact not_mem_getNeighbors_self pf pf.startX pf.startY ((hnb _).1 hc)
  rw [hfresh] at hexp
  rw [hexp] at hrest
  exact ⟨rest, by rw [hrest]; rfl⟩

/-- A cell all of whose walls are present has no neighbours. -/
theorem getNeighbors_walled (pf : PathFinder) {x y : Int} (hin : pf.maze.InBounds (x, y))
    (hc : cellAt pf.maze.grid x y = Cell.default) : pf.getNeighbors x y = [] := by
  obtain ⟨h0, h1, h2, h3⟩ := hasWall_of_inBounds pf.maze hin
  unfold PathFinder.getNeighbors
  rw [h0, h1, h2, h3, hc]
  simp [Cell.default]

/-- A search from a fully walled in-bounds start other than the end pops
the start, finds no neighbour and stops with the frontier empty. -/
theorem searchLoop_walled_start (pf : PathFinder) (lifo : Bool)
    (hs : pf.maze.InBounds pf.start) (hne : pf.start ≠ pf.goal)
    (hc : cellAt pf.maze.grid pf.startX pf.startY = Cell.default) :
    searchLoop pf lifo (pf.maze.width * pf.maze.height).toNat (initialState pf) =
      some ⟨[], [pf.start], 1, false⟩ := by
  obtain ⟨k, hk⟩ := cells_pos hs
  rw [hk, searchLoop_first_step pf lifo k hne, getNeighbors_walled pf hs hc]
  have hnil : (if lifo then ([] : List (Int × Int)).reverse else []) = [] := by
    cases lifo <;> rfl
  rw [hnil]
  unfold searchLoop
  rfl

/-- The depth of every explored cell is at most the number of steps counted
so far: the invariant behind `path.size() <= stepsCount`. -/
theorem searchLoop_path_le (pf : PathFinder) (lifo : Bool) :
    ∀ (fuel : Nat) (st : SearchState) (d : Int × Int → Nat), SearchInv pf st d →
      (∀ c, c ∈ st.result.explored → d c ≤ st.result.stepsCount) →
      ∀ r, searchLoop pf lifo fuel st = some r → r.found = true →
        r.path.length ≤ r.stepsCount := by
  intro fuel
  induction fuel with
  | zero =>
    intro st d hinv _ r h hf
    unfold searchLoop at h
    cases hfr : st.frontier with
    | nil =>
      rw [hfr] at h
      simp only [Option.some.injEq] at h
      subst h
      rw [hinv.not_found] at hf
      exact absurd hf (by simp)
    | cons u rest =>
      rw [hfr] at h
      simp at h
  | succ fuel ih =>
    intro st d hinv hP r h hf
    unfold searchLoop at h
    cases hfr : st.frontier with
    | nil =>
      rw [hfr] at h
      simp only [Option.some.injEq] at h
      subst h
      rw [hinv.not_found] at hf
      exact absurd hf (by simp)
    | cons u rest =>
      obtain ⟨x, y⟩ := u
      have hu : (x, y) ∈ st.result.explored :=
        hinv.frontier_sub _ (by rw [hfr]; exact List.mem_cons_self _ _)
      rw [hfr] at h
      simp only at h
      by_cases hgoal : x = pf.endX ∧ y = pf.endY
      · have hug : (x, y) = pf.goal := Prod.ext hgoal.1 hgoal.2
        have hge : pf.goal ∈ st.result.explored := hug ▸ hu
        have hlen := explored_length_le hinv
        obtain ⟨path, _, hplen, hrec⟩ := reconstruct_spec hinv (d pf.goal) pf.goal hge rfl
          (pf.maze.width * pf.maze.height).toNat []
          (by have := hinv.depth_lt _ hge; omega)
        rw [List.nil_append] at hrec
        have hrec1 : reconstructPath st.parent (pf.maze.width * pf.maze.height).toNat
            (pf.endX, pf.endY) [] = some path.reverse := hrec
        rw [if_pos hgoal, hrec1] at h
        simp only [Option.some.injEq] at h
        subst h
        have := hP _ hge
        simp only [List.reverse_reverse]
        omega
      · have hne : (x, y) ≠ pf.goal := by
          intro e
          apply hgoal
          have h1 := congrArg Prod.fst e
          have h2 := congrArg Prod.snd e
          exact ⟨h1, h2⟩
        have hnb : ∀ b, b ∈ (if lifo then (pf.getNeighbors x y).reverse
            else pf.getNeighbors x y) ↔ pf.Nbr (x, y) b := by
          intro b
          cases lifo
          · exact Iff.rfl
          · simp only [if_true, List.mem_reverse]; exact Iff.rfl
        have hnd : (if lifo then (pf.getNeighbors x y).reverse
            else pf.getNeighbors x y).Nodup := by
          cases lifo
          · exact getNeighbors_nodup pf x y
          · simp only [if_true, List.nodup_reverse]; exact getNeighbors_nodup pf x y
        obtain ⟨hinv1, hexp, _, hsteps⟩ :=
          @search_step pf lifo st d (x, y) rest _ hinv hfr hne hnb hnd
        rw [if_neg hgoal] at h
        refine ih _ _ hinv1 ?_ r h hf
        intro c hc
        rw [hsteps]
        unfold nextDepth
        by_cases hcf : c ∈ freshCells st.result.explored
            (if lifo then (pf.getNeighbors x y).reverse else pf.getNeighbors x y)
        · rw [if_pos hcf]
          have := hP _ hu
          omega
        · rw [if_neg hcf]
          rw [hexp, List.mem_append] at hc
          rcases hc with hc | hc
          · have := hP _ hc
            omega
          · exact absurd hc hcf

/-- The bounds test of `isValid` as a decision of `InBounds`. -/
theorem isValid_eq_decide (pf : PathFinder) (x y : Int) :
    pf.isValid x y = decide (pf.maze.InBounds (x, y)) := by
  rw [Bool.eq_iff_iff, isValid_iff, decide_eq_true_iff]

/-- The neighbour list of the code is the one the specification words. -/
theorem getNeighbors_eq_openNeighbors (pf : PathFinder) (x y : Int) :
    pf.getNeighbors x y = openNeighbors pf.maze x y := by
  have c0 : cellInDirection x y 0 = (x, y - 1) := by simp [cellInDirection]
  have c1 : cellInDirection x y 1 = (x + 1, y) := by simp [cellInDirection]
  have c2 : cellInDirection x y 2 = (x, y + 1) := by simp [cellInDirection]
  have c3 : cellInDirection x y 3 = (x - 1, y) := by simp [cellInDirection]
  unfold PathFinder.getNeighbors openNeighbors
  rw [isValid_eq_decide, isValid_eq_decide, isValid_eq_decide, isValid_eq_decide]
  simp only [List.filter_cons, List.filter_nil, c0, c1, c2, c3]
  cases (!pf.maze.hasWall x y 0 && decide (pf.maze.InBounds (x, y - 1))) <;>
  cases (!pf.maze.hasWall x y 1 && decide (pf.maze.InBounds (x + 1, y))) <;>
  cases (!pf.maze.hasWall x y 2 && decide (pf.maze.InBounds (x, y + 1))) <;>
  cases (!pf.maze.hasWall x y 3 && decide (pf.maze.InBounds (x - 1, y))) <;>
  simp [c0, c1, c2, c3]


/-! ## Maze generation: boundary walls and the removal log -/

/-- In a grid that shows exactly the walls of a log of internal walls open,
the flags on the outer boundary are all set. -/
theorem boundary_flags {W H : Int} {g : List (List Cell)} {log : List Wall}
    (hf : FlagsMatch W H g log) (hlog : ∀ w, w ∈ log → IsGridWall W H w)
    {x y : Int} (hx : 0 ≤ x) (hxW : x < W) (hy : 0 ≤ y) (hyH : y < H) :
    (y = 0 → (cellAt g x y).top = true) ∧ (y = H - 1 → (cellAt g x y).bottom = true) ∧
    (x = 0 → (cellAt g x y).left = true) ∧ (x = W - 1 → (cellAt g x y).right = true) := by
  obtain ⟨h1, h2, h3, h4⟩ := hf x y hx hxW hy hyH
  refine ⟨?_, ?_, ?_, ?_⟩
  · intro e
    cases hb : (cellAt g x y).top
    · have hw := hlog _ (h2.1 hb)
      unfold IsGridWall at hw
      simp only at hw
      omega
    · rfl
  · intro e
    cases hb : (cellAt g x y).bottom
    · have hw := hlog _ (h1.1 hb)
      unfold IsGridWall at hw
      simp only at hw
      omega
    · rfl
  · intro e
    cases hb : (cellAt g x y).left
    · have hw := hlog _ (h4.1 hb)
      unfold IsGridWall at hw
      simp only at hw
      omega
    · rfl
  · intro e
    cases hb : (cellAt g x y).right
    · have hw := hlog _ (h3.1 hb)
      unfold IsGridWall at hw
      simp only at hw
      omega
    · rfl

/-- In a maze whose grid shows exactly the walls of a log of internal walls
open, a direction without a wall leads to an in-bounds cell. -/
theorem open_side_inBounds {m : Maze}
    (hf : FlagsMatch m.width m.height m.grid m.wallRemovalOrder)
    (hlog : ∀ w, w ∈ m.wallRemovalOrder → IsGridWall m.width m.height w) (x y : Int) :
    (m.hasWall x y 0 = false → m.InBounds (x, y - 1)) ∧
    (m.hasWall x y 1 = false → m.InBounds (x + 1, y)) ∧
    (m.hasWall x y 2 = false → m.InBounds (x, y + 1)) ∧
    (m.hasWall x y 3 = false → m.InBounds (x - 1, y)) := by
  by_cases hin : InGrid m.width m.height (x, y)
  · obtain ⟨e0, e1, e2, e3⟩ := hasWall_of_inBounds m hin
    obtain ⟨hx, hxW, hy, hyH⟩ := hin
    simp only at hx hxW hy hyH
    obtain ⟨h1, h2, h3, h4⟩ := hf x y hx hxW hy hyH
    rw [e0, e1, e2, e3]
    unfold Maze.InBounds InGrid
    refine ⟨?_, ?_, ?_, ?_⟩
    · intro hb
      have hw := hlog _ (h2.1 hb)
      unfold IsGridWall at hw
      simp only at hw ⊢
      omega
    · intro hb
      have hw := hlog _ (h3.1 hb)
      unfold IsGridWall at hw
      simp only at hw ⊢
      omega
    · intro hb
      have hw := hlog _ (h1.1 hb)
      unfold IsGridWall at hw
      simp only at hw ⊢
      omega
    · intro hb
      have hw := hlog _ (h4.1 hb)
      unfold IsGridWall at hw
      simp only at hw ⊢
      omega
  · have hout : x < 0 ∨ x ≥ m.width ∨ y < 0 ∨ y ≥ m.height := by
      unfold InGrid at hin
      simp only at hin
      omega
    have hall : ∀ d, m.hasWall x y d = true := by
      intro d
      unfold Maze.hasWall
      rw [if_pos hout]
    refine ⟨?_, ?_, ?_, ?_⟩ <;> (intro hb; rw [hall] at hb; exact absurd hb (by simp))

/-- The neighbour list with the bounds test left out. -/
theorem getNeighbors_of_open_sides (pf : PathFinder) (x y : Int)
    (h0 : pf.maze.hasWall x y 0 = false → pf.isValid x (y - 1) = true)
    (h1 : pf.maze.hasWall x y 1 = false → pf.isValid (x + 1) y = true)
    (h2 : pf.maze.hasWall x y 2 = false → pf.isValid x (y + 1) = true)
    (h3 : pf.maze.hasWall x y 3 = false → pf.isValid (x - 1) y = true) :
    pf.getNeighbors x y =
      (if !pf.maze.hasWall x y 0 then [(x, y - 1)] else []) ++
      (if !pf.maze.hasWall x y 1 then [(x + 1, y)] else []) ++
      (if !pf.maze.hasWall x y 2 then [(x, y + 1)] else []) ++
      (if !pf.maze.hasWall x y 3 then [(x - 1, y)] else []) := by
  unfold PathFinder.getNeighbors
  have k : ∀ (w v : Bool), (w = false → v = true) → (!w && v) = !w := by
    intro w v h
    cases w
    · rw [h rfl]; rfl
    · rfl
  rw [k _ _ h0, k _ _ h1, k _ _ h2, k _ _ h3]

/-- The cells of two grids with the same open walls are equal. -/
theorem grid_eq_of_flagsMatch {W H : Int} {g1 g2 : List (List Cell)} {log : List Wall}
    (hd1 : GridDims W H g1) (hd2 : GridDims W H g2) (hf1 : FlagsMatch W H g1 log)
    (hf2 : FlagsMatch W H g2 log) : g1 = g2 := by
  apply table_ext Cell.default hd1 hd2
  intro x y hx hxW hy hyH
  show cellAt g1 x y = cellAt g2 x y
  obtain ⟨a1, a2, a3, a4⟩ := hf1 x y hx hxW hy hyH
  obtain ⟨b1, b2, b3, b4⟩ := hf2 x y hx hxW hy hyH
  have k : ∀ (u v : Bool) (P : Prop), (u = false ↔ P) → (v = false ↔ P) → u = v := by
    intro u v P hu hv
    cases u <;> cases v
    · rfl
    · exact absurd (hv.2 (hu.1 rfl)) (by simp)
    · exact absurd (hu.2 (hv.1 rfl)) (by simp)
    · rfl
  have e1 := k _ _ _ a1 b1
  have e2 := k _ _ _ a2 b2
  have e3 := k _ _ _ a3 b3
  have e4 := k _ _ _ a4 b4
  cases hc1 : cellAt g1 x y
  cases hc2 : cellAt g2 x y
  rw [hc1, hc2] at e1 e2 e3 e4
  simp only at e1 e2 e3 e4
  rw [e1, e2, e3, e4]

theorem replayLog_append (W H : Int) (log : List Wall) (w : Wall) :
    replayLog W H (log ++ [w]) = removeWallFromGrid (replayLog W H log) w := by
  unfold replayLog
  rw [List.foldl_append]
  rfl

/-- The replay of a log of internal walls shows exactly the walls of the log open. -/
theorem replayLog_spec {W H : Int} :
    ∀ log : List Wall, (∀ w, w ∈ log → IsGridWall W H w) →
      GridDims W H (replayLog W H log) ∧ FlagsMatch W H (replayLog W H log) log := by
  intro log
  induction log using List.reverseRecOn with
  | nil =>
    intro _
    refine ⟨tableDims_replicate Cell.default, ?_⟩
    intro x y _ _ _ _
    show (_ ↔ _ ∈ []) ∧ (_ ↔ _ ∈ []) ∧ (_ ↔ _ ∈ []) ∧ (_ ↔ _ ∈ [])
    have hc : cellAt (replayLog W H []) x y = Cell.default := cellAt_replicate _ _ _ _
    rw [hc]
    simp [Cell.default]
  | append_singleton log w ih =>
    intro hlog
    obtain ⟨hd, hf⟩ := ih (fun v hv => hlog v (List.mem_append_left _ hv))
    have hw : IsGridWall W H w := hlog w (List.mem_append_right _ (List.mem_singleton.2 rfl))
    rw [replayLog_append]
    exact ⟨gridDims_removeWall hd w, flagsMatch_removeWall hd hf hw⟩

/-- Two internal walls between the same pair of cells are the same wall:
the log writes every edge in one orientation only. -/
theorem IsGridWall.eq_of_edge_eq {W H : Int} {w v : Wall} (hw : IsGridWall W H w)
    (hv : IsGridWall W H v) (h : s(w.fst, w.snd) = s(v.fst, v.snd)) : w = v := by
  obtain ⟨a1, b1, a2, b2⟩ := w
  obtain ⟨c1, d1, c2, d2⟩ := v
  unfold IsGridWall at hw hv
  simp only at hw hv
  rw [Sym2.eq_iff] at h
  unfold Wall.fst Wall.snd at h
  simp only [Prod.mk.injEq] at h
  rcases h with ⟨⟨e1, e2⟩, e3, e4⟩ | ⟨⟨e1, e2⟩, e3, e4⟩
  · subst e1; subst e2; subst e3; subst e4; rfl
  · exfalso
    omega

/-- The log left by `generateMaze` has no repetition. -/
theorem generated_log_nodup {shuffle1 shuffle2 : List Wall → List Wall}
    (hperm1 : ∀ l, (shuffle1 l).Perm l) (hperm2 : ∀ l, (shuffle2 l).Perm l)
    {W H : Int} {st : TreeState} (hinv : TreeInv W H (shuffle1 (allWalls W H)) st) (k : Nat) :
    (st.wallRemovalOrder ++ (shuffle2 st.skippedWalls).take k).Nodup := by
  have h1 : (st.wallRemovalOrder ++ st.skippedWalls).Nodup :=
    (hinv.split.trans (hperm1 _)).nodup_iff.2 (allWalls_nodup W H)
  have h2 : (st.wallRemovalOrder ++ shuffle2 st.skippedWalls).Nodup :=
    ((List.Perm.append_left st.wallRemovalOrder (hperm2 st.skippedWalls)).nodup_iff).2 h1
  exact List.Nodup.sublist
    (List.Sublist.append (List.Sublist.refl _) (List.take_sublist _ _)) h2


/-! ## Maze generation: the claims -/

theorem exists_walk_of_list {G : SimpleGraph (Int × Int)} :
    ∀ (p : List (Int × Int)) (a b : Int × Int), p.head? = some a → p.getLast? = some b →
      p.Chain' G.Adj → ∃ w : G.Walk a b, w.support = p := by
  intro p
  induction p with
  | nil => intro a b h; simp at h
  | cons x rest ih =>
    intro a b hhead hlast hchain
    simp only [List.head?_cons, Option.some.injEq] at hhead
    subst hhead
    cases rest with
    | nil =>
      simp only [List.getLast?_singleton, Option.some.injEq] at hlast
      subst hlast
      exact ⟨SimpleGraph.Walk.nil, rfl⟩
    | cons y r =>
      rw [List.chain'_cons] at hchain
      rw [List.getLast?_cons_cons] at hlast
      obtain ⟨w, hw⟩ := ih y b rfl hlast hchain.2
      exact ⟨SimpleGraph.Walk.cons hchain.1 w, by rw [SimpleGraph.Walk.support_cons, hw]⟩

theorem all_walls_processed {shuffle1 : List Wall → List Wall}
    (hperm : ∀ l, (shuffle1 l).Perm l) (W H : Int) :
    ∀ w, IsGridWall W H w → w ∈ shuffle1 (allWalls W H) :=
  fun _ hw => (hperm _).symm.subset (mem_allWalls.2 hw)

/-- C1. For every maze state (of any width and height, in particular both at
least 1), every `extraCycles` and every outcome of the two shuffles,
`generateMaze` returns a maze in which any two in-bounds cells are joined by
a walk of legal moves (moves between 4-adjacent in-bounds cells across a wall
that `hasWall` reports absent). -/
theorem generateMaze_fully_connected (shuffle1 shuffle2 : List Wall → List Wall)
    (hperm1 : ∀ l, (shuffle1 l).Perm l) (hperm2 : ∀ l, (shuffle2 l).Perm l)
    (m : Maze) (hm : m.WF) (extraCycles : Int) :
    ∃ m1, m.generateMaze shuffle1 shuffle2 extraCycles = some m1 ∧
      ∀ a b, m1.InBounds a → m1.InBounds b → ∃ p, m1.IsWalk a b p := by
  obtain ⟨st, m1, _, hinv, hgen, hw, hh, _, hf, hlog, hwalls⟩ :=
    generateMaze_spec hperm1 hperm2 hm extraCycles
  refine ⟨m1, hgen, ?_⟩
  intro a b ha hb
  unfold Maze.InBounds at ha hb
  rw [hw, hh] at ha hb
  have hreach := tree_spanning hinv (all_walls_processed hperm1 _ _) ha hb
  have hreach1 : (wallGraph m1.wallRemovalOrder).Reachable a b :=
    hreach.mono (wallGraph_mono (fun w h => by rw [hlog]; exact List.mem_append_left _ h))
  obtain ⟨p, h1, h2, h3, _⟩ := exists_list_of_reachable hreach1
  refine ⟨p, h1, h2, h3.imp ?_⟩
  intro c d hcd
  rw [← hw, ← hh] at hf hwalls
  exact (move_iff_adj hf hwalls c d).2 hcd

theorem generateMaze_fully_connected_witness :
    sampleMaze.WF ∧
    ∃ m1, sampleMaze.generateMaze List.reverse id 1 = some m1 ∧
      ∀ a b, m1.InBounds a → m1.InBounds b → ∃ p, m1.IsWalk a b p :=
  ⟨by decide,
    generateMaze_fully_connected List.reverse id (fun l => List.reverse_perm l)
      (fun l => List.Perm.refl l) sampleMaze (by decide) 1⟩

/-- C2. For every width and height at least 1 and every ordering of the
shuffled wall list, the spanning-tree loop of `generateMaze` completes with
exactly `W * H - 1` walls in the removal log (which it started empty). -/
theorem tree_phase_removal_count (shuffle1 : List Wall → List Wall)
    (hperm1 : ∀ l, (shuffle1 l).Perm l) (m : Maze) (hm : m.WF) (hW : 1 ≤ m.width)
    (hH : 1 ≤ m.height) :
    ∃ st, generateTree shuffle1 m = some st ∧
      (st.wallRemovalOrder.length : Int) = m.width * m.height - 1 := by
  obtain ⟨st, htree, hinv⟩ := generateTree_inv hperm1 hm
  exact ⟨st, htree, tree_count hW hH hinv (all_walls_processed hperm1 _ _)⟩

theorem tree_phase_removal_count_witness :
    sampleMaze.WF ∧ 1 ≤ sampleMaze.width ∧ 1 ≤ sampleMaze.height ∧
    ∃ st, generateTree List.reverse sampleMaze = some st ∧
      (st.wallRemovalOrder.length : Int) = sampleMaze.width * sampleMaze.height - 1 :=
  ⟨by decide, by decide, by decide,
    tree_phase_removal_count List.reverse (fun l => List.reverse_perm l) sampleMaze
      (by decide) (by decide) (by decide)⟩

/-- C3, as stated, fails for a negative `extraCycles`: on the 2 × 2 maze with
`extraCycles = -1` the cycle loop does not run and the log keeps its 3 tree
walls, while `(W*H - 1) + min(extraCycles, skipped)` is `3 + min(-1, 1) = 2`. -/
theorem removal_log_length_negative_extraCycles :
    ∃ st m1, generateTree id smallMaze = some st ∧
      smallMaze.generateMaze id id (-1) = some m1 ∧
      (m1.wallRemovalOrder.length : Int) ≠
        (smallMaze.width * smallMaze.height - 1) + min (-1) (st.skippedWalls.length : Int) := by
  refine ⟨_, _, rfl, rfl, ?_⟩
  decide

/-- C3, amended. For every width and height at least 1, every `extraCycles`
and every shuffle outcome, `generateMaze` returns (the cycle loop never reads
past the end of the skipped list), the tree log and the skipped list together
are a rearrangement of the candidate walls, and the final log is the tree log
followed by the first `min(max(extraCycles, 0), skipped)` shuffled skipped
walls, so its length is `(W*H - 1) + min(max(extraCycles, 0), skipped)`. -/
theorem removal_log_length (shuffle1 shuffle2 : List Wall → List Wall)
    (hperm1 : ∀ l, (shuffle1 l).Perm l) (hperm2 : ∀ l, (shuffle2 l).Perm l)
    (m : Maze) (hm : m.WF) (hW : 1 ≤ m.width) (hH : 1 ≤ m.height) (extraCycles : Int) :
    ∃ st m1, generateTree shuffle1 m = some st ∧
      m.generateMaze shuffle1 shuffle2 extraCycles = some m1 ∧
      (st.wallRemovalOrder ++ st.skippedWalls).Perm (allWalls m.width m.height) ∧
      m1.wallRemovalOrder = st.wallRemovalOrder ++
        (shuffle2 st.skippedWalls).take (min extraCycles.toNat st.skippedWalls.length) ∧
      (m1.wallRemovalOrder.length : Int) =
        (m.width * m.height - 1) + min (max extraCycles 0) (st.skippedWalls.length : Int) := by
  obtain ⟨st, m1, htree, hinv, hgen, _, _, _, _, hlog, _⟩ :=
    generateMaze_spec hperm1 hperm2 hm extraCycles
  have hlen : (shuffle2 st.skippedWalls).length = st.skippedWalls.length := (hperm2 _).length_eq
  have hcount := tree_count hW hH hinv (all_walls_processed hperm1 _ _)
  rw [hlen] at hlog
  refine ⟨st, m1, htree, hgen, hinv.split.trans (hperm1 _), hlog, ?_⟩
  rw [hlog, List.length_append, List.length_take, hlen]
  push_cast
  rw [hcount]
  have h1 : ((extraCycles.toNat : Int)) = max extraCycles 0 := Int.toNat_eq_max extraCycles
  rw [h1]
  have h2 : min (min (max extraCycles 0) (st.skippedWalls.length : Int))
      (st.skippedWalls.length : Int) = min (max extraCycles 0) (st.skippedWalls.length : Int) := by
    omega
  rw [h2]

theorem removal_log_length_witness :
    sampleMaze.WF ∧ 1 ≤ sampleMaze.width ∧ 1 ≤ sampleMaze.height ∧
    ∃ st m1, generateTree id sampleMaze = some st ∧
      sampleMaze.generateMaze id List.reverse 5 = some m1 ∧
      (st.wallRemovalOrder ++ st.skippedWalls).Perm (allWalls sampleMaze.width sampleMaze.height) ∧
      m1.wallRemovalOrder = st.wallRemovalOrder ++
        (List.reverse st.skippedWalls).take (min (5 : Int).toNat st.skippedWalls.length) ∧
      (m1.wallRemovalOrder.length : Int) =
        (sampleMaze.width * sampleMaze.height - 1) + min (max 5 0) (st.skippedWalls.length : Int) :=
  ⟨by decide, by decide, by decide,
    removal_log_length id List.reverse (fun l => List.Perm.refl l)
      (fun l => List.reverse_perm l) sampleMaze (by decide) (by decide) (by decide) 5⟩

/-- C4. Wall symmetry holds after construction, after `reset` and after
`generateMaze` (for every `extraCycles` and shuffle outcome): for adjacent
in-bounds cells the right flag of `(x,y)` equals the left flag of `(x+1,y)`
and the bottom flag of `(x,y)` equals the top flag of `(x,y+1)`. -/
theorem wall_symmetry_invariant (shuffle1 shuffle2 : List Wall → List Wall)
    (hperm1 : ∀ l, (shuffle1 l).Perm l) (hperm2 : ∀ l, (shuffle2 l).Perm l)
    (m : Maze) (hm : m.WF) (extraCycles : Int) :
    (∃ m0, Maze.new m.width m.height = some m0 ∧ m0.Symmetric) ∧
    m.reset.Symmetric ∧
    ∃ m1, m.generateMaze shuffle1 shuffle2 extraCycles = some m1 ∧ m1.Symmetric := by
  refine ⟨?_, ?_, ?_⟩
  · refine ⟨⟨m.width, m.height,
      List.replicate m.height.toNat (List.replicate m.width.toNat Cell.default), []⟩, ?_, ?_⟩
    · unfold Maze.new
      rw [if_neg (by have := hm.1; have := hm.2.1; omega)]
    · apply symmetric_of_flagsMatch
      intro x y _ _ _ _
      show (_ ↔ _ ∈ []) ∧ (_ ↔ _ ∈ []) ∧ (_ ↔ _ ∈ []) ∧ (_ ↔ _ ∈ [])
      rw [cellAt_replicate]
      simp [Cell.default]
  · apply symmetric_of_flagsMatch
    exact flagsMatch_clearGrid hm.1 hm.2.2
  · obtain ⟨_, m1, _, _, hgen, hw, hh, _, hf, _, _⟩ :=
      generateMaze_spec hperm1 hperm2 hm extraCycles
    refine ⟨m1, hgen, symmetric_of_flagsMatch ?_⟩
    rw [hw, hh]; exact hf

theorem wall_symmetry_invariant_witness :
    sampleMaze.WF ∧
    ((∃ m0, Maze.new sampleMaze.width sampleMaze.height = some m0 ∧ m0.Symmetric) ∧
     sampleMaze.reset.Symmetric ∧
     ∃ m1, sampleMaze.generateMaze id List.reverse 2 = some m1 ∧ m1.Symmetric) :=
  ⟨by decide,
    wall_symmetry_invariant id List.reverse (fun l => List.Perm.refl l)
      (fun l => List.reverse_perm l) sampleMaze (by decide) 2⟩

/-- C10. For every width and height at least 1 and every shuffle outcome,
`generateMaze` with `extraCycles = 0` yields a perfect maze: the removal log
holds exactly `W * H - 1` walls and any two in-bounds cells are joined by
exactly one simple walk (a walk of legal moves that repeats no cell). -/
theorem perfect_maze_unique_path (shuffle1 shuffle2 : List Wall → List Wall)
    (hperm1 : ∀ l, (shuffle1 l).Perm l) (hperm2 : ∀ l, (shuffle2 l).Perm l)
    (m : Maze) (hm : m.WF) (hW : 1 ≤ m.width) (hH : 1 ≤ m.height) :
    ∃ m1, m.generateMaze shuffle1 shuffle2 0 = some m1 ∧
      (m1.wallRemovalOrder.length : Int) = m.width * m.height - 1 ∧
      ∀ a b, m1.InBounds a → m1.InBounds b → ∃! p, m1.IsWalk a b p ∧ p.Nodup := by
  obtain ⟨st, m1, _, hinv, hgen, hw, hh, _, hf, hlog, hwalls⟩ :=
    generateMaze_spec hperm1 hperm2 hm 0
  have hlog1 : m1.wallRemovalOrder = st.wallRemovalOrder := by
    rw [hlog]; simp
  rw [← hw, ← hh] at hf hwalls
  refine ⟨m1, hgen, ?_, ?_⟩
  · rw [hlog1]
    exact tree_count hW hH hinv (all_walls_processed hperm1 _ _)
  · intro a b ha hb
    unfold Maze.InBounds at ha hb
    rw [hw, hh] at ha hb
    have hreach := tree_spanning hinv (all_walls_processed hperm1 _ _) ha hb
    rw [← hlog1] at hreach
    have hacyc : (wallGraph m1.wallRemovalOrder).IsAcyclic := by
      rw [hlog1]; exact hinv.acyclic
    obtain ⟨p, h1, h2, h3, h4⟩ := exists_list_of_reachable hreach
    refine ⟨p, ⟨⟨h1, h2, h3.imp (fun _ _ hcd => (move_iff_adj hf hwalls _ _).2 hcd)⟩, h4⟩, ?_⟩
    rintro q ⟨⟨g1, g2, g3⟩, g4⟩
    obtain ⟨wp, hwp⟩ := exists_walk_of_list p a b h1 h2 h3
    obtain ⟨wq, hwq⟩ := exists_walk_of_list q a b g1 g2
      (g3.imp (fun _ _ hcd => (move_iff_adj hf hwalls _ _).1 hcd))
    have hpp : wp.IsPath := (SimpleGraph.Walk.isPath_def wp).2 (hwp ▸ h4)
    have hqp : wq.IsPath := (SimpleGraph.Walk.isPath_def wq).2 (hwq ▸ g4)
    have heq := hacyc.path_unique ⟨wq, hqp⟩ ⟨wp, hpp⟩
    rw [← hwp, ← hwq]
    exact congrArg (fun z => z.1.support) heq

theorem perfect_maze_unique_path_witness :
    sampleMaze.WF ∧ 1 ≤ sampleMaze.width ∧ 1 ≤ sampleMaze.height ∧
    ∃ m1, sampleMaze.generateMaze List.reverse List.reverse 0 = some m1 ∧
      (m1.wallRemovalOrder.length : Int) = sampleMaze.width * sampleMaze.height - 1 ∧
      ∀ a b, m1.InBounds a → m1.InBounds b → ∃! p, m1.IsWalk a b p ∧ p.Nodup :=
  ⟨by decide, by decide, by decide,
    perfect_maze_unique_path List.reverse List.reverse (fun l => List.reverse_perm l)
      (fun l => List.reverse_perm l) sampleMaze (by decide) (by decide) (by decide)⟩


/-! ## The searches: the claims -/

/-- C5. For every maze state and every in-bounds start and end, `solveBFS`
returns, and when it reports `found` its path is a shortest one: it is a walk
from start to end through the neighbour relation of `getNeighbors`, and no
such walk has fewer edges than `path.size() - 1`. -/
theorem solveBFS_path_shortest (pf : PathFinder) (hwf : pf.WF) :
    ∃ r, pf.solveBFS = some r ∧
      (r.found = true →
        pf.IsRoute pf.start pf.goal r.path ∧
        ∀ w, pf.IsRoute pf.start pf.goal w → edgeCount r.path ≤ edgeCount w) := by
  obtain ⟨r, hrun, hout⟩ := (solve_spec pf hwf).1
  refine ⟨r, hrun, fun hf => ⟨outcome_route hout hf, fun w hw => ?_⟩⟩
  have := outcome_bfs_shortest hout hf w hw
  unfold edgeCount
  omega

theorem solveBFS_path_shortest_witness :
    sampleFinder.WF ∧
    ∃ r, sampleFinder.solveBFS = some r ∧
      (r.found = true →
        sampleFinder.IsRoute sampleFinder.start sampleFinder.goal r.path ∧
        ∀ w, sampleFinder.IsRoute sampleFinder.start sampleFinder.goal w →
          edgeCount r.path ≤ edgeCount w) :=
  ⟨by decide, solveBFS_path_shortest sampleFinder (by decide)⟩

/-- C6. For every maze state and every in-bounds start and end, when
`solveBFS` or `solveDFS` reports `found` the returned path is a valid route:
it starts at start, ends at end, and each cell is followed by a member of its
`getNeighbors` list. -/
theorem found_path_is_route (pf : PathFinder) (hwf : pf.WF) :
    (∃ r, pf.solveBFS = some r ∧
      (r.found = true → r.path.head? = some pf.start ∧ r.path.getLast? = some pf.goal ∧
        r.path.Chain' (fun a b => b ∈ pf.getNeighbors a.1 a.2))) ∧
    (∃ r, pf.solveDFS = some r ∧
      (r.found = true → r.path.head? = some pf.start ∧ r.path.getLast? = some pf.goal ∧
        r.path.Chain' (fun a b => b ∈ pf.getNeighbors a.1 a.2))) := by
  obtain ⟨⟨r1, hrun1, hout1⟩, ⟨r2, hrun2, hout2⟩⟩ := solve_spec pf hwf
  exact ⟨⟨r1, hrun1, fun hf => outcome_route hout1 hf⟩, ⟨r2, hrun2, fun hf => outcome_route hout2 hf⟩⟩

theorem found_path_is_route_witness :
    sampleFinder.WF ∧
    ((∃ r, sampleFinder.solveBFS = some r ∧
      (r.found = true → r.path.head? = some sampleFinder.start ∧
        r.path.getLast? = some sampleFinder.goal ∧
        r.path.Chain' (fun a b => b ∈ sampleFinder.getNeighbors a.1 a.2))) ∧
    (∃ r, sampleFinder.solveDFS = some r ∧
      (r.found = true → r.path.head? = some sampleFinder.start ∧
        r.path.getLast? = some sampleFinder.goal ∧
        r.path.Chain' (fun a b => b ∈ sampleFinder.getNeighbors a.1 a.2)))) :=
  ⟨by decide, found_path_is_route sampleFinder (by decide)⟩

/-- C7. For every maze state and every in-bounds start and end, `solveBFS`
and `solveDFS` each return, with `found = true` exactly when end is reachable
from start through the neighbour relation; with `found = false` the path is
empty and `explored` holds exactly the cells reachable from start. -/
theorem found_iff_reachable (pf : PathFinder) (hwf : pf.WF) :
    (∃ r, pf.solveBFS = some r ∧
      (r.found = true ↔ pf.Reachable pf.start pf.goal) ∧
      (r.found = false → r.path = [] ∧ ∀ c, c ∈ r.explored ↔ pf.Reachable pf.start c)) ∧
    (∃ r, pf.solveDFS = some r ∧
      (r.found = true ↔ pf.Reachable pf.start pf.goal) ∧
      (r.found = false → r.path = [] ∧ ∀ c, c ∈ r.explored ↔ pf.Reachable pf.start c)) := by
  obtain ⟨⟨r1, hrun1, hout1⟩, ⟨r2, hrun2, hout2⟩⟩ := solve_spec pf hwf
  refine ⟨⟨r1, hrun1, outcome_found_iff hout1, fun hf => ?_⟩,
    ⟨r2, hrun2, outcome_found_iff hout2, fun hf => ?_⟩⟩
  · exact ⟨(outcome_not_found hout1 hf).1, (outcome_not_found hout1 hf).2.1⟩
  · exact ⟨(outcome_not_found hout2 hf).1, (outcome_not_found hout2 hf).2.1⟩

theorem found_iff_reachable_witness :
    sampleFinder.WF ∧
    ((∃ r, sampleFinder.solveBFS = some r ∧
      (r.found = true ↔ sampleFinder.Reachable sampleFinder.start sampleFinder.goal) ∧
      (r.found = false → r.path = [] ∧
        ∀ c, c ∈ r.explored ↔ sampleFinder.Reachable sampleFinder.start c)) ∧
    (∃ r, sampleFinder.solveDFS = some r ∧
      (r.found = true ↔ sampleFinder.Reachable sampleFinder.start sampleFinder.goal) ∧
      (r.found = false → r.path = [] ∧
        ∀ c, c ∈ r.explored ↔ sampleFinder.Reachable sampleFinder.start c))) :=
  ⟨by decide, found_iff_reachable sampleFinder (by decide)⟩

/-- C8. For every maze state and every in-bounds start and end, both searches
return, and when both report `found` the path of `solveBFS` has at most as
many edges as the path of `solveDFS`. -/
theorem bfs_path_le_dfs_path (pf : PathFinder) (hwf : pf.WF) :
    ∃ rb rd, pf.solveBFS = some rb ∧ pf.solveDFS = some rd ∧
      (rb.found = true → rd.found = true → edgeCount rb.path ≤ edgeCount rd.path) := by
  obtain ⟨⟨r1, hrun1, hout1⟩, ⟨r2, hrun2, hout2⟩⟩ := solve_spec pf hwf
  refine ⟨r1, r2, hrun1, hrun2, fun hf1 hf2 => ?_⟩
  have := outcome_bfs_shortest hout1 hf1 r2.path (outcome_route hout2 hf2)
  unfold edgeCount
  omega

theorem bfs_path_le_dfs_path_witness :
    sampleFinder.WF ∧
    ∃ rb rd, sampleFinder.solveBFS = some rb ∧ sampleFinder.solveDFS = some rd ∧
      (rb.found = true → rd.found = true → edgeCount rb.path ≤ edgeCount rd.path) :=
  ⟨by decide, bfs_path_le_dfs_path sampleFinder (by decide)⟩

/-- C9. For every `W × H` maze state and every in-bounds start and end, each
search completes within `W * H` iterations of its main loop, and its result
satisfies `stepsCount ≤ explored.size() ≤ W * H`. -/
theorem steps_le_explored_le_cells (pf : PathFinder) (hwf : pf.WF) :
    (∃ r, searchLoop pf false (pf.maze.width * pf.maze.height).toNat (initialState pf) = some r ∧
      pf.solveBFS = some r ∧ r.stepsCount ≤ r.explored.length ∧
      (r.explored.length : Int) ≤ pf.maze.width * pf.maze.height) ∧
    (∃ r, searchLoop pf true (pf.maze.width * pf.maze.height).toNat (initialState pf) = some r ∧
      pf.solveDFS = some r ∧ r.stepsCount ≤ r.explored.length ∧
      (r.explored.length : Int) ≤ pf.maze.width * pf.maze.height) := by
  obtain ⟨⟨r1, hrun1, hout1⟩, ⟨r2, hrun2, hout2⟩⟩ := solve_spec pf hwf
  have hpos : 0 ≤ pf.maze.width * pf.maze.height := Int.mul_nonneg hwf.1.1 hwf.1.2.1
  have h1 := outcome_counts hout1
  have h2 := outcome_counts hout2
  refine ⟨⟨r1, hrun1, hrun1, h1.1, ?_⟩, ⟨r2, hrun2, hrun2, h2.1, ?_⟩⟩
  · have := h1.2.1; omega
  · have := h2.2.1; omega

theorem steps_le_explored_le_cells_witness :
    sampleFinder.WF ∧
    ((∃ r, searchLoop sampleFinder false
        (sampleFinder.maze.width * sampleFinder.maze.height).toNat (initialState sampleFinder)
          = some r ∧
      sampleFinder.solveBFS = some r ∧ r.stepsCount ≤ r.explored.length ∧
      (r.explored.length : Int) ≤ sampleFinder.maze.width * sampleFinder.maze.height) ∧
    (∃ r, searchLoop sampleFinder true
        (sampleFinder.maze.width * sampleFinder.maze.height).toNat (initialState sampleFinder)
          = some r ∧
      sampleFinder.solveDFS = some r ∧ r.stepsCount ≤ r.explored.length ∧
      (r.explored.length : Int) ≤ sampleFinder.maze.width * sampleFinder.maze.height)) :=
  ⟨by decide, steps_le_explored_le_cells sampleFinder (by decide)⟩


/-! ## Maze state and degenerate inputs: the claims -/

/-- C11. For every maze state and every in-bounds coordinate `c`, solving with
start = end = `c` returns `found = true`, `path = [c]`, `stepsCount = 1` and
`explored = [c]`, with `solveBFS` and with `solveDFS`. -/
theorem solve_start_eq_end (m : Maze) (_hm : m.WF) (c : Int × Int) (hc : m.InBounds c) :
    (PathFinder.mk m c.1 c.2 c.1 c.2).solveBFS = some ⟨[c], [c], 1, true⟩ ∧
    (PathFinder.mk m c.1 c.2 c.1 c.2).solveDFS = some ⟨[c], [c], 1, true⟩ :=
  ⟨searchLoop_start_eq_goal ⟨m, c.1, c.2, c.1, c.2⟩ false hc rfl,
   searchLoop_start_eq_goal ⟨m, c.1, c.2, c.1, c.2⟩ true hc rfl⟩

theorem solve_start_eq_end_witness :
    sampleMaze.WF ∧ sampleMaze.InBounds (2, 1) ∧
    (PathFinder.mk sampleMaze 2 1 2 1).solveBFS = some ⟨[(2, 1)], [(2, 1)], 1, true⟩ ∧
    (PathFinder.mk sampleMaze 2 1 2 1).solveDFS = some ⟨[(2, 1)], [(2, 1)], 1, true⟩ :=
  ⟨by decide, by decide, solve_start_eq_end sampleMaze (by decide) (2, 1) (by decide)⟩

/-- C13, as stated, fails: the constructor has no dimension check, and
`Maze(0, 1)` is built: a maze object of width 0 and height 1 whose grid is one
empty row. -/
theorem maze_new_zero_width_succeeds :
    (0 : Int) ≤ 0 ∧ Maze.new 0 1 = some ⟨0, 1, [[]], []⟩ := by
  constructor
  · decide
  · rfl

/-- C13, amended. The constructor has no `InvalidDimension` check. With a
negative width or height no maze object is produced (the vector allocation
throws); with width and height non-negative, zero included, construction
succeeds and yields a well-formed maze of `height` rows of `width` fully
walled cells, which has no cell at all when either is zero. -/
theorem maze_new_spec (w h : Int) :
    ((w < 0 ∨ h < 0) → Maze.new w h = none) ∧
    (0 ≤ w → 0 ≤ h →
      ∃ m, Maze.new w h = some m ∧ m.WF ∧ m.width = w ∧ m.height = h ∧
        m.wallRemovalOrder = [] ∧
        m.grid = List.replicate h.toNat (List.replicate w.toNat Cell.default) ∧
        ((w = 0 ∨ h = 0) → ∀ c, ¬ m.InBounds c)) := by
  constructor
  · intro hneg
    unfold Maze.new
    rw [if_pos hneg]
  · intro hw hh
    refine ⟨_, maze_new_of_nonneg hw hh, ⟨hw, hh, tableDims_replicate Cell.default⟩, rfl, rfl,
      rfl, rfl, ?_⟩
    intro hz c hc
    obtain ⟨c1, c2, c3, c4⟩ := hc
    simp only at c2 c4
    omega

theorem maze_new_spec_witness :
    Maze.new (-1) 3 = none ∧
    ∃ m, Maze.new 0 3 = some m ∧ m.WF ∧ m.width = 0 ∧ m.height = 3 ∧
      m.wallRemovalOrder = [] ∧
      m.grid = List.replicate (3 : Int).toNat (List.replicate (0 : Int).toNat Cell.default) ∧
      (((0 : Int) = 0 ∨ (3 : Int) = 0) → ∀ c, ¬ m.InBounds c) :=
  ⟨(maze_new_spec (-1) 3).1 (Or.inl (by decide)), (maze_new_spec 0 3).2 (by decide) (by decide)⟩

/-- C14, as stated, fails: no bounds check exists. With the end coordinate
(5,5) outside a 2 × 2 maze, `solveBFS` runs the whole search and returns a
`PathResult` with four explored cells. -/
theorem solve_end_outside_returns :
    ¬ sampleFinderOutside.maze.InBounds sampleFinderOutside.goal ∧
    sampleFinderOutside.solveBFS = some ⟨[], [(0, 0), (1, 0), (1, 1), (0, 1)], 4, false⟩ := by
  constructor
  · decide
  · rfl

/-- C14, amended. For every maze state and in-bounds start, a solve whose end
coordinate lies outside the grid does not fail: `solveBFS` and `solveDFS` run
to completion and return `found = false` with an empty path, with `explored`
holding exactly the cells reachable from start and `stepsCount` equal to
their number. -/
theorem solve_end_outside (pf : PathFinder) (_hm : pf.maze.WF)
    (hs : pf.maze.InBounds pf.start) (hg : ¬ pf.maze.InBounds pf.goal) :
    (∃ r, pf.solveBFS = some r ∧ r.found = false ∧ r.path = [] ∧
      (∀ c, c ∈ r.explored ↔ pf.Reachable pf.start c) ∧ r.stepsCount = r.explored.length) ∧
    (∃ r, pf.solveDFS = some r ∧ r.found = false ∧ r.path = [] ∧
      (∀ c, c ∈ r.explored ↔ pf.Reachable pf.start c) ∧ r.stepsCount = r.explored.length) := by
  obtain ⟨⟨r1, hrun1, hout1⟩, ⟨r2, hrun2, hout2⟩⟩ := solve_spec_of_start pf hs
  exact ⟨⟨r1, hrun1, outcome_end_outside hout1 hg⟩, ⟨r2, hrun2, outcome_end_outside hout2 hg⟩⟩

theorem solve_end_outside_witness :
    sampleFinderOutside.maze.WF ∧ sampleFinderOutside.maze.InBounds sampleFinderOutside.start ∧
    ¬ sampleFinderOutside.maze.InBounds sampleFinderOutside.goal ∧
    ((∃ r, sampleFinderOutside.solveBFS = some r ∧ r.found = false ∧ r.path = [] ∧
      (∀ c, c ∈ r.explored ↔ sampleFinderOutside.Reachable sampleFinderOutside.start c) ∧
      r.stepsCount = r.explored.length) ∧
    (∃ r, sampleFinderOutside.solveDFS = some r ∧ r.found = false ∧ r.path = [] ∧
      (∀ c, c ∈ r.explored ↔ sampleFinderOutside.Reachable sampleFinderOutside.start c) ∧
      r.stepsCount = r.explored.length)) :=
  ⟨by decide, by decide, by decide,
    solve_end_outside sampleFinderOutside (by decide) (by decide) (by decide)⟩

/-- C15. For every maze state and all integers `x`, `y`: `getCell(x,y)` is the
stored cell at row `y`, column `x` when `0 ≤ x < W` and `0 ≤ y < H`, and
otherwise a cell with all four wall flags true; it is a total function. -/
theorem getCell_spec (m : Maze) (x y : Int) :
    ((0 ≤ x ∧ x < m.width ∧ 0 ≤ y ∧ y < m.height) →
      m.getCell x y = cellAt m.grid x y ∧
      (m.WF → (m.grid[y.toNat]?).bind (fun row => row[x.toNat]?) = some (m.getCell x y))) ∧
    (¬ (0 ≤ x ∧ x < m.width ∧ 0 ≤ y ∧ y < m.height) →
      m.getCell x y = ⟨true, true, true, true⟩) := by
  constructor
  · intro hin
    have hget : m.getCell x y = cellAt m.grid x y := getCell_of_inBounds m hin
    refine ⟨hget, fun hm => ?_⟩
    rw [hget]
    exact cellAt_eq_stored hm.2.2 hin.1 hin.2.1 hin.2.2.1 hin.2.2.2
  · intro hout
    unfold Maze.getCell
    rw [if_neg (by omega)]
    rfl

theorem getCell_spec_witness :
    (sampleFinder.maze.getCell 1 0 = cellAt sampleFinder.maze.grid 1 0 ∧
      (sampleFinder.maze.WF →
        (sampleFinder.maze.grid[(0 : Int).toNat]?).bind (fun row => row[(1 : Int).toNat]?) =
          some (sampleFinder.maze.getCell 1 0))) ∧
    sampleFinder.maze.getCell 7 0 = ⟨true, true, true, true⟩ :=
  ⟨(getCell_spec sampleFinder.maze 1 0).1 (by decide),
   (getCell_spec sampleFinder.maze 7 0).2 (by decide)⟩

/-- C16. For every maze state and all integers `x`, `y`: `hasWall(x,y,d)` is
the top (0), right (1), bottom (2) or left (3) flag of `getCell(x,y)`; for an
out-of-range `(x,y)` it is `true` for every direction; it is a total
function. -/
theorem hasWall_spec (m : Maze) (x y : Int) :
    m.hasWall x y 0 = (m.getCell x y).top ∧
    m.hasWall x y 1 = (m.getCell x y).right ∧
    m.hasWall x y 2 = (m.getCell x y).bottom ∧
    m.hasWall x y 3 = (m.getCell x y).left ∧
    (¬ m.InBounds (x, y) → ∀ d, m.hasWall x y d = true) := by
  by_cases hin : m.InBounds (x, y)
  · obtain ⟨t0, t1, t2, t3⟩ := hasWall_of_inBounds m hin
    rw [getCell_of_inBounds m hin]
    exact ⟨t0, t1, t2, t3, fun h => absurd hin h⟩
  · have hout : x < 0 ∨ x ≥ m.width ∨ y < 0 ∨ y ≥ m.height := by
      unfold Maze.InBounds InGrid at hin
      simp only at hin
      omega
    have hw : ∀ d, m.hasWall x y d = true := by
      intro d
      unfold Maze.hasWall
      rw [if_pos hout]
    have hc : m.getCell x y = Cell.default := by
      unfold Maze.getCell
      rw [if_neg (by omega)]
    rw [hc]
    exact ⟨hw 0, hw 1, hw 2, hw 3, fun _ => hw⟩

theorem hasWall_spec_witness :
    sampleFinder.maze.hasWall 9 0 0 = (sampleFinder.maze.getCell 9 0).top ∧
    sampleFinder.maze.hasWall 9 0 1 = (sampleFinder.maze.getCell 9 0).right ∧
    sampleFinder.maze.hasWall 9 0 2 = (sampleFinder.maze.getCell 9 0).bottom ∧
    sampleFinder.maze.hasWall 9 0 3 = (sampleFinder.maze.getCell 9 0).left ∧
    (¬ sampleFinder.maze.InBounds (9, 0) → ∀ d, sampleFinder.maze.hasWall 9 0 d = true) :=
  hasWall_spec sampleFinder.maze 9 0

/-- C17. For every maze state of dimensions `W × H`, `reset` keeps width and
height, empties the removal log and makes every cell fully walled: the state
after `reset` is the state of a freshly constructed `Maze(W, H)`. This
includes a state left by `generateMaze`. -/
theorem reset_restores_fresh (m : Maze) (hm : m.WF) :
    m.reset.width = m.width ∧ m.reset.height = m.height ∧ m.reset.wallRemovalOrder = [] ∧
    (∀ x y, m.InBounds (x, y) → m.reset.getCell x y = ⟨true, true, true, true⟩) ∧
    Maze.new m.width m.height = some m.reset ∧
    (∀ (shuffle1 shuffle2 : List Wall → List Wall) (extraCycles : Int) (m1 : Maze),
      (∀ l, (shuffle1 l).Perm l) → (∀ l, (shuffle2 l).Perm l) →
      m.generateMaze shuffle1 shuffle2 extraCycles = some m1 →
      Maze.new m.width m.height = some m1.reset) := by
  obtain ⟨hW, hH, hg⟩ := hm
  refine ⟨rfl, rfl, rfl, ?_, ?_, ?_⟩
  · intro x y hin
    rw [getCell_of_inBounds m.reset hin]
    exact (clearGrid_spec hW hg).2 x y hin.1 hin.2.1 hin.2.2.1 hin.2.2.2
  · rw [maze_new_of_nonneg hW hH]
    unfold Maze.reset
    rw [clearGrid_eq hW hg]
  · intro shuffle1 shuffle2 extraCycles m1 hp1 hp2 hgen
    obtain ⟨_, m2, _, _, hgen2, hw2, hh2, hg2, _⟩ :=
      generateMaze_spec hp1 hp2 ⟨hW, hH, hg⟩ extraCycles
    rw [hgen] at hgen2
    cases hgen2
    rw [maze_new_of_nonneg hW hH]
    unfold Maze.reset
    rw [hw2, hh2, clearGrid_eq hW hg2]

theorem reset_restores_fresh_witness :
    sampleFinder.maze.WF ∧
    (sampleFinder.maze.reset.width = sampleFinder.maze.width ∧
     sampleFinder.maze.reset.height = sampleFinder.maze.height ∧
     sampleFinder.maze.reset.wallRemovalOrder = [] ∧
     (∀ x y, sampleFinder.maze.InBounds (x, y) →
       sampleFinder.maze.reset.getCell x y = ⟨true, true, true, true⟩) ∧
     Maze.new sampleFinder.maze.width sampleFinder.maze.height = some sampleFinder.maze.reset ∧
     (∀ (shuffle1 shuffle2 : List Wall → List Wall) (extraCycles : Int) (m1 : Maze),
       (∀ l, (shuffle1 l).Perm l) → (∀ l, (shuffle2 l).Perm l) →
       sampleFinder.maze.generateMaze shuffle1 shuffle2 extraCycles = some m1 →
       Maze.new sampleFinder.maze.width sampleFinder.maze.height = some m1.reset)) :=
  ⟨by decide, reset_restores_fresh sampleFinder.maze (by decide)⟩


/-! ## Disjoint sets: the claims -/

/-- C18. In every union-find state reachable from `UnionFind(n)` and for all
valid `x`, `y`: `unite(x,y)` returns `true` exactly when `connected(x,y)`
returned `false` before the call; afterwards `connected(x,y)` holds, and
`connected(a,c)` holds afterwards iff it held before or one of `a`, `c` was in
the set of `x` and the other in the set of `y`; when `unite` returns `false`
the partition is unchanged. -/
theorem unite_merges_sets (n : Nat) (uf : UnionFind) (hr : uf.Reachable n) (x y : Nat)
    (hx : x < n) (hy : y < n) :
    ∃ b uf1 uf0, uf.unite x y = some (b, uf1) ∧ uf.connected x y = some (!b, uf0) ∧
      uf1.Connected x y ∧
      (∀ a c, a < n → c < n →
        (uf1.Connected a c ↔
          uf.Connected a c ∨ (uf.Connected a x ∧ uf.Connected c y) ∨
            (uf.Connected a y ∧ uf.Connected c x))) ∧
      (b = false → ∀ a c, a < n → c < n → (uf1.Connected a c ↔ uf.Connected a c)) := by
  have hinv := reachable_inv hr
  obtain ⟨b, uf1, hun, hinv1, hb, hmono, hchar, hxy, _⟩ := unite_spec hinv hx hy
  obtain ⟨c0, uf0, hcon, _, hc0, _⟩ := connected_spec hinv hx hy
  have hc0b : c0 = !b := by
    cases b <;> cases c0 <;> simp_all
  have hiff : ∀ a c, a < n → c < n →
      (uf1.Same a c ↔ uf.Same a c ∨ (uf.Same a x ∧ uf.Same c y) ∨ (uf.Same a y ∧ uf.Same c x)) := by
    intro a c _ _
    constructor
    · intro h
      rcases hchar a c h with h1 | ⟨h1, h2⟩ | ⟨h1, h2⟩
      · exact Or.inl h1
      · exact Or.inr (Or.inl ⟨h1, h2.symm⟩)
      · exact Or.inr (Or.inr ⟨h1, h2.symm⟩)
    · rintro (h1 | ⟨h1, h2⟩ | ⟨h1, h2⟩)
      · exact hmono a c h1
      · exact ((hmono _ _ h1).trans hxy).trans (hmono _ _ h2.symm)
      · exact ((hmono _ _ h1).trans hxy.symm).trans (hmono _ _ h2.symm)
  refine ⟨b, uf1, uf0, hun, hc0b ▸ hcon, (connected_iff_same hinv1 hx hy).2 hxy, ?_, ?_⟩
  · intro a c ha hc
    rw [connected_iff_same hinv1 ha hc, connected_iff_same hinv ha hc,
      connected_iff_same hinv ha hx, connected_iff_same hinv hc hy,
      connected_iff_same hinv ha hy, connected_iff_same hinv hc hx]
    exact hiff a c ha hc
  · intro hbf a c ha hc
    rw [connected_iff_same hinv1 ha hc, connected_iff_same hinv ha hc]
    have hsame : uf.Same x y := by
      by_contra hns
      have := hb.2 hns
      rw [hbf] at this
      exact absurd this (by simp)
    constructor
    · intro h
      rcases (hiff a c ha hc).1 h with h1 | ⟨h1, h2⟩ | ⟨h1, h2⟩
      · exact h1
      · exact (h1.trans hsame).trans h2.symm
      · exact (h1.trans hsame.symm).trans h2.symm
    · exact hmono a c

theorem unite_merges_sets_witness :
    (1 : Nat) < 3 ∧ (2 : Nat) < 3 ∧
    ∃ b uf1 uf0, (UnionFind.new (3 : Nat)).unite 1 2 = some (b, uf1) ∧
      (UnionFind.new (3 : Nat)).connected 1 2 = some (!b, uf0) ∧
      uf1.Connected 1 2 ∧
      (∀ a c, a < 3 → c < 3 →
        (uf1.Connected a c ↔
          (UnionFind.new (3 : Nat)).Connected a c ∨
            ((UnionFind.new (3 : Nat)).Connected a 1 ∧ (UnionFind.new (3 : Nat)).Connected c 2) ∨
            ((UnionFind.new (3 : Nat)).Connected a 2 ∧ (UnionFind.new (3 : Nat)).Connected c 1))) ∧
      (b = false → ∀ a c, a < 3 → c < 3 →
        (uf1.Connected a c ↔ (UnionFind.new (3 : Nat)).Connected a c)) :=
  ⟨by decide, by decide,
    unite_merges_sets 3 (UnionFind.new (3 : Nat)) UnionFind.Reachable.new 1 2 (by decide)
      (by decide)⟩

/-- C19. In every union-find state reachable from `UnionFind(n)` (where
initially `find(i) = i` for every `i < n`) and for every valid `x`: `find(x)`
returns a root `r` (its own parent, in the set of `x`); every member of that
set gets the same `r` from `find`, whether it is asked before or after `x`;
`find` changes no element's representative and no rank; and a second
`find(x)` returns `r` and leaves both vectors unchanged. -/
theorem find_returns_representative (n : Nat) (uf : UnionFind) (hr : uf.Reachable n) (x : Nat)
    (hx : x < n) :
    ∃ r uf1, uf.find x = some (r, uf1) ∧
      r < n ∧ uf.parent.getD r 0 = r ∧ uf1.parent.getD r 0 = r ∧ uf.Connected x r ∧
      (∀ y, y < n → uf.Connected x y →
        (∃ u, uf1.find y = some (r, u)) ∧
        (∃ u v, uf.find y = some (r, u) ∧ u.find x = some (r, v))) ∧
      (∀ y s, y < n → ((∃ u, uf1.find y = some (s, u)) ↔ (∃ u, uf.find y = some (s, u)))) ∧
      uf1.rank = uf.rank ∧
      uf1.find x = some (r, uf1) ∧
      (∀ i, i < n → (UnionFind.new n).find i = some (i, UnionFind.new n)) := by
  have hinv := reachable_inv hr
  obtain ⟨r, uf1, hf, hroot, hinv1, hrank, hroots, _⟩ := find_spec hinv hx
  have hrn : r < n := hinv.parent_length ▸ hroot.root_lt
  refine ⟨r, uf1, hf, hrn, hroot.root_self, ((hroots r r).2 hroot.root_root).root_self,
    (connected_iff_same hinv hx hrn).2 ⟨r, hroot, hroot.root_root⟩, ?_, ?_, hrank,
    find_idempotent hinv hx hf, new_find n⟩
  · intro y hy hcon
    obtain ⟨s, hxs, hys⟩ := (connected_iff_same hinv hx hy).1 hcon
    have hsr : s = r := hxs.unique hroot
    subst hsr
    refine ⟨(find_returns_iff hinv1 hy s).2 ((hroots y s).2 hys), ?_⟩
    obtain ⟨r2, u, hfy, hroot2, hinvu, _, hrootsu, _⟩ := find_spec hinv hy
    have h2 : r2 = s := hroot2.unique hys
    subst h2
    obtain ⟨v, hv⟩ := (find_returns_iff hinvu hx r2).2 ((hrootsu x r2).2 hroot)
    exact ⟨u, v, hfy, hv⟩
  · intro y s hy
    rw [find_returns_iff hinv1 hy s, find_returns_iff hinv hy s]
    exact hroots y s

theorem find_returns_representative_witness :
    (2 : Nat) < 3 ∧
    ∃ r uf1, (UnionFind.new (3 : Nat)).find 2 = some (r, uf1) ∧
      r < 3 ∧ (UnionFind.new (3 : Nat)).parent.getD r 0 = r ∧ uf1.parent.getD r 0 = r ∧
      (UnionFind.new (3 : Nat)).Connected 2 r ∧
      (∀ y, y < 3 → (UnionFind.new (3 : Nat)).Connected 2 y →
        (∃ u, uf1.find y = some (r, u)) ∧
        (∃ u v, (UnionFind.new (3 : Nat)).find y = some (r, u) ∧ u.find 2 = some (r, v))) ∧
      (∀ y s, y < 3 →
        ((∃ u, uf1.find y = some (s, u)) ↔ (∃ u, (UnionFind.new (3 : Nat)).find y = some (s, u)))) ∧
      uf1.rank = (UnionFind.new (3 : Nat)).rank ∧
      uf1.find 2 = some (r, uf1) ∧
      (∀ i, i < 3 → (UnionFind.new (3 : Nat)).find i = some (i, UnionFind.new (3 : Nat))) :=
  ⟨by decide,
    find_returns_representative 3 (UnionFind.new (3 : Nat)) UnionFind.Reachable.new 2 (by decide)⟩


/-! ## The candidate walls and the 2 × 1 maze: the claims -/

/-- C12. For a maze of width 2 and height 1, for every `extraCycles` (in
particular every one that is at least 0) and every shuffle outcome,
`generateMaze` opens exactly one wall (the removal log has length 1), and on
the result `solveBFS` and `solveDFS` from (0,0) to (1,0) both return
`found = true`, `path = [(0,0),(1,0)]` and `stepsCount = 2`. -/
theorem two_by_one_maze (shuffle1 shuffle2 : List Wall → List Wall)
    (hperm1 : ∀ l, (shuffle1 l).Perm l) (hperm2 : ∀ l, (shuffle2 l).Perm l)
    (m : Maze) (hm : m.WF) (hw : m.width = 2) (hh : m.height = 1) (extraCycles : Int) :
    ∃ m1, m.generateMaze shuffle1 shuffle2 extraCycles = some m1 ∧
      m1.wallRemovalOrder.length = 1 ∧
      (PathFinder.mk m1 0 0 1 0).solveBFS = some ⟨[(0, 0), (1, 0)], [(0, 0), (1, 0)], 2, true⟩ ∧
      (PathFinder.mk m1 0 0 1 0).solveDFS = some ⟨[(0, 0), (1, 0)], [(0, 0), (1, 0)], 2, true⟩ :=
  ⟨_, generateMaze_two_by_one hperm1 hperm2 hm hw hh extraCycles, rfl, rfl, rfl⟩

theorem two_by_one_maze_witness :
    (Maze.mk 2 1 [[Cell.default, Cell.default]] []).WF ∧
    (Maze.mk 2 1 [[Cell.default, Cell.default]] []).width = 2 ∧
    (Maze.mk 2 1 [[Cell.default, Cell.default]] []).height = 1 ∧
    ∃ m1, (Maze.mk 2 1 [[Cell.default, Cell.default]] []).generateMaze id List.reverse 3
        = some m1 ∧
      m1.wallRemovalOrder.length = 1 ∧
      (PathFinder.mk m1 0 0 1 0).solveBFS = some ⟨[(0, 0), (1, 0)], [(0, 0), (1, 0)], 2, true⟩ ∧
      (PathFinder.mk m1 0 0 1 0).solveDFS = some ⟨[(0, 0), (1, 0)], [(0, 0), (1, 0)], 2, true⟩ :=
  ⟨by decide, rfl, rfl,
    two_by_one_maze id List.reverse (fun l => List.Perm.refl l) (fun l => List.reverse_perm l)
      (Maze.mk 2 1 [[Cell.default, Cell.default]] []) (by decide) rfl rfl 3⟩

/-- C20. For every width and height at least 1, the candidate wall list that
`generateMaze` builds before shuffling has length `W*(H-1) + H*(W-1)`, every
entry joins two in-bounds cells that differ by exactly 1 in exactly one
coordinate, and every unordered pair of 4-adjacent in-bounds cells is joined
by exactly one entry. -/
theorem allWalls_enumerates_edges (W H : Int) (hW : 1 ≤ W) (hH : 1 ≤ H) :
    ((allWalls W H).length : Int) = W * (H - 1) + H * (W - 1) ∧
    (∀ w, w ∈ allWalls W H → InGrid W H w.fst ∧ InGrid W H w.snd ∧ Adjacent4 w.fst w.snd) ∧
    (∀ a b, InGrid W H a → InGrid W H b → Adjacent4 a b →
      (allWalls W H).countP (fun w => decide (w.Joins a b)) = 1) := by
  refine ⟨?_, ?_, ?_⟩
  · rw [allWalls_length_nat]
    push_cast
    rw [Int.toNat_of_nonneg (by omega : 0 ≤ H - 1), Int.toNat_of_nonneg (by omega : 0 ≤ W),
      Int.toNat_of_nonneg (by omega : 0 ≤ H), Int.toNat_of_nonneg (by omega : 0 ≤ W - 1)]
    ring
  · intro w hw
    have hgw := mem_allWalls.1 hw
    exact ⟨hgw.fst_in, hgw.snd_in, hgw.adjacent⟩
  · intro a b ha hb hadj
    exact allWalls_joins_once ha hb hadj

theorem allWalls_enumerates_edges_witness :
    (1 : Int) ≤ 3 ∧ (1 : Int) ≤ 2 ∧
    (((allWalls 3 2).length : Int) = 3 * (2 - 1) + 2 * (3 - 1) ∧
    (∀ w, w ∈ allWalls 3 2 → InGrid 3 2 w.fst ∧ InGrid 3 2 w.snd ∧ Adjacent4 w.fst w.snd) ∧
    (∀ a b, InGrid 3 2 a → InGrid 3 2 b → Adjacent4 a b →
      (allWalls 3 2).countP (fun w => decide (w.Joins a b)) = 1)) :=
  ⟨by decide, by decide, allWalls_enumerates_edges 3 2 (by decide) (by decide)⟩


/-! ## Disjoint sets: path compression and ranks, the claims -/

/-- C22. In every reachable union-find state and for every valid `x`, after
`find(x)` returns the root `r`, every element that lay on the parent chain
from `x` up to `r` before the call (`x` and `r` included) has `r` as its direct
parent, while the parent of every element off that chain and every rank are
unchanged. -/
theorem find_compresses_chain (n : Nat) (uf : UnionFind) (hr : uf.Reachable n) (x : Nat)
    (hx : x < n) :
    ∃ r uf1, uf.find x = some (r, uf1) ∧ OnChain uf.parent x r ∧ uf.parent.getD r 0 = r ∧
      (∀ z, OnChain uf.parent x z → uf1.parent.getD z 0 = r) ∧
      (∀ z, ¬ OnChain uf.parent x z → uf1.parent.getD z 0 = uf.parent.getD z 0) ∧
      uf1.rank = uf.rank := by
  have hinv := reachable_inv hr
  obtain ⟨r, uf1, hf, hroot, _, hrank, _, _⟩ := find_spec hinv hx
  obtain ⟨hA, hB⟩ := findAux_frame _ uf x r uf1 hinv hx hf
  exact ⟨r, uf1, hf, hroot.onChain, hroot.root_self, hA, hB, hrank⟩

theorem find_compresses_chain_witness :
    sampleForest.Reachable 4 ∧ (3 : Nat) < 4 ∧
    ∃ r uf1, sampleForest.find 3 = some (r, uf1) ∧
      OnChain sampleForest.parent 3 r ∧
      sampleForest.parent.getD r 0 = r ∧
      (∀ z, OnChain sampleForest.parent 3 z → uf1.parent.getD z 0 = r) ∧
      (∀ z, ¬ OnChain sampleForest.parent 3 z →
        uf1.parent.getD z 0 = sampleForest.parent.getD z 0) ∧
      uf1.rank = sampleForest.rank :=
  ⟨sampleForest_reachable, by decide,
    find_compresses_chain 4 sampleForest sampleForest_reachable 3 (by decide)⟩

/-- C26. In every union-find state reachable from `UnionFind(n)`, every
non-root element has a rank strictly smaller than the rank of its parent
(`unite` puts the root of lower rank under the other and, on a tie, the root
of `y` under the root of `x`, whose rank grows by one); therefore the parent
links contain no cycle, and the recursive `find` returns on every valid
index, with a recursion depth of at most `n`. -/
theorem rank_increases_to_parent (n : Nat) (uf : UnionFind) (hr : uf.Reachable n) :
    (∀ x, x < n → uf.parent.getD x 0 ≠ x →
      uf.rank.getD x 0 < uf.rank.getD (uf.parent.getD x 0) 0) ∧
    (∀ x y uf1, x < n → y < n → uf.unite x y = some (true, uf1) →
      ∃ rx ry, RootOf uf.parent x rx ∧ RootOf uf.parent y ry ∧ rx ≠ ry ∧
        (uf.rank.getD rx 0 < uf.rank.getD ry 0 →
          uf1.parent.getD rx 0 = ry ∧ uf1.rank = uf.rank) ∧
        (uf.rank.getD ry 0 < uf.rank.getD rx 0 →
          uf1.parent.getD ry 0 = rx ∧ uf1.rank = uf.rank) ∧
        (uf.rank.getD rx 0 = uf.rank.getD ry 0 →
          uf1.parent.getD ry 0 = rx ∧ uf1.rank.getD rx 0 = uf.rank.getD rx 0 + 1 ∧
          ∀ z, z ≠ rx → uf1.rank.getD z 0 = uf.rank.getD z 0)) ∧
    (∀ x k, x < n → (fun z => uf.parent.getD z 0)^[k + 1] x = x → uf.parent.getD x 0 = x) ∧
    (∀ x, x < n → ∃ r uf1, uf.find x = some (r, uf1)) ∧
    (∀ x k, x < n → n ≤ k → ∃ r uf1, UnionFind.findAux k uf x = some (r, uf1)) := by
  have hinv := reachable_inv hr
  refine ⟨hinv.rank_lt_parent, ?_, ?_, ?_, ?_⟩
  · intro x y uf1 hx hy hu
    exact unite_link_rule hinv hx hy hu
  · intro x k hx h
    exact no_parent_cycle hinv hx k h
  · intro x hx
    obtain ⟨r, uf1, hf, _⟩ := find_spec hinv hx
    exact ⟨r, uf1, hf⟩
  · intro x k hx hk
    obtain ⟨r, uf1, hf, _⟩ := findAux_spec k uf x hinv hx (by omega)
    exact ⟨r, uf1, hf⟩

theorem rank_increases_to_parent_witness :
    sampleForest.Reachable 4 ∧
    ((∀ x, x < 4 → sampleForest.parent.getD x 0 ≠ x →
      sampleForest.rank.getD x 0 < sampleForest.rank.getD (sampleForest.parent.getD x 0) 0) ∧
    (∀ x y uf1, x < 4 → y < 4 → sampleForest.unite x y = some (true, uf1) →
      ∃ rx ry, RootOf sampleForest.parent x rx ∧ RootOf sampleForest.parent y ry ∧ rx ≠ ry ∧
        (sampleForest.rank.getD rx 0 < sampleForest.rank.getD ry 0 →
          uf1.parent.getD rx 0 = ry ∧ uf1.rank = sampleForest.rank) ∧
        (sampleForest.rank.getD ry 0 < sampleForest.rank.getD rx 0 →
          uf1.parent.getD ry 0 = rx ∧ uf1.rank = sampleForest.rank) ∧
        (sampleForest.rank.getD rx 0 = sampleForest.rank.getD ry 0 →
          uf1.parent.getD ry 0 = rx ∧
          uf1.rank.getD rx 0 = sampleForest.rank.getD rx 0 + 1 ∧
          ∀ z, z ≠ rx → uf1.rank.getD z 0 = sampleForest.rank.getD z 0)) ∧
    (∀ x k, x < 4 → (fun z => sampleForest.parent.getD z 0)^[k + 1] x = x →
      sampleForest.parent.getD x 0 = x) ∧
    (∀ x, x < 4 → ∃ r uf1, sampleForest.find x = some (r, uf1)) ∧
    (∀ x k, x < 4 → 4 ≤ k → ∃ r uf1, UnionFind.findAux k sampleForest x = some (r, uf1))) :=
  ⟨sampleForest_reachable, rank_increases_to_parent 4 sampleForest sampleForest_reachable⟩


/-! ## Searches: exploration order, unreachable ends and step counts, the claims -/

/-- C21. For every maze state and every cell, `getNeighbors` lists exactly
the in-bounds 4-neighbours in whose direction `hasWall` is false, in the
order top, right, bottom, left (it equals the list the specification words);
and for every in-bounds start other than the end, `solveBFS` returns a result
whose explored trace begins with the start followed by `getNeighbors(start)`
in that order, while the trace of `solveDFS` begins with the start followed
by `getNeighbors(start)` reversed. -/
theorem explored_begins_with_neighbors (pf : PathFinder) (hs : pf.maze.InBounds pf.start)
    (hne : pf.start ≠ pf.goal) :
    (∀ x y, pf.getNeighbors x y = openNeighbors pf.maze x y) ∧
    (∃ r rest, pf.solveBFS = some r ∧
      r.explored = pf.start :: (pf.getNeighbors pf.startX pf.startY ++ rest)) ∧
    (∃ r rest, pf.solveDFS = some r ∧
      r.explored = pf.start :: ((pf.getNeighbors pf.startX pf.startY).reverse ++ rest)) := by
  obtain ⟨⟨rb, hb, _⟩, ⟨rd, hd, _⟩⟩ := solve_spec_of_start pf hs
  obtain ⟨restb, hrb⟩ := searchLoop_explored_start pf false hs hne rb hb
  obtain ⟨restd, hrd⟩ := searchLoop_explored_start pf true hs hne rd hd
  exact ⟨getNeighbors_eq_openNeighbors pf, ⟨rb, restb, hb, hrb⟩, ⟨rd, restd, hd, hrd⟩⟩

theorem explored_begins_with_neighbors_witness :
    sampleFinder.maze.InBounds sampleFinder.start ∧ sampleFinder.start ≠ sampleFinder.goal ∧
    ((∀ x y, sampleFinder.getNeighbors x y = openNeighbors sampleFinder.maze x y) ∧
     (∃ r rest, sampleFinder.solveBFS = some r ∧
       r.explored = sampleFinder.start ::
         (sampleFinder.getNeighbors sampleFinder.startX sampleFinder.startY ++ rest)) ∧
     (∃ r rest, sampleFinder.solveDFS = some r ∧
       r.explored = sampleFinder.start ::
         ((sampleFinder.getNeighbors sampleFinder.startX sampleFinder.startY).reverse ++
           rest))) :=
  ⟨by decide, by decide, explored_begins_with_neighbors sampleFinder (by decide) (by decide)⟩

/-- C23. On a maze on which `generateMaze` has not been run, freshly
constructed or reset (every wall present), and for every in-bounds start
other than the end, `solveBFS` and `solveDFS` both return, with `found = false`,
an empty path, `explored = [start]` and `stepsCount = 1`. -/
theorem search_on_ungenerated_maze (m : Maze) (hm : m.WF) (sx sy ex ey : Int)
    (hs : m.InBounds (sx, sy)) (hne : (sx, sy) ≠ (ex, ey)) :
    (∃ m0, Maze.new m.width m.height = some m0 ∧
      (PathFinder.mk m0 sx sy ex ey).solveBFS = some ⟨[], [(sx, sy)], 1, false⟩ ∧
      (PathFinder.mk m0 sx sy ex ey).solveDFS = some ⟨[], [(sx, sy)], 1, false⟩) ∧
    (PathFinder.mk m.reset sx sy ex ey).solveBFS = some ⟨[], [(sx, sy)], 1, false⟩ ∧
    (PathFinder.mk m.reset sx sy ex ey).solveDFS = some ⟨[], [(sx, sy)], 1, false⟩ := by
  obtain ⟨hW, hH, hg⟩ := hm
  have hc : cellAt m.reset.grid sx sy = Cell.default :=
    (clearGrid_spec hW hg).2 sx sy hs.1 hs.2.1 hs.2.2.1 hs.2.2.2
  have key : ∀ lifo, searchLoop (PathFinder.mk m.reset sx sy ex ey) lifo
      (m.width * m.height).toNat (initialState (PathFinder.mk m.reset sx sy ex ey)) =
      some ⟨[], [(sx, sy)], 1, false⟩ :=
    fun lifo => searchLoop_walled_start (PathFinder.mk m.reset sx sy ex ey) lifo hs hne hc
  have hnew : Maze.new m.width m.height = some m.reset := by
    rw [maze_new_of_nonneg hW hH]
    unfold Maze.reset
    rw [clearGrid_eq hW hg]
  exact ⟨⟨m.reset, hnew, key false, key true⟩, key false, key true⟩

theorem search_on_ungenerated_maze_witness :
    sampleMaze.WF ∧ sampleMaze.InBounds (0, 0) ∧ ((0, 0) : Int × Int) ≠ (2, 1) ∧
    ((∃ m0, Maze.new sampleMaze.width sampleMaze.height = some m0 ∧
      (PathFinder.mk m0 0 0 2 1).solveBFS = some ⟨[], [(0, 0)], 1, false⟩ ∧
      (PathFinder.mk m0 0 0 2 1).solveDFS = some ⟨[], [(0, 0)], 1, false⟩) ∧
     (PathFinder.mk sampleMaze.reset 0 0 2 1).solveBFS = some ⟨[], [(0, 0)], 1, false⟩ ∧
     (PathFinder.mk sampleMaze.reset 0 0 2 1).solveDFS = some ⟨[], [(0, 0)], 1, false⟩) :=
  ⟨by decide, by decide, by decide,
    search_on_ungenerated_maze sampleMaze (by decide) 0 0 2 1 (by decide) (by decide)⟩

/-- C27. For every maze state and in-bounds start and end, `solveBFS` and
`solveDFS` return a result in which `found = false` implies that `stepsCount`
equals the length of `explored`; the two can differ only when `found = true`,
and then the length of the path is at most `stepsCount`. -/
theorem steps_eq_explored_unless_found (pf : PathFinder) (hwf : pf.WF) :
    (∃ r, pf.solveBFS = some r ∧
      (r.found = false → r.stepsCount = r.explored.length) ∧
      (r.stepsCount ≠ r.explored.length → r.found = true) ∧
      (r.found = true → r.path.length ≤ r.stepsCount)) ∧
    (∃ r, pf.solveDFS = some r ∧
      (r.found = false → r.stepsCount = r.explored.length) ∧
      (r.stepsCount ≠ r.explored.length → r.found = true) ∧
      (r.found = true → r.path.length ≤ r.stepsCount)) := by
  obtain ⟨⟨rb, hb, ob⟩, ⟨rd, hd, od⟩⟩ := solve_spec pf hwf
  have hinit := (initialState_inv hwf).1
  have hcount : ∀ {lifo : Bool} {r : PathResult}, SearchOutcome pf lifo r →
      (r.found = false → r.stepsCount = r.explored.length) ∧
      (r.stepsCount ≠ r.explored.length → r.found = true) := by
    intro lifo r o
    have h := (outcome_counts o).2.2
    refine ⟨h, ?_⟩
    intro hdiff
    cases hf : r.found
    · exact absurd (h hf) hdiff
    · rfl
  exact ⟨⟨rb, hb, (hcount ob).1, (hcount ob).2,
      searchLoop_path_le pf false _ _ _ hinit (fun _ _ => Nat.zero_le _) rb hb⟩,
    ⟨rd, hd, (hcount od).1, (hcount od).2,
      searchLoop_path_le pf true _ _ _ hinit (fun _ _ => Nat.zero_le _) rd hd⟩⟩

theorem steps_eq_explored_unless_found_witness :
    sampleFinder.WF ∧
    ((∃ r, sampleFinder.solveBFS = some r ∧
      (r.found = false → r.stepsCount = r.explored.length) ∧
      (r.stepsCount ≠ r.explored.length → r.found = true) ∧
      (r.found = true → r.path.length ≤ r.stepsCount)) ∧
     (∃ r, sampleFinder.solveDFS = some r ∧
      (r.found = false → r.stepsCount = r.explored.length) ∧
      (r.stepsCount ≠ r.explored.length → r.found = true) ∧
      (r.found = true → r.path.length ≤ r.stepsCount))) :=
  ⟨by decide, steps_eq_explored_unless_found sampleFinder (by decide)⟩


/-! ## Maze generation: boundary walls and the removal log, the claims -/

/-- C24. For every maze state, every `extraCycles` and every shuffle outcome
(in particular for width and height at least 1), `generateMaze` leaves every
outer boundary wall in place: each cell with `y = 0` keeps its top wall, with
`y = H - 1` its bottom wall, with `x = 0` its left wall and with `x = W - 1`
its right wall. Consequently, on the generated maze, whenever `hasWall`
reports no wall in a direction the neighbour in that direction passes
`isValid`, so `getNeighbors` is the list chosen by the wall tests alone. -/
theorem boundary_walls_stay (shuffle1 shuffle2 : List Wall → List Wall)
    (hperm1 : ∀ l, (shuffle1 l).Perm l) (hperm2 : ∀ l, (shuffle2 l).Perm l)
    (m : Maze) (hm : m.WF) (extraCycles : Int) :
    ∃ m1, m.generateMaze shuffle1 shuffle2 extraCycles = some m1 ∧
      (∀ x y, m.InBounds (x, y) →
        (y = 0 → (m1.getCell x y).top = true ∧ m1.hasWall x y 0 = true) ∧
        (y = m.height - 1 → (m1.getCell x y).bottom = true ∧ m1.hasWall x y 2 = true) ∧
        (x = 0 → (m1.getCell x y).left = true ∧ m1.hasWall x y 3 = true) ∧
        (x = m.width - 1 → (m1.getCell x y).right = true ∧ m1.hasWall x y 1 = true)) ∧
      (∀ pf : PathFinder, pf.maze = m1 → ∀ x y,
        (m1.hasWall x y 0 = false → pf.isValid x (y - 1) = true) ∧
        (m1.hasWall x y 1 = false → pf.isValid (x + 1) y = true) ∧
        (m1.hasWall x y 2 = false → pf.isValid x (y + 1) = true) ∧
        (m1.hasWall x y 3 = false → pf.isValid (x - 1) y = true) ∧
        pf.getNeighbors x y =
          (if !m1.hasWall x y 0 then [(x, y - 1)] else []) ++
          (if !m1.hasWall x y 1 then [(x + 1, y)] else []) ++
          (if !m1.hasWall x y 2 then [(x, y + 1)] else []) ++
          (if !m1.hasWall x y 3 then [(x - 1, y)] else [])) := by
  obtain ⟨_, m1, _, _, hgen, hw, hh, _, hf, _, hwalls⟩ :=
    generateMaze_spec hperm1 hperm2 hm extraCycles
  rw [← hw, ← hh] at hf hwalls
  refine ⟨m1, hgen, ?_, ?_⟩
  · intro x y hin
    have hin1 : InGrid m1.width m1.height (x, y) := by rw [hw, hh]; exact hin
    obtain ⟨e0, e1, e2, e3⟩ := hasWall_of_inBounds m1 hin1
    obtain ⟨b0, b1, b2, b3⟩ := boundary_flags hf hwalls hin1.1 hin1.2.1 hin1.2.2.1 hin1.2.2.2
    rw [getCell_of_inBounds m1 hin1, e0, e1, e2, e3, ← hw, ← hh]
    exact ⟨fun e => ⟨b0 e, b0 e⟩, fun e => ⟨b1 e, b1 e⟩, fun e => ⟨b2 e, b2 e⟩,
      fun e => ⟨b3 e, b3 e⟩⟩
  · intro pf hpf x y
    subst hpf
    obtain ⟨o0, o1, o2, o3⟩ := open_side_inBounds hf hwalls x y
    have v0 := fun h => (isValid_iff pf x (y - 1)).2 (o0 h)
    have v1 := fun h => (isValid_iff pf (x + 1) y).2 (o1 h)
    have v2 := fun h => (isValid_iff pf x (y + 1)).2 (o2 h)
    have v3 := fun h => (isValid_iff pf (x - 1) y).2 (o3 h)
    exact ⟨v0, v1, v2, v3, getNeighbors_of_open_sides pf x y v0 v1 v2 v3⟩

theorem boundary_walls_stay_witness :
    sampleMaze.WF ∧
    ∃ m1, sampleMaze.generateMaze List.reverse id 2 = some m1 ∧
      (∀ x y, sampleMaze.InBounds (x, y) →
        (y = 0 → (m1.getCell x y).top = true ∧ m1.hasWall x y 0 = true) ∧
        (y = sampleMaze.height - 1 →
          (m1.getCell x y).bottom = true ∧ m1.hasWall x y 2 = true) ∧
        (x = 0 → (m1.getCell x y).left = true ∧ m1.hasWall x y 3 = true) ∧
        (x = sampleMaze.width - 1 →
          (m1.getCell x y).right = true ∧ m1.hasWall x y 1 = true)) ∧
      (∀ pf : PathFinder, pf.maze = m1 → ∀ x y,
        (m1.hasWall x y 0 = false → pf.isValid x (y - 1) = true) ∧
        (m1.hasWall x y 1 = false → pf.isValid (x + 1) y = true) ∧
        (m1.hasWall x y 2 = false → pf.isValid x (y + 1) = true) ∧
        (m1.hasWall x y 3 = false → pf.isValid (x - 1) y = true) ∧
        pf.getNeighbors x y =
          (if !m1.hasWall x y 0 then [(x, y - 1)] else []) ++
          (if !m1.hasWall x y 1 then [(x + 1, y)] else []) ++
          (if !m1.hasWall x y 2 then [(x, y + 1)] else []) ++
          (if !m1.hasWall x y 3 then [(x - 1, y)] else [])) :=
  ⟨by decide,
    boundary_walls_stay List.reverse id (fun l => List.reverse_perm l)
      (fun l => List.Perm.refl l) sampleMaze (by decide) 2⟩

/-- C25. For every width and height at least 1, every `extraCycles` and
every shuffle outcome, the removal log left by `generateMaze` holds no wall
and no edge twice and describes the final grid exactly: between two adjacent
in-bounds cells the wall is open (on either side) if and only if their edge
is in the log; replaying the log in order with the dual-flag removal from the
all-walled grid yields the final grid; and the replay of the first
`W * H - 1` entries alone yields a maze in which any two in-bounds cells are
joined by a walk of legal moves. -/
theorem removal_log_describes_grid (shuffle1 shuffle2 : List Wall → List Wall)
    (hperm1 : ∀ l, (shuffle1 l).Perm l) (hperm2 : ∀ l, (shuffle2 l).Perm l)
    (m : Maze) (hm : m.WF) (hW : 1 ≤ m.width) (hH : 1 ≤ m.height) (extraCycles : Int) :
    ∃ m1, m.generateMaze shuffle1 shuffle2 extraCycles = some m1 ∧
      m1.wallRemovalOrder.Nodup ∧
      (m1.wallRemovalOrder.map (fun w => s(w.fst, w.snd))).Nodup ∧
      (∀ x y, 0 ≤ x → x + 1 < m.width → 0 ≤ y → y < m.height →
        (m1.hasWall x y 1 = false ↔ Wall.mk x y (x + 1) y ∈ m1.wallRemovalOrder) ∧
        (m1.hasWall (x + 1) y 3 = false ↔ Wall.mk x y (x + 1) y ∈ m1.wallRemovalOrder)) ∧
      (∀ x y, 0 ≤ x → x < m.width → 0 ≤ y → y + 1 < m.height →
        (m1.hasWall x y 2 = false ↔ Wall.mk x y x (y + 1) ∈ m1.wallRemovalOrder) ∧
        (m1.hasWall x (y + 1) 0 = false ↔ Wall.mk x y x (y + 1) ∈ m1.wallRemovalOrder)) ∧
      replayLog m.width m.height m1.wallRemovalOrder = m1.grid ∧
      (∀ a b, m.InBounds a → m.InBounds b →
        ∃ p, (Maze.mk m.width m.height
          (replayLog m.width m.height
            (m1.wallRemovalOrder.take (m.width * m.height - 1).toNat))
          (m1.wallRemovalOrder.take (m.width * m.height - 1).toNat)).IsWalk a b p) := by
  obtain ⟨st, m1, _, hinv, hgen, hw, hh, hd, hf, hlog, hwalls⟩ :=
    generateMaze_spec hperm1 hperm2 hm extraCycles
  have hall : ∀ w, IsGridWall m.width m.height w → w ∈ shuffle1 (allWalls m.width m.height) :=
    fun _ hw => (hperm1 _).symm.subset (mem_allWalls.2 hw)
  have hnd : m1.wallRemovalOrder.Nodup := by
    rw [hlog]
    exact generated_log_nodup hperm1 hperm2 hinv _
  have htake : m1.wallRemovalOrder.take (m.width * m.height - 1).toNat = st.wallRemovalOrder := by
    have hcount := tree_count hW hH hinv hall
    have hlen : (m.width * m.height - 1).toNat = st.wallRemovalOrder.length := by omega
    rw [hlog, hlen, List.take_left]
  have htree : ∀ w, w ∈ st.wallRemovalOrder → IsGridWall m.width m.height w :=
    fun w h => hwalls w (by rw [hlog]; exact List.mem_append_left _ h)
  refine ⟨m1, hgen, hnd, ?_, ?_, ?_, ?_, ?_⟩
  · apply List.Nodup.map_on _ hnd
    intro a ha b hb hab
    exact (hwalls a ha).eq_of_edge_eq (hwalls b hb) hab
  · intro x y hx hxW hy hyH
    have hin1 : InGrid m1.width m1.height (x, y) := by
      rw [hw, hh]; exact ⟨hx, by show x < m.width; omega, hy, hyH⟩
    have hin2 : InGrid m1.width m1.height (x + 1, y) := by
      rw [hw, hh]; exact ⟨by show 0 ≤ x + 1; omega, hxW, hy, hyH⟩
    rw [(hasWall_of_inBounds m1 hin1).2.1, (hasWall_of_inBounds m1 hin2).2.2.2]
    have h1 := (hf x y hx (by omega) hy hyH).2.2.1
    have h2 := (hf (x + 1) y (by omega) hxW hy hyH).2.2.2
    rw [add_sub_cancel_right] at h2
    exact ⟨h1, h2⟩
  · intro x y hx hxW hy hyH
    have hin1 : InGrid m1.width m1.height (x, y) := by
      rw [hw, hh]; exact ⟨hx, hxW, hy, by show y < m.height; omega⟩
    have hin2 : InGrid m1.width m1.height (x, y + 1) := by
      rw [hw, hh]; exact ⟨hx, hxW, by show 0 ≤ y + 1; omega, hyH⟩
    rw [(hasWall_of_inBounds m1 hin1).2.2.1, (hasWall_of_inBounds m1 hin2).1]
    have h1 := (hf x y hx hxW hy (by omega)).1
    have h2 := (hf x (y + 1) hx hxW (by omega) hyH).2.1
    rw [add_sub_cancel_right] at h2
    exact ⟨h1, h2⟩
  · obtain ⟨rd, rf⟩ := @replayLog_spec m.width m.height m1.wallRemovalOrder hwalls
    exact grid_eq_of_flagsMatch rd hd rf hf
  · intro a b ha hb
    rw [htake]
    obtain ⟨_, rf⟩ := @replayLog_spec m.width m.height st.wallRemovalOrder htree
    have hreach := tree_spanning hinv hall ha hb
    obtain ⟨p, h1, h2, h3, _⟩ := exists_list_of_reachable hreach
    refine ⟨p, h1, h2, h3.imp ?_⟩
    intro c d hcd
    exact (@move_iff_adj ⟨m.width, m.height, replayLog m.width m.height st.wallRemovalOrder,
      st.wallRemovalOrder⟩ rf htree c d).2 hcd

theorem removal_log_describes_grid_witness :
    sampleMaze.WF ∧ 1 ≤ sampleMaze.width ∧ 1 ≤ sampleMaze.height ∧
    ∃ m1, sampleMaze.generateMaze List.reverse id 2 = some m1 ∧
      m1.wallRemovalOrder.Nodup ∧
      (m1.wallRemovalOrder.map (fun w => s(w.fst, w.snd))).Nodup ∧
      (∀ x y, 0 ≤ x → x + 1 < sampleMaze.width → 0 ≤ y → y < sampleMaze.height →
        (m1.hasWall x y 1 = false ↔ Wall.mk x y (x + 1) y ∈ m1.wallRemovalOrder) ∧
        (m1.hasWall (x + 1) y 3 = false ↔ Wall.mk x y (x + 1) y ∈ m1.wallRemovalOrder)) ∧
      (∀ x y, 0 ≤ x → x < sampleMaze.width → 0 ≤ y → y + 1 < sampleMaze.height →
        (m1.hasWall x y 2 = false ↔ Wall.mk x y x (y + 1) ∈ m1.wallRemovalOrder) ∧
        (m1.hasWall x (y + 1) 0 = false ↔ Wall.mk x y x (y + 1) ∈ m1.wallRemovalOrder)) ∧
      replayLog sampleMaze.width sampleMaze.height m1.wallRemovalOrder = m1.grid ∧
      (∀ a b, sampleMaze.InBounds a → sampleMaze.InBounds b →
        ∃ p, (Maze.mk sampleMaze.width sampleMaze.height
          (replayLog sampleMaze.width sampleMaze.height
            (m1.wallRemovalOrder.take (sampleMaze.width * sampleMaze.height - 1).toNat))
          (m1.wallRemovalOrder.take
            (sampleMaze.width * sampleMaze.height - 1).toNat)).IsWalk a b p) :=
  ⟨by decide, by decide, by decide,
    removal_log_describes_grid List.reverse id (fun l => List.reverse_perm l)
      (fun l => List.Perm.refl l) sampleMaze (by decide) (by decide) (by decide) 2⟩

end MazePathFinder
